import Mathlib

/-!
A Lean model of the CSV formula table (`table.go`)

The development embeds `table.go` shallowly:

* Go `int` is modelled as `Int`, every arithmetic result wrapped to 64 bits;
* a Go `(value, error)` result is a pair whose second component is `Option String`
  (`none` is `nil`, `some msg` is the error built by `fmt.Errorf(msg)`);
* a call that may panic or recurse without bound returns a `Run`: `ret` for a normal
  return, `fault` for a run-time panic (index out of range, nil dereference) and
  `timeout` when the recursion budget of the model is used up;
* a Go `map` is an association list with unique keys; the order in which `range`
  visits it is a parameter, quantified over all permutations in the theorems;
* `regexp` and `strconv` are modelled by small executable functions.
-/

namespace Yadro

/-! ## Go `int` -/

/-- Smallest value of a 64-bit Go `int`. -/
def minInt : Int := -9223372036854775808

/-- Largest value of a 64-bit Go `int`. -/
def maxInt : Int := 9223372036854775807

/-- Two's-complement wrap-around of an exact integer into the 64-bit `int` range. -/
def wrapInt (x : Int) : Int :=
  (x + 9223372036854775808) % 18446744073709551616 - 9223372036854775808

/-- The exact integer fits a Go `int`. -/
def InRange (x : Int) : Prop := minInt ≤ x ∧ x ≤ maxInt

instance (x : Int) : Decidable (InRange x) := by unfold InRange; infer_instance

/-- Go `a + b` on `int`. -/
def goAdd (a b : Int) : Int := wrapInt (a + b)

/-- Go `a - b` on `int`. -/
def goSub (a b : Int) : Int := wrapInt (a - b)

/-- Go `a * b` on `int`. -/
def goMul (a b : Int) : Int := wrapInt (a * b)

/-- Go `a / b` on `int` for `b ≠ 0`: the quotient truncated toward zero. -/
def goDiv (a b : Int) : Int := wrapInt (Int.tdiv a b)

/-! ## Outcomes of calls -/

/-- Outcome of running a call of the program. -/
inductive Run (α : Type) where
  /-- The call returned. -/
  | ret (a : α) : Run α
  /-- The call panicked at run time. -/
  | fault : Run α
  /-- The recursion budget of the model was exhausted. -/
  | timeout : Run α
  deriving DecidableEq, Repr

/-- Sequencing of calls: a panic or an exhausted budget ends the computation. -/
def Run.bind {α β : Type} (x : Run α) (f : α → Run β) : Run β :=
  match x with
  | .ret a => f a
  | .fault => .fault
  | .timeout => .timeout

/-- A Go error value: `nil` or the message given to `fmt.Errorf`. -/
abbrev GoError := Option String

/-! ## Error messages of `table.go` -/

/-- Message of the error returned by `validateTableKeys` for a name of the wrong shape. -/
def errKeyShape : String :=
  "названия колонок должны состоять из латинских букв, а строк - из арабских чисел"

/-- Message of the error returned by `validateTableKeys` for a repeated name. -/
def errKeyDuplicate : String := "ключи должны состоять из уникальных значений"

/-- Message of the error returned by `parseRecord` when the formula pattern does not match. -/
def errMalformedFormula : String := "некорректная формула"

/-- Message of the error returned by `parseRecord` for a non-formula cell that is no integer. -/
def errMalformedNumber : String := "ошибка во время парсинга целочисленных значений"

/-- Message of the error returned by `validateCellAddress`. -/
def errUnknownCell : String := "некорректный адрес в формуле"

/-- Message of the error returned by `calculateFormula` for a zero divisor. -/
def errDivisionByZero : String := "деление на ноль"

/-- Message of the error returned by `calculateFormula` for an operator outside `+ - * /`. -/
def errUnknownOperator : String := "недопустимый оператор"

/-- Message of the error returned by `GetCellValueByAddress`. -/
def errOutOfBounds : String := "некорректный адрес"

/-! ## `strings` and `strconv` -/

/-- Go `strings.HasPrefix(s, p)`. -/
def HasPrefix (s p : String) : Bool := p.data.isPrefixOf s.data

/-- The decimal digit character of `d` (for `d < 10`). -/
def digitChar (d : Nat) : Char := Char.ofNat (48 + d)

/-- Decimal digits of `n`, most significant first; `fuel` bounds the number of digits. -/
def natDigits : Nat → Nat → List Char
  | 0, _ => []
  | fuel + 1, n =>
    if n < 10 then [digitChar n] else natDigits fuel (n / 10) ++ [digitChar (n % 10)]

/-- Go `strconv.Itoa`. -/
def Itoa (v : Int) : String :=
  if v < 0 then String.mk ('-' :: natDigits (v.natAbs + 1) v.natAbs)
  else String.mk (natDigits (v.natAbs + 1) v.natAbs)

/-- ASCII decimal digit, the class `\d` of Go regular expressions. -/
def isDigit (c : Char) : Bool := decide ('0' ≤ c) && decide (c ≤ '9')

/-- ASCII letter, the class `[a-zA-Z]`. -/
def isLetter (c : Char) : Bool :=
  (decide ('a' ≤ c) && decide (c ≤ 'z')) || (decide ('A' ≤ c) && decide (c ≤ 'Z'))

/-- Value of a string of decimal digits. -/
def digitsVal (ds : List Char) : Nat :=
  ds.foldl (fun acc c => acc * 10 + (c.toNat - 48)) 0

/-- The two kinds of error of `strconv.Atoi`. -/
inductive NumError where
  /-- The sentinel `strconv.ErrSyntax`. -/
  | ErrSyntax : NumError
  /-- The sentinel `strconv.ErrRange`. -/
  | ErrRange : NumError
  deriving DecidableEq, Repr

/-- Go `strconv.Atoi` applied to an unsigned digit string with the sign already removed:
a syntax error unless the text is one or more digits; a value outside the `int` range
is clamped and reported as a range error. -/
def atoiDigits (neg : Bool) (ds : List Char) : Int × Option NumError :=
  if ds = [] ∨ ¬ ds.all isDigit = true then (0, some NumError.ErrSyntax)
  else
    let n : Int := (digitsVal ds : Int)
    if neg then
      if n > 9223372036854775808 then (minInt, some NumError.ErrRange) else (-n, none)
    else
      if n ≥ 9223372036854775808 then (maxInt, some NumError.ErrRange) else (n, none)

/-- Go `strconv.Atoi`: an optional sign followed by decimal digits. -/
def Atoi (s : String) : Int × Option NumError :=
  match s.data with
  | [] => (0, some NumError.ErrSyntax)
  | c :: rest =>
    if c = '-' then atoiDigits true rest
    else if c = '+' then atoiDigits false rest
    else atoiDigits false (c :: rest)

/-! ## `regexp`: the three patterns of `init` -/

/-- Regular expressions as far as the patterns of `table.go` need them. -/
inductive RE where
  /-- One character of a class, such as `=` or the operator class of the formula pattern. -/
  | cls (p : Char → Bool) : RE
  /-- One or more characters of a class, such as `[a-zA-Z]+` (greedy). -/
  | clsPlus (p : Char → Bool) : RE
  /-- Concatenation. -/
  | seq (a b : RE) : RE
  /-- Alternation `a|b`, the left branch preferred. -/
  | alt (a b : RE) : RE
  /-- Capturing group; `name` is empty for an unnamed group. -/
  | group (name : String) (a : RE) : RE

/-- The captured groups of a match: group name and captured text. -/
abbrev Caps := List (String × List Char)

/-- All ways for `[p]+` to consume a non-empty prefix of the input, longest first;
each result is the consumed text and the rest of the input. -/
def plusRuns (p : Char → Bool) : List Char → List (List Char × List Char)
  | [] => []
  | c :: cs =>
    if p c then (plusRuns p cs).map (fun x => (c :: x.1, x.2)) ++ [([c], cs)] else []

/-- All matches of a regular expression at the start of the input, in the order of
preference of a backtracking matcher: captured groups, consumed text, rest of input. -/
def RE.run : RE → List Char → List (Caps × List Char × List Char)
  | .cls p, s =>
    match s with
    | [] => []
    | c :: r => if p c then [([], [c], r)] else []
  | .clsPlus p, s => (plusRuns p s).map (fun x => ([], x.1, x.2))
  | .seq a b, s =>
    (a.run s).flatMap (fun x =>
      (b.run x.2.2).map (fun y => (x.1 ++ y.1, x.2.1 ++ y.2.1, y.2.2)))
  | .alt a b, s => a.run s ++ b.run s
  | .group name a, s => (a.run s).map (fun x => ((name, x.2.1) :: x.1, x.2.1, x.2.2))

/-- The first match of `^re$` on the whole of `s`, as its captured groups. -/
def RE.fullMatch (re : RE) (s : String) : Option Caps :=
  ((re.run s.data).find? (fun x => x.2.2.isEmpty)).map (fun x => x.1)

/-- Go `(*Regexp).MatchString` for a pattern `^re$`. -/
def RE.MatchString (re : RE) (s : String) : Bool := (re.fullMatch s).isSome

/-- Text of the group `name` in a match, empty when the group took no part in it. -/
def capText (m : Caps) (name : String) : String :=
  match m.lookup name with
  | some cs => String.mk cs
  | none => ""

/-- The operand part of the formula pattern:
`((?P<col>[a-zA-Z]+)(?P<row>\d+)|(?P<const>\d+))`. -/
def operandRE (col row const : String) : RE :=
  .group "" (.alt (.seq (.group col (.clsPlus isLetter)) (.group row (.clsPlus isDigit)))
    (.group const (.clsPlus isDigit)))

/-- The character class of the operator group: plus, star, slash, minus. -/
def isOperatorChar (c : Char) : Bool := c = '+' || c = '*' || c = '/' || c = '-'

/-- The pattern `formulaRegExCompiled` without its anchors `^` and `$`. -/
def formulaRegExCompiled : RE :=
  .seq (.cls (fun c => c = '='))
    (.seq (operandRE "arg1ColName" "arg1RowName" "arg1Const")
      (.seq (.group "operator" (.cls isOperatorChar))
        (operandRE "arg2ColName" "arg2RowName" "arg2Const")))

/-- The pattern `columnNameRegExCompiled`, `^[a-zA-Z]+$`, without its anchors. -/
def columnNameRegExCompiled : RE := .clsPlus isLetter

/-- The pattern `rowNameRegExCompiled`, `^\d+$`, without its anchors. -/
def rowNameRegExCompiled : RE := .clsPlus isDigit

/-! ## Data model -/

/-- The struct `Address`. -/
structure Address where
  /-- Index of the column. -/
  ColumnIndex : Int
  /-- Index of the row. -/
  RowIndex : Int
  deriving DecidableEq, Repr

/-- The struct `Formula`; a `nil` operand address is `none`. -/
structure Formula where
  /-- Address of the first operand, `none` for a constant. -/
  Operand1Addr : Option Address
  /-- Address of the second operand, `none` for a constant. -/
  Operand2Addr : Option Address
  /-- The operator rune. -/
  Operator : Char
  /-- The first constant. -/
  Arg1Const : Int
  /-- The second constant. -/
  Arg2Const : Int
  /-- The flag read by the early return of `calculateFormula`. -/
  isCalculated : Bool
  /-- The value returned by the early return of `calculateFormula`. -/
  result : Int
  deriving DecidableEq, Repr

/-- The struct `Table`; a Go map is a list of key–value entries with unique keys. -/
structure Table where
  /-- Row name to row index. -/
  RowNamesMap : List (String × Int)
  /-- Column name to column index. -/
  ColNamesMap : List (String × Int)
  /-- Column names in order. -/
  ColNames : List String
  /-- Row names in order. -/
  RowNames : List String
  /-- Number of data rows. -/
  RowCount : Int
  /-- Number of data columns. -/
  ColCount : Int
  /-- The field delimiter. -/
  Comma : String
  /-- The grid of cell strings, one list per row. -/
  cells : List (List String)
  /-- The registered formulas by address. -/
  formulas : List (Address × Formula)
  deriving DecidableEq, Repr

/-- Go `m[k] = v` on a map: the entry of `k` is replaced or added. -/
def mapSet {κ ν : Type} [DecidableEq κ] (m : List (κ × ν)) (k : κ) (v : ν) : List (κ × ν) :=
  m.filter (fun e => decide (e.1 ≠ k)) ++ [(k, v)]

/-- Go `m[k]` on a map, `none` when the key is absent. -/
def mapGet {κ ν : Type} [DecidableEq κ] (m : List (κ × ν)) (k : κ) : Option ν :=
  (m.find? (fun e => decide (e.1 = k))).map (fun e => e.2)

/-- The operator constants. -/
def Addition : Char := '+'
/-- The operator constant for `-`. -/
def Subtraction : Char := '-'
/-- The operator constant for `*`. -/
def Multiplication : Char := '*'
/-- The operator constant for `/`. -/
def Division : Char := '/'

/-! ## The methods of `Table` -/

/-- The loop of `validateTableKeys`: `uniqueKeys` holds the names seen so far. -/
def validateTableKeysLoop (regexChecker : RE) : List String → List String → GoError
  | [], _ => none
  | key :: rest, uniqueKeys =>
    if !regexChecker.MatchString key then some errKeyShape
    else if uniqueKeys.any (fun u => decide (key = u)) then some errKeyDuplicate
    else validateTableKeysLoop regexChecker rest (uniqueKeys ++ [key])

/-- The method `validateTableKeys`. -/
def validateTableKeys (keys : List String) (regexChecker : RE) : GoError :=
  validateTableKeysLoop regexChecker keys []

/-- The method `validateCellAddress`: the two nested loops over the name maps. -/
def validateCellAddress (t : Table) (columnName rowName : String) : GoError :=
  if t.ColNamesMap.any (fun c =>
      decide (columnName = c.1) && t.RowNamesMap.any (fun r => decide (rowName = r.1)))
  then none
  else some errUnknownCell

/-- The operand address built by `parseRecord` from a column and a row group: `nil`
unless both groups are non-empty, otherwise the validated address or the error. -/
def operandAddress (t : Table) (colName rowName : String) : Option Address × GoError :=
  if colName ≠ "" ∧ rowName ≠ "" then
    match validateCellAddress t colName rowName with
    | some e => (none, some e)
    | none =>
      (some { ColumnIndex := (mapGet t.ColNamesMap colName).getD 0,
              RowIndex := (mapGet t.RowNamesMap rowName).getD 0 }, none)
  else (none, none)

/-- The method `parseRecord` on the cell string `value` at `address`; the table returned
is the table with the formula registered when the cell holds a well-formed one. -/
def parseRecord (t : Table) (value : String) (address : Address) : Table × GoError :=
  if HasPrefix value "=" then
    match formulaRegExCompiled.fullMatch value with
    | some m =>
      let arg1ColName := capText m "arg1ColName"
      let arg1RowName := capText m "arg1RowName"
      let arg2ColName := capText m "arg2ColName"
      let arg2RowName := capText m "arg2RowName"
      let arg1Const := (Atoi (capText m "arg1Const")).1
      let arg2Const := (Atoi (capText m "arg2Const")).1
      let operator := (capText m "operator").data.headD (Char.ofNat 0)
      match operandAddress t arg1ColName arg1RowName with
      | (_, some e) => (t, some e)
      | (address1, none) =>
        match operandAddress t arg2ColName arg2RowName with
        | (_, some e) => (t, some e)
        | (address2, none) =>
          let formula : Formula :=
            { Operand1Addr := address1, Operand2Addr := address2, Operator := operator,
              Arg1Const := arg1Const, Arg2Const := arg2Const,
              isCalculated := false, result := 0 }
          ({ t with formulas := mapSet t.formulas address formula }, none)
    | none => (t, some errMalformedFormula)
  else
    match (Atoi value).2 with
    | some _ => (t, some errMalformedNumber)
    | none => (t, none)

/-- The indexing `t.cells[i][j]`, `none` when an index is out of range. -/
def cellNat (t : Table) (i j : Nat) : Option String :=
  match t.cells[i]? with
  | none => none
  | some row => row[j]?

/-- The method `GetCellValueByAddress`. The bounds test reads `t.cells[0]` once both
indices are known to be non-negative, which panics on a table without rows. -/
def GetCellValueByAddress (t : Table) (address : Address) : Run (String × GoError) :=
  if address.ColumnIndex < 0 ∨ address.RowIndex < 0 then .ret ("", some errOutOfBounds)
  else
    match t.cells.head? with
    | none => .fault
    | some row0 =>
      if address.ColumnIndex ≥ row0.length ∨ address.RowIndex ≥ t.cells.length then
        .ret ("", some errOutOfBounds)
      else
        match cellNat t address.RowIndex.toNat address.ColumnIndex.toNat with
        | none => .fault
        | some s => .ret (s, none)

/-- The method `GetCellNumericValueByAddress`, with the recursive call of
`calculateFormula` passed as `calcF`; `t.formulas[*address]` is `nil` for an
unregistered address and `calculateFormula` dereferences it. -/
def GetCellNumericValueByAddressWith (calcF : Formula → Run (Int × GoError)) (t : Table)
    (address : Address) : Run (Int × GoError) :=
  match GetCellValueByAddress t address with
  | .fault => .fault
  | .timeout => .timeout
  | .ret (_, some e) => .ret (0, some e)
  | .ret (rawValue, none) =>
    if HasPrefix rawValue "=" then
      match mapGet t.formulas address with
      | none => .fault
      | some formula =>
        match calcF formula with
        | .fault => .fault
        | .timeout => .timeout
        | .ret (_, some e) => .ret (0, some e)
        | .ret (result, none) => .ret (result, none)
    else .ret ((Atoi rawValue).1, none)

/-- The resolution of one operand in `calculateFormula`: the constant when the address is
`nil`, otherwise the value returned by `GetCellNumericValueByAddress`, its error dropped. -/
def resolveOperand (calcF : Formula → Run (Int × GoError)) (t : Table)
    (operandAddr : Option Address) (argConst : Int) : Run Int :=
  match operandAddr with
  | none => .ret argConst
  | some a => (GetCellNumericValueByAddressWith calcF t a).bind (fun r => .ret r.1)

/-- The `switch` of `calculateFormula` on the operator. -/
def applyOperator (operator : Char) (operand1 operand2 : Int) : Int × GoError :=
  if operator = Addition then (goAdd operand1 operand2, none)
  else if operator = Subtraction then (goSub operand1 operand2, none)
  else if operator = Multiplication then (goMul operand1 operand2, none)
  else if operator = Division then
    if operand2 = 0 then (0, some errDivisionByZero) else (goDiv operand1 operand2, none)
  else (0, some errUnknownOperator)

/-- The method `calculateFormula`; `fuel` bounds the depth of the recursion through
`GetCellNumericValueByAddress`. -/
def calculateFormula : Nat → Table → Formula → Run (Int × GoError)
  | 0, _, _ => .timeout
  | fuel + 1, t, formula =>
    if formula.isCalculated then .ret (formula.result, none)
    else
      (resolveOperand (calculateFormula fuel t) t formula.Operand1Addr formula.Arg1Const).bind
        (fun operand1 =>
          (resolveOperand (calculateFormula fuel t) t formula.Operand2Addr
              formula.Arg2Const).bind
            (fun operand2 => .ret (applyOperator formula.Operator operand1 operand2)))

/-- The method `GetCellNumericValueByAddress`. -/
def GetCellNumericValueByAddress (fuel : Nat) (t : Table) (address : Address) :
    Run (Int × GoError) :=
  GetCellNumericValueByAddressWith (calculateFormula fuel t) t address

/-- The two operands as `calculateFormula` resolves them before its `switch`, the first
operand first. -/
def resolveOperands (fuel : Nat) (t : Table) (formula : Formula) : Run (Int × Int) :=
  (resolveOperand (calculateFormula fuel t) t formula.Operand1Addr formula.Arg1Const).bind
    (fun operand1 =>
      (resolveOperand (calculateFormula fuel t) t formula.Operand2Addr formula.Arg2Const).bind
        (fun operand2 => .ret (operand1, operand2)))

/-- The assignment `t.cells[address.RowIndex][address.ColumnIndex] = s`, a panic when an
index is out of range. -/
def setCell (t : Table) (address : Address) (s : String) : Run Table :=
  if address.RowIndex < 0 ∨ address.ColumnIndex < 0 then .fault
  else
    match t.cells[address.RowIndex.toNat]? with
    | none => .fault
    | some row =>
      if address.ColumnIndex.toNat < row.length then
        let newRow := row.set address.ColumnIndex.toNat s
        .ret { t with cells := t.cells.set address.RowIndex.toNat newRow }
      else .fault

/-- The cell string at an address with non-negative indices, if there is one. -/
def cellAt (t : Table) (a : Address) : Option String :=
  if a.RowIndex < 0 ∨ a.ColumnIndex < 0 then none
  else cellNat t a.RowIndex.toNat a.ColumnIndex.toNat

/-! ## `ParseTable` -/

/-- The name map built by the loops of `ParseTable`: each name is mapped to its index,
a later occurrence replacing an earlier one. -/
def buildNamesMap : List String → Nat → List (String × Int) → List (String × Int)
  | [], _, m => m
  | name :: rest, i, m => buildNamesMap rest (i + 1) (mapSet m name (i : Int))

/-- The first part of `ParseTable`, from the records returned by the CSV reader to the
table with its names and cells; indexing an absent header or an empty record panics. -/
def loadGrid (records : List (List String)) (comma : String) : Run Table :=
  match records with
  | [] => .fault
  | header :: rows =>
    if header = [] ∨ rows.any (fun r => r.isEmpty) = true then .fault
    else
      .ret { RowNamesMap := buildNamesMap (rows.map (fun r => r.headD "")) 0 []
             ColNamesMap := buildNamesMap header.tail 0 []
             ColNames := header.tail
             RowNames := rows.map (fun r => r.headD "")
             RowCount := (records.length : Int) - 1
             ColCount := (header.length : Int) - 1
             Comma := comma
             cells := rows.map (fun r => r.tail)
             formulas := [] }

/-- The error with which `ParseTable` wraps a failure of `parseRecord`. -/
def cellError (colIndex rowIndex : Nat) (msg : String) : String :=
  "Col " ++ Itoa colIndex ++ " Row " ++ Itoa rowIndex ++ " - " ++ msg ++ "\n"

/-- The inner loop of the cell-parsing phase over the cells of row `rowIndex` from
column `colIndex` on. -/
def parseRowCells (rowIndex : Nat) : Table → List String → Nat → Table × GoError
  | t, [], _ => (t, none)
  | t, value :: rest, colIndex =>
    match parseRecord t value { ColumnIndex := colIndex, RowIndex := rowIndex } with
    | (t1, some e) => (t1, some (cellError colIndex rowIndex e))
    | (t1, none) => parseRowCells rowIndex t1 rest (colIndex + 1)

/-- The outer loop of the cell-parsing phase over the rows from `rowIndex` on. -/
def parseRows : Table → List (List String) → Nat → Table × GoError
  | t, [], _ => (t, none)
  | t, row :: rest, rowIndex =>
    match parseRowCells rowIndex t row 0 with
    | (t1, some e) => (t1, some e)
    | (t1, none) => parseRows t1 rest (rowIndex + 1)

/-- The cell-parsing phase of `ParseTable`. -/
def parseCells (t : Table) : Table × GoError := parseRows t t.cells 0

/-- The evaluation loop of `ParseTable` over the entries of the formulas map in the
order `entries` in which `range` visits them. -/
def evalFormulas (fuel : Nat) : Table → List (Address × Formula) → Run (Table × GoError)
  | t, [] => .ret (t, none)
  | t, (addr, formula) :: rest =>
    match calculateFormula fuel t formula with
    | .fault => .fault
    | .timeout => .timeout
    | .ret (_, some e) => .ret (t, some e)
    | .ret (calculatedValue, none) =>
      match setCell t addr (Itoa calculatedValue) with
      | .ret t1 => evalFormulas fuel t1 rest
      | .fault => .fault
      | .timeout => .timeout

/-- The part of `ParseTable` before evaluation: loading the grid, validating the column
and the row names, parsing the cells. -/
def loadAndParse (records : List (List String)) (comma : String) : Run (Table × GoError) :=
  (loadGrid records comma).bind (fun t =>
    match validateTableKeys t.ColNames columnNameRegExCompiled with
    | some e => .ret (t, some e)
    | none =>
      match validateTableKeys t.RowNames rowNameRegExCompiled with
      | some e => .ret (t, some e)
      | none => .ret (parseCells t))

/-- The method `ParseTable` from the records of the CSV reader on. `order` is the order in
which `range` visits the formulas map; reading and closing the file are left out. -/
def ParseTable (fuel : Nat) (order : List (Address × Formula) → List (Address × Formula))
    (records : List (List String)) (comma : String) : Run (Table × GoError) :=
  (loadAndParse records comma).bind (fun r =>
    match r with
    | (t, some e) => .ret (t, some e)
    | (t, none) => evalFormulas fuel t (order t.formulas))

/-- The method `calculateFormula` together with the formula as the call leaves it. The
body of the method assigns to no field of `formula`, so the formula is left as it was. -/
def calculateFormulaState (fuel : Nat) (t : Table) (formula : Formula) :
    Run ((Int × GoError) × Formula) :=
  (calculateFormula fuel t formula).bind (fun r => .ret (r, formula))

/-! ## The lexical shapes in the words of the specification -/

/-- The words of a regular expression, captures left aside. -/
def RE.Matches : RE → List Char → Prop
  | .cls p, w => ∃ c, w = [c] ∧ p c = true
  | .clsPlus p, w => w ≠ [] ∧ ∀ c ∈ w, p c = true
  | .seq a b, w => ∃ u v, w = u ++ v ∧ a.Matches u ∧ b.Matches v
  | .alt a b, w => a.Matches w ∨ b.Matches w
  | .group _ a, w => a.Matches w

/-- One or more ASCII letters. -/
def IsLetters (w : List Char) : Prop :=
  w ≠ [] ∧ ∀ c ∈ w, ('a' ≤ c ∧ c ≤ 'z') ∨ ('A' ≤ c ∧ c ≤ 'Z')

/-- One or more ASCII digits. -/
def IsDigits (w : List Char) : Prop := w ≠ [] ∧ ∀ c ∈ w, '0' ≤ c ∧ c ≤ '9'

/-- An operand of the formula grammar: letters followed by digits, or digits alone. -/
def IsOperandText (w : List Char) : Prop :=
  (∃ ls ds, IsLetters ls ∧ IsDigits ds ∧ w = ls ++ ds) ∨ IsDigits w

/-- An operator of the formula grammar. -/
def IsOperatorRune (c : Char) : Prop := c = '+' ∨ c = '-' ∨ c = '*' ∨ c = '/'

/-- The formula grammar: `=`, an operand, an operator, an operand, and nothing else. -/
def IsFormulaText (s : String) : Prop :=
  ∃ o1 op o2, IsOperandText o1 ∧ IsOperatorRune op ∧ IsOperandText o2 ∧
    s.data = '=' :: (o1 ++ op :: o2)

/-- The captured groups of one operand: the unnamed group, then either the column and the
row group or the constant group. -/
def OperandCaps (col row const : String) (c : Caps) (o : List Char) : Prop :=
  (∃ ls ds, IsLetters ls ∧ IsDigits ds ∧ o = ls ++ ds ∧
      c = [("", ls ++ ds), (col, ls), (row, ds)]) ∨
    (IsDigits o ∧ c = [("", o), (const, o)])

/-! ## Example tables -/

/-- The table of the one-row grid `=1/0`, `=A1+1` after the cell-parsing phase. -/
def tableDivZero : Table :=
  { RowNamesMap := [("1", 0)], ColNamesMap := [("A", 0), ("B", 1)],
    ColNames := ["A", "B"], RowNames := ["1"], RowCount := 1, ColCount := 2, Comma := ",",
    cells := [["=1/0", "=A1+1"]],
    formulas :=
      [({ ColumnIndex := 0, RowIndex := 0 },
        { Operand1Addr := none, Operand2Addr := none, Operator := '/', Arg1Const := 1,
          Arg2Const := 0, isCalculated := false, result := 0 }),
       ({ ColumnIndex := 1, RowIndex := 0 },
        { Operand1Addr := some { ColumnIndex := 0, RowIndex := 0 }, Operand2Addr := none,
          Operator := '+', Arg1Const := 0, Arg2Const := 1, isCalculated := false,
          result := 0 })] }

/-- The table of the one-row grid `0`, `=A1*5` after the cell-parsing phase. -/
def tableZero : Table :=
  { RowNamesMap := [("1", 0)], ColNamesMap := [("A", 0), ("B", 1)],
    ColNames := ["A", "B"], RowNames := ["1"], RowCount := 1, ColCount := 2, Comma := ",",
    cells := [["0", "=A1*5"]],
    formulas :=
      [({ ColumnIndex := 1, RowIndex := 0 },
        { Operand1Addr := some { ColumnIndex := 0, RowIndex := 0 }, Operand2Addr := none,
          Operator := '*', Arg1Const := 0, Arg2Const := 5, isCalculated := false,
          result := 0 })] }

/-- The formula `7 / B1`, its divisor the cell in column 1 of row 0. -/
def divByCellFormula : Formula :=
  { Operand1Addr := none, Operand2Addr := some { ColumnIndex := 1, RowIndex := 0 },
    Operator := '/', Arg1Const := 7, Arg2Const := 0, isCalculated := false, result := 0 }

/-- A formula with two constant operands, as `parseRecord` builds it. -/
def constFormula (operator : Char) (a b : Int) : Formula :=
  { Operand1Addr := none, Operand2Addr := none, Operator := operator, Arg1Const := a,
    Arg2Const := b, isCalculated := false, result := 0 }

/-! ## Invariants of the two phases of `ParseTable` -/

/-- What `encoding/csv` guarantees of the records that `ReadAll` returns to `ParseTable`:
every record has as many fields as the first one. -/
def Rectangular (records : List (List String)) : Prop :=
  ∀ r ∈ records, r.length = (records.headD []).length

instance (records : List (List String)) : Decidable (Rectangular records) := by
  unfold Rectangular; infer_instance

/-- The entries of the formulas map that the evaluation loop has still to visit: their
addresses are distinct, each is registered, not marked calculated, and its cell still
holds the formula text. -/
def Pending (t : Table) (entries : List (Address × Formula)) : Prop :=
  (entries.map Prod.fst).Nodup ∧
  ∀ a f, (a, f) ∈ entries →
    mapGet t.formulas a = some f ∧ f.isCalculated = false ∧
      ∃ s, cellAt t a = some s ∧ HasPrefix s "=" = true

/-- The state of a table after a successful cell-parsing phase. -/
structure Parsed (t : Table) : Prop where
  /-- Every registered formula is pending. -/
  pending : Pending t t.formulas
  /-- Every address operand of a registered formula can be read. -/
  operand : ∀ a f b, (a, f) ∈ t.formulas →
    (f.Operand1Addr = some b ∨ f.Operand2Addr = some b) →
      ∃ s, GetCellValueByAddress t b = .ret (s, none)
  /-- Every cell that begins with `=` has a formula registered at its address. -/
  registered : ∀ b s, GetCellValueByAddress t b = .ret (s, none) → HasPrefix s "=" = true →
    ∃ g, (b, g) ∈ t.formulas
  /-- Every other cell is an integer literal. -/
  literal : ∀ i j s, cellNat t i j = some s → HasPrefix s "=" = false → (Atoi s).2 = none
  /-- Every registered formula has one of the four operators. -/
  operator : ∀ a f, (a, f) ∈ t.formulas → IsOperatorRune f.Operator

/-- The dependency relation of the formulas: the formula cell `a` has an address operand
that points at the formula cell `b`. -/
def DependsOn (t : Table) (a b : Address) : Prop :=
  ∃ f, mapGet t.formulas a = some f ∧
    (f.Operand1Addr = some b ∨ f.Operand2Addr = some b) ∧ (mapGet t.formulas b).isSome = true

/-- The dependency graph of the formulas has no cycle. -/
def Acyclic (t : Table) : Prop := ∀ a, ¬ Relation.TransGen (DependsOn t) a a

/-- A formula as `parseRecord` registers it: not marked calculated, its operator one of
the four, and every address operand built from a column name and a row name that are keys
of the name maps. -/
def GoodParse (t : Table) (g : Formula) : Prop :=
  g.isCalculated = false ∧ IsOperatorRune g.Operator ∧
  ∀ b, (g.Operand1Addr = some b ∨ g.Operand2Addr = some b) →
    ∃ c r, c ∈ t.ColNamesMap.map Prod.fst ∧ r ∈ t.RowNamesMap.map Prod.fst ∧
      b = { ColumnIndex := (mapGet t.ColNamesMap c).getD 0,
            RowIndex := (mapGet t.RowNamesMap r).getD 0 }

/-- The effect of parsing the cells of a region of the grid without error: only the
formulas map changes, its keys stay distinct, and it gains a well-built formula exactly at
the cells of the region that begin with `=`, the other cells being integer literals. -/
def ParseStep (t t1 : Table) (region : Nat → Nat → Option String) : Prop :=
  t1 = { t with formulas := t1.formulas } ∧
  ((t.formulas.map Prod.fst).Nodup → (t1.formulas.map Prod.fst).Nodup) ∧
  (∀ a g, (a, g) ∈ t.formulas → ∃ g1, (a, g1) ∈ t1.formulas) ∧
  (∀ a g, (a, g) ∈ t1.formulas → (a, g) ∈ t.formulas ∨
    (GoodParse t g ∧ ∃ i j s, region i j = some s ∧ HasPrefix s "=" = true ∧
      a = { ColumnIndex := (j : Int), RowIndex := (i : Int) })) ∧
  (∀ i j s, region i j = some s →
    (HasPrefix s "=" = true →
      ∃ g, ({ ColumnIndex := (j : Int), RowIndex := (i : Int) }, g) ∈ t1.formulas) ∧
    (HasPrefix s "=" = false → (Atoi s).2 = none))

/-- The integer held by the cell at an address, when the cell exists and is an integer
literal. -/
def cellInt (t : Table) (a : Address) : Option Int :=
  match cellAt t a with
  | none => none
  | some s =>
    match Atoi s with
    | (v, none) => some v
    | (_, some _) => none

/-- The value of an operand read off a grid: the constant, or the integer held by the
cell the address points at. -/
def operandFinal (t : Table) (operandAddr : Option Address) (argConst : Int) : Option Int :=
  match operandAddr with
  | none => some argConst
  | some b => cellInt t b

/-- The records of the grid with columns `A`, `B`, rows `1`, `2` and cells
`5`, `=A1+3` / `=A1*B1`, `2`. -/
def exampleRecords : List (List String) :=
  [["", "A", "B"], ["1", "5", "=A1+3"], ["2", "=A1*B1", "2"]]

/-- The table of `exampleRecords` after the cell-parsing phase. -/
def exampleTable : Table :=
  { RowNamesMap := [("1", 0), ("2", 1)], ColNamesMap := [("A", 0), ("B", 1)],
    ColNames := ["A", "B"], RowNames := ["1", "2"], RowCount := 2, ColCount := 2, Comma := ",",
    cells := [["5", "=A1+3"], ["=A1*B1", "2"]],
    formulas :=
      [({ ColumnIndex := 1, RowIndex := 0 },
        { Operand1Addr := some { ColumnIndex := 0, RowIndex := 0 }, Operand2Addr := none,
          Operator := '+', Arg1Const := 0, Arg2Const := 3, isCalculated := false,
          result := 0 }),
       ({ ColumnIndex := 0, RowIndex := 1 },
        { Operand1Addr := some { ColumnIndex := 0, RowIndex := 0 },
          Operand2Addr := some { ColumnIndex := 1, RowIndex := 0 },
          Operator := '*', Arg1Const := 0, Arg2Const := 0, isCalculated := false,
          result := 0 })] }

/-- The table of `exampleRecords` after evaluation. -/
def exampleFinal : Table := { exampleTable with cells := [["5", "8"], ["40", "2"]] }

/-! ## Integer literals in the words of the specification -/

/-- A base-10 integer literal as `strconv.Atoi` accepts it: an optional sign, one or more
ASCII digits, and a value that fits a 64-bit `int`. -/
def IsIntLiteral (s : String) : Prop :=
  ∃ ds, IsDigits ds ∧
    ((s.data = ds ∧ (digitsVal ds : Int) ≤ maxInt) ∨
      (s.data = '+' :: ds ∧ (digitsVal ds : Int) ≤ maxInt) ∨
      (s.data = '-' :: ds ∧ minInt ≤ -(digitsVal ds : Int)))

/-! ## Further example tables -/

/-- The table that `ParseTable` builds from a CSV file with a header line only: one
column `A` and no data row. -/
def emptyTable : Table :=
  { RowNamesMap := [], ColNamesMap := [("A", 0)], ColNames := ["A"], RowNames := [],
    RowCount := 0, ColCount := 1, Comma := ",", cells := [], formulas := [] }

/-- The records of the grid with the single cell `A1` holding `=A1+1`. -/
def selfRefRecords : List (List String) := [["", "A"], ["1", "=A1+1"]]

/-- The formula `=A1+1` as `parseRecord` builds it in the grid `selfRefRecords`. -/
def selfRefFormula : Formula :=
  { Operand1Addr := some { ColumnIndex := 0, RowIndex := 0 }, Operand2Addr := none,
    Operator := '+', Arg1Const := 0, Arg2Const := 1, isCalculated := false, result := 0 }

/-- The table of `selfRefRecords` after the cell-parsing phase. -/
def selfRefTable : Table :=
  { RowNamesMap := [("1", 0)], ColNamesMap := [("A", 0)], ColNames := ["A"],
    RowNames := ["1"], RowCount := 1, ColCount := 1, Comma := ",",
    cells := [["=A1+1"]],
    formulas := [({ ColumnIndex := 0, RowIndex := 0 }, selfRefFormula)] }

/-! ## `String` -/

/-- The constant `newlineCharLength`. -/
def newlineCharLength : Int := 1

/-- The method `countTableStringLength`: the capacity asked of the builder, a sum of byte
lengths of strings (the `len` of Go) over the three loops of the method. -/
def countTableStringLength (t : Table) : Int :=
  let separatorLength : Int := (t.Comma.utf8ByteSize : Int)
  (t.ColNames.map (fun colName => (colName.utf8ByteSize : Int) + separatorLength)).sum
    + newlineCharLength
    + (t.RowNames.map (fun rowName => (rowName.utf8ByteSize : Int))).sum
    + (t.cells.map (fun row =>
        (row.map (fun cell => (cell.utf8ByteSize : Int) + separatorLength)).sum
          + newlineCharLength)).sum

/-- The loop that writes the delimiter and one field after the other to the builder `b`;
it is the header loop and the inner loop of `String`. -/
def writeFields (comma : String) : String → List String → String
  | b, [] => b
  | b, field :: rest => writeFields comma ((b ++ comma) ++ field) rest

/-- The loop of `String` over the row names from `rowIndex` on; `t.cells[rowIndex]` panics
when the grid has fewer rows than there are row names. -/
def writeRows (t : Table) : String → List String → Nat → Run String
  | b, [], _ => .ret b
  | b, rowName :: rest, rowIndex =>
    match t.cells[rowIndex]? with
    | none => .fault
    | some row =>
      writeRows t (writeFields t.Comma ((b ++ "\n") ++ rowName) row) rest (rowIndex + 1)

/-- The method `String`; `Grow` panics on a negative capacity. -/
def Table.String (t : Table) : Run String :=
  if countTableStringLength t < 0 then .fault
  else writeRows t (writeFields t.Comma "" t.ColNames) t.RowNames 0

/-- The method `String` together with the table as the call leaves it. The body of the
method assigns to no field of the table, so the table is left as it was. -/
def StringWithTable (t : Table) : Run (String × Table) :=
  (Table.String t).bind (fun s => .ret (s, t))

/-- The fields of one line in the words of the specification: each field preceded by the
delimiter. -/
def delimited (d : String) : List String → String
  | [] => ""
  | field :: rest => (d ++ field) ++ delimited d rest

/-- The lines of the rendered table in the words of the specification: the header line
of the column names, then for each row its name followed by its cells. -/
def renderedLines (t : Table) : List String :=
  delimited t.Comma t.ColNames ::
    List.zipWith (fun rowName row => rowName ++ delimited t.Comma row) t.RowNames t.cells

/-! ## The operands of a formula cell in the words of the specification -/

/-- What the captured groups of a match say of one operand `o` of the formula text: either
`o` is letters followed by digits, held by the column and the row group while the
constant group is empty, or `o` is digits, held by the constant group while the column
and the row group are empty. -/
def OperandGroups (m : Caps) (col row const : String) (o : List Char) : Prop :=
  (∃ ls ds, IsLetters ls ∧ IsDigits ds ∧ o = ls ++ ds ∧ capText m col = String.mk ls ∧
      capText m row = String.mk ds ∧ capText m const = "") ∨
    (IsDigits o ∧ capText m col = "" ∧ capText m row = "" ∧ capText m const = String.mk o)

/-- A symbolic operand, letters followed by digits, whose column name or row name is not
a name of the table. -/
def DanglingOperand (t : Table) (o : List Char) : Prop :=
  ∃ ls ds, IsLetters ls ∧ IsDigits ds ∧ o = ls ++ ds ∧
    (String.mk ls ∉ t.ColNames ∨ String.mk ds ∉ t.RowNames)

/-- A cell string of the formula grammar with a symbolic operand that references a column
name or a row name absent from the table. -/
def DanglingFormula (t : Table) (s : String) : Prop :=
  ∃ o1 op o2, IsOperandText o1 ∧ IsOperatorRune op ∧ IsOperandText o2 ∧
    s.data = '=' :: (o1 ++ op :: o2) ∧ (DanglingOperand t o1 ∨ DanglingOperand t o2)

/-- The records of a grid whose cell `B1` references the absent cell `Z99`. -/
def danglingRecords : List (List String) := [["", "A", "B"], ["1", "5", "=Z99+1"]]

/-- The table that `loadGrid` builds from `danglingRecords`. -/
def danglingTable : Table :=
  { RowNamesMap := [("1", 0)], ColNamesMap := [("A", 0), ("B", 1)],
    ColNames := ["A", "B"], RowNames := ["1"], RowCount := 1, ColCount := 2, Comma := ",",
    cells := [["5", "=Z99+1"]], formulas := [] }

/-! ## Addresses within the table -/

/-- An address within the bounds of the table: `0 <= ColumnIndex < ColCount` and
`0 <= RowIndex < RowCount`. -/
def InBounds (t : Table) (a : Address) : Prop :=
  (0 ≤ a.ColumnIndex ∧ a.ColumnIndex < t.ColCount) ∧ (0 ≤ a.RowIndex ∧ a.RowIndex < t.RowCount)

/-! ## The operands of a registered formula -/

/-- An operand text and what `parseRecord` registers for it in a formula: a
symbolic operand made of the names `ColNames[i]` and `RowNames[j]` gives the address
`(i, j)` and leaves the constant 0; a run of digits gives a `nil` address and the constant
that `strconv.Atoi` returns, which is the value of the digits when it fits an `int` and
the largest `int` otherwise. -/
def OperandResolved (t : Table) (o : List Char) (addr : Option Address) (const : Int) : Prop :=
  (∃ (ls ds : List Char) (i j : Nat), IsLetters ls ∧ IsDigits ds ∧ o = ls ++ ds ∧
      t.ColNames[i]? = some (String.mk ls) ∧ t.RowNames[j]? = some (String.mk ds) ∧
      addr = some { ColumnIndex := (i : Int), RowIndex := (j : Int) } ∧ const = 0) ∨
  (IsDigits o ∧ addr = none ∧
    const = if (digitsVal o : Int) ≤ maxInt then (digitsVal o : Int) else maxInt)

/-- The records of a grid whose only cell adds 1 to a constant one above the largest
`int`. -/
def overflowRecords : List (List String) := [["", "A"], ["1", "=9223372036854775808+1"]]

/-- The formula that `parseRecord` registers for the cell of `overflowRecords`. -/
def overflowFormula : Formula :=
  { Operand1Addr := none, Operand2Addr := none, Operator := '+',
    Arg1Const := 9223372036854775807, Arg2Const := 1, isCalculated := false, result := 0 }

/-- The table of `overflowRecords` as `ParseTable` leaves it. -/
def overflowFinal : Table :=
  { RowNamesMap := [("1", 0)], ColNamesMap := [("A", 0)], ColNames := ["A"], RowNames := ["1"],
    RowCount := 1, ColCount := 1, Comma := ",", cells := [["-9223372036854775808"]],
    formulas := [({ ColumnIndex := 0, RowIndex := 0 }, overflowFormula)] }

/-! # Theorems -/

/-! ## Basic facts -/

@[simp] theorem Run.bind_ret {α β : Type} (a : α) (f : α → Run β) :
    (Run.ret a).bind f = f a := rfl

@[simp] theorem Run.bind_fault {α β : Type} (f : α → Run β) :
    (Run.fault : Run α).bind f = Run.fault := rfl

@[simp] theorem Run.bind_timeout {α β : Type} (f : α → Run β) :
    (Run.timeout : Run α).bind f = Run.timeout := rfl

theorem Run.bind_eq_ret {α β : Type} {x : Run α} {f : α → Run β} {b : β}
    (h : x.bind f = Run.ret b) : ∃ a, x = Run.ret a ∧ f a = Run.ret b := by
  cases x with
  | ret a => exact ⟨a, rfl, h⟩
  | fault => simp at h
  | timeout => simp at h

theorem wrapInt_of_inRange {x : Int} (h : InRange x) : wrapInt x = x := by
  unfold InRange minInt maxInt at h
  unfold wrapInt
  omega

theorem inRange_wrapInt (x : Int) : InRange (wrapInt x) := by
  unfold InRange minInt maxInt wrapInt
  omega

theorem calculateFormula_unfold (n : Nat) (t : Table) (f : Formula) :
    calculateFormula (n + 1) t f =
      if f.isCalculated then .ret (f.result, none)
      else
        (resolveOperand (calculateFormula n t) t f.Operand1Addr f.Arg1Const).bind
          (fun operand1 =>
            (resolveOperand (calculateFormula n t) t f.Operand2Addr f.Arg2Const).bind
              (fun operand2 => .ret (applyOperator f.Operator operand1 operand2))) := rfl

theorem calculateFormula_succ (fuel : Nat) (t : Table) (f : Formula)
    (hc : f.isCalculated = false) :
    calculateFormula (fuel + 1) t f =
      (resolveOperands fuel t f).bind (fun o => .ret (applyOperator f.Operator o.1 o.2)) := by
  simp only [calculateFormula, hc, resolveOperands]
  cases resolveOperand (calculateFormula fuel t) t f.Operand1Addr f.Arg1Const with
  | ret a =>
    simp only [Run.bind_ret]
    cases resolveOperand (calculateFormula fuel t) t f.Operand2Addr f.Arg2Const <;> simp
  | fault => simp
  | timeout => simp

theorem resolveOperands_const (fuel : Nat) (t : Table) (f : Formula)
    (h1 : f.Operand1Addr = none) (h2 : f.Operand2Addr = none) :
    resolveOperands fuel t f = .ret (f.Arg1Const, f.Arg2Const) := by
  simp [resolveOperands, resolveOperand, h1, h2]

/-! ## Arithmetic on constant operands -/

/-- C1: a formula whose two operands are constants `a` and `b` (and which has not been
marked calculated, as every formula built by `parseRecord`) evaluates on every table, with
no error, to the Go sum, difference, product or, for a non-zero `b`, the quotient
truncated toward zero; the Go result is the exact one whenever the exact one fits `int`. -/
theorem calculateFormula_constants (fuel : Nat) (t : Table) (f : Formula)
    (hc : f.isCalculated = false) (h1 : f.Operand1Addr = none) (h2 : f.Operand2Addr = none) :
    (f.Operator = '+' →
      calculateFormula (fuel + 1) t f = .ret (goAdd f.Arg1Const f.Arg2Const, none) ∧
      (InRange (f.Arg1Const + f.Arg2Const) →
        goAdd f.Arg1Const f.Arg2Const = f.Arg1Const + f.Arg2Const)) ∧
    (f.Operator = '-' →
      calculateFormula (fuel + 1) t f = .ret (goSub f.Arg1Const f.Arg2Const, none) ∧
      (InRange (f.Arg1Const - f.Arg2Const) →
        goSub f.Arg1Const f.Arg2Const = f.Arg1Const - f.Arg2Const)) ∧
    (f.Operator = '*' →
      calculateFormula (fuel + 1) t f = .ret (goMul f.Arg1Const f.Arg2Const, none) ∧
      (InRange (f.Arg1Const * f.Arg2Const) →
        goMul f.Arg1Const f.Arg2Const = f.Arg1Const * f.Arg2Const)) ∧
    (f.Operator = '/' → f.Arg2Const ≠ 0 →
      calculateFormula (fuel + 1) t f = .ret (goDiv f.Arg1Const f.Arg2Const, none) ∧
      (InRange (Int.tdiv f.Arg1Const f.Arg2Const) →
        goDiv f.Arg1Const f.Arg2Const = Int.tdiv f.Arg1Const f.Arg2Const)) := by
  rw [calculateFormula_succ fuel t f hc, resolveOperands_const fuel t f h1 h2]
  refine ⟨?_, ?_, ?_, ?_⟩
  · intro hop
    exact ⟨by simp [applyOperator, hop, Addition], fun h => wrapInt_of_inRange h⟩
  · intro hop
    exact ⟨by simp [applyOperator, hop, Addition, Subtraction], fun h => wrapInt_of_inRange h⟩
  · intro hop
    exact ⟨by simp [applyOperator, hop, Addition, Subtraction, Multiplication],
      fun h => wrapInt_of_inRange h⟩
  · intro hop hb
    exact ⟨by simp [applyOperator, hop, Addition, Subtraction, Multiplication, Division, hb],
      fun h => wrapInt_of_inRange h⟩

/-- Witness of C1: `=4*3` gives 12, `=9/2` gives 4 and `=5-9` gives -4, on any table; the
quotient of -9 by 2 is -4, truncated toward zero. -/
theorem calculateFormula_constants_witness :
    calculateFormula 1 tableDivZero (constFormula '*' 4 3) = .ret (12, none) ∧
    calculateFormula 1 tableDivZero (constFormula '/' 9 2) = .ret (4, none) ∧
    calculateFormula 1 tableDivZero (constFormula '-' 5 9) = .ret (-4, none) ∧
    calculateFormula 1 tableDivZero (constFormula '/' (-9) 2) = .ret (-4, none) :=
  ⟨((calculateFormula_constants 0 tableDivZero (constFormula '*' 4 3) rfl rfl rfl).2.2.1
      rfl).1,
   ((calculateFormula_constants 0 tableDivZero (constFormula '/' 9 2) rfl rfl rfl).2.2.2
      rfl (by decide)).1,
   ((calculateFormula_constants 0 tableDivZero (constFormula '-' 5 9) rfl rfl rfl).2.1
      rfl).1,
   ((calculateFormula_constants 0 tableDivZero (constFormula '/' (-9) 2) rfl rfl rfl).2.2.2
      rfl (by decide)).1⟩

/-! ## Division by zero -/

theorem applyOperator_divisionByZero_iff (op : Char) (o1 o2 v : Int) :
    applyOperator op o1 o2 = (v, some errDivisionByZero) ↔ v = 0 ∧ op = '/' ∧ o2 = 0 := by
  have hne : errUnknownOperator ≠ errDivisionByZero := by decide
  unfold applyOperator Addition Subtraction Multiplication Division
  constructor
  · intro h
    split_ifs at h with h1 h2 h3 h4 h5
    · simp at h
    · simp at h
    · simp at h
    · simp only [Prod.mk.injEq] at h
      exact ⟨h.1.symm, h4, h5⟩
    · simp at h
    · simp only [Prod.mk.injEq, Option.some.injEq] at h
      exact absurd h.2 hne
  · rintro ⟨rfl, rfl, rfl⟩
    simp

/-- The constant `0` as second operand resolves to 0. -/
theorem resolveOperand_const (calcF : Formula → Run (Int × GoError)) (t : Table) (c : Int) :
    resolveOperand calcF t none c = .ret c := rfl

/-- A cell that holds no formula resolves to the integer it holds. -/
theorem resolveOperand_literal (calcF : Formula → Run (Int × GoError)) (t : Table)
    (a : Address) (c : Int) (s : String) (hs : GetCellValueByAddress t a = .ret (s, none))
    (hp : HasPrefix s "=" = false) :
    resolveOperand calcF t (some a) c = .ret (Atoi s).1 := by
  simp [resolveOperand, GetCellNumericValueByAddressWith, hs, hp]

/-- A formula cell whose formula evaluates to `v` without error resolves to `v`. -/
theorem resolveOperand_formula (calcF : Formula → Run (Int × GoError)) (t : Table)
    (a : Address) (c : Int) (s : String) (g : Formula) (v : Int)
    (hs : GetCellValueByAddress t a = .ret (s, none)) (hp : HasPrefix s "=" = true)
    (hg : mapGet t.formulas a = some g) (hv : calcF g = .ret (v, none)) :
    resolveOperand calcF t (some a) c = .ret v := by
  simp [resolveOperand, GetCellNumericValueByAddressWith, hs, hp, hg, hv]

/-- C2: on every table and every formula, `calculateFormula` returns the division-by-zero
error (with value 0, so neither a quotient nor a panic) exactly when the operator is `/`
and the call resolves its operands with the second one equal to 0, however that operand
was obtained (a constant, a literal cell or a formula cell); no other operator and no
non-zero divisor yields this error. -/
theorem calculateFormula_divisionByZero_iff (fuel : Nat) (t : Table) (f : Formula) (v : Int) :
    calculateFormula (fuel + 1) t f = .ret (v, some errDivisionByZero) ↔
      v = 0 ∧ f.Operator = '/' ∧ f.isCalculated = false ∧
        ∃ o1, resolveOperands fuel t f = .ret (o1, 0) := by
  cases hc : f.isCalculated with
  | true => simp [calculateFormula_unfold, hc]
  | false =>
    rw [calculateFormula_succ fuel t f hc]
    cases hr : resolveOperands fuel t f with
    | ret o =>
      obtain ⟨o1, o2⟩ := o
      simp only [Run.bind_ret, Run.ret.injEq, applyOperator_divisionByZero_iff, Prod.mk.injEq]
      constructor
      · rintro ⟨h1, h2, h3⟩
        exact ⟨h1, h2, trivial, o1, rfl, h3⟩
      · rintro ⟨h1, h2, _, _, _, h3⟩
        exact ⟨h1, h2, h3⟩
    | fault => simp
    | timeout => simp

/-- Witness of C2: `7 / B1` where `B1` is the formula cell `=A1*5` and `A1` holds 0. -/
theorem calculateFormula_divisionByZero_iff_witness :
    calculateFormula 2 tableZero divByCellFormula = .ret (0, some errDivisionByZero) :=
  (calculateFormula_divisionByZero_iff 1 tableZero divByCellFormula 0).mpr
    ⟨rfl, rfl, rfl, 7, by decide⟩

/-! ## The cache of a formula -/

/-- The call leaves every formula as it found it. -/
theorem calculateFormulaState_formula (fuel : Nat) (t : Table) (f f1 : Formula)
    (r : Int × GoError) (h : calculateFormulaState fuel t f = .ret (r, f1)) : f1 = f := by
  unfold calculateFormulaState at h
  obtain ⟨a, _, ha⟩ := Run.bind_eq_ret h
  simp only [Run.ret.injEq, Prod.mk.injEq] at ha
  exact ha.2.symm

/-- C3 at the failing input: `=4*3` evaluates to 12 without error, the formula is left
with `isCalculated` false, and a second call computes the product again. -/
theorem calculateFormula_leaves_cache_empty :
    calculateFormulaState 1 tableDivZero (constFormula '*' 4 3) =
      .ret ((12, none), constFormula '*' 4 3) ∧
    (constFormula '*' 4 3).isCalculated = false ∧
    calculateFormula 1 tableDivZero (constFormula '*' 4 3) =
      (resolveOperands 0 tableDivZero (constFormula '*' 4 3)).bind
        (fun o => .ret (applyOperator '*' o.1 o.2)) := by
  refine ⟨by decide, rfl, by decide⟩

/-! ## Errors of operands -/

/-- C4 at the failing input: in the parsed grid `=1/0`, `=A1+1` the formula of `A1` fails
with the division-by-zero error, and the formula of `B1`, whose first operand is `A1`,
returns the value 1 with no error. -/
theorem calculateFormula_drops_operand_error :
    loadAndParse [["", "A", "B"], ["1", "=1/0", "=A1+1"]] "," = .ret (tableDivZero, none) ∧
    (∃ g f, mapGet tableDivZero.formulas { ColumnIndex := 0, RowIndex := 0 } = some g ∧
      mapGet tableDivZero.formulas { ColumnIndex := 1, RowIndex := 0 } = some f ∧
      f.Operand1Addr = some { ColumnIndex := 0, RowIndex := 0 } ∧
      calculateFormula 2 tableDivZero g = .ret (0, some errDivisionByZero) ∧
      calculateFormula 2 tableDivZero f = .ret (1, none)) := by
  refine ⟨by decide, _, _, rfl, rfl, rfl, by decide, by decide⟩

/-! ## Regular expressions and the lexical shapes -/

theorem mem_plusRuns (p : Char → Bool) (s : List Char) (x : List Char × List Char) :
    x ∈ plusRuns p s ↔ x.1 ≠ [] ∧ (∀ c ∈ x.1, p c = true) ∧ s = x.1 ++ x.2 := by
  induction s generalizing x with
  | nil =>
    obtain ⟨w, r⟩ := x
    constructor
    · intro h
      simp [plusRuns] at h
    · rintro ⟨h1, _, h3⟩
      cases w with
      | nil => exact absurd rfl h1
      | cons d w1 => simp at h3
  | cons c cs ih =>
    obtain ⟨w, r⟩ := x
    unfold plusRuns
    cases hp : p c with
    | true =>
      simp only [if_true, List.mem_append, List.mem_map, List.mem_singleton, Prod.mk.injEq]
      constructor
      · rintro (⟨y, hy, rfl, rfl⟩ | ⟨rfl, rfl⟩)
        · obtain ⟨_, h2, h3⟩ := (ih y).1 hy
          refine ⟨by simp, ?_, by simp [h3]⟩
          intro d hd
          rcases List.mem_cons.1 hd with rfl | hd
          · exact hp
          · exact h2 d hd
        · exact ⟨by simp, by simpa using hp, by simp⟩
      · rintro ⟨h1, h2, h3⟩
        cases w with
        | nil => exact absurd rfl h1
        | cons d w1 =>
          simp only [List.cons_append, List.cons.injEq] at h3
          obtain ⟨rfl, rfl⟩ := h3
          cases w1 with
          | nil => right; simp
          | cons e w2 =>
            left
            refine ⟨(e :: w2, r), (ih _).2 ⟨by simp, ?_, rfl⟩, rfl, rfl⟩
            intro d hd
            exact h2 d (List.mem_cons_of_mem _ hd)
    | false =>
      simp only [Bool.false_eq_true, if_false, List.not_mem_nil, false_iff, not_and]
      intro h1 h2 h3
      cases w with
      | nil => exact absurd rfl h1
      | cons d w1 =>
        simp only [List.cons_append, List.cons.injEq] at h3
        have := h2 d (List.mem_cons_self _ _)
        rw [← h3.1, hp] at this
        cases this

theorem RE.run_iff (re : RE) (s w r : List Char) :
    (∃ caps, (caps, w, r) ∈ re.run s) ↔ s = w ++ r ∧ re.Matches w := by
  induction re generalizing s w r with
  | cls p =>
    cases s with
    | nil =>
      simp only [RE.run, List.not_mem_nil, exists_false, RE.Matches, false_iff, not_and,
        not_exists]
      rintro h d rfl _
      simp at h
    | cons c cs =>
      cases hp : p c with
      | true =>
        simp only [RE.run, hp, if_true, List.mem_singleton, Prod.mk.injEq, RE.Matches]
        constructor
        · rintro ⟨_, _, rfl, rfl⟩
          exact ⟨rfl, c, rfl, hp⟩
        · rintro ⟨h, d, rfl, _⟩
          simp only [List.singleton_append, List.cons.injEq] at h
          exact ⟨[], rfl, by rw [h.1], h.2.symm⟩
      | false =>
        simp only [RE.run, hp, Bool.false_eq_true, if_false, List.not_mem_nil, exists_false,
          RE.Matches, false_iff, not_and, not_exists]
        rintro h d rfl hd
        simp only [List.singleton_append, List.cons.injEq] at h
        rw [← h.1, hp] at hd
        cases hd
  | clsPlus p =>
    simp only [RE.run, List.mem_map, Prod.mk.injEq, RE.Matches]
    constructor
    · rintro ⟨_, x, hx, _, rfl, rfl⟩
      obtain ⟨h1, h2, h3⟩ := (mem_plusRuns p s x).1 hx
      exact ⟨h3, h1, h2⟩
    · rintro ⟨h3, h1, h2⟩
      exact ⟨[], (w, r), (mem_plusRuns p s (w, r)).2 ⟨h1, h2, h3⟩, rfl, rfl, rfl⟩
  | seq a b iha ihb =>
    simp only [RE.run, List.mem_flatMap, List.mem_map, Prod.mk.injEq, RE.Matches]
    constructor
    · rintro ⟨_, ⟨c1, u, r1⟩, hx, ⟨c2, v, r2⟩, hy, _, rfl, rfl⟩
      obtain ⟨h1, h2⟩ := (iha s u r1).1 ⟨c1, hx⟩
      obtain ⟨h3, h4⟩ := (ihb r1 v r2).1 ⟨c2, hy⟩
      exact ⟨by simp [h1, h3], u, v, rfl, h2, h4⟩
    · rintro ⟨h, u, v, rfl, hu, hv⟩
      obtain ⟨c1, hx⟩ := (iha s u (v ++ r)).2 ⟨by simp [h], hu⟩
      obtain ⟨c2, hy⟩ := (ihb (v ++ r) v r).2 ⟨rfl, hv⟩
      exact ⟨c1 ++ c2, (c1, u, v ++ r), hx, (c2, v, r), hy, rfl, rfl, rfl⟩
  | alt a b iha ihb =>
    simp only [RE.run, List.mem_append, RE.Matches]
    constructor
    · rintro ⟨c, hc | hc⟩
      · exact ⟨((iha s w r).1 ⟨c, hc⟩).1, Or.inl ((iha s w r).1 ⟨c, hc⟩).2⟩
      · exact ⟨((ihb s w r).1 ⟨c, hc⟩).1, Or.inr ((ihb s w r).1 ⟨c, hc⟩).2⟩
    · rintro ⟨h, ha | hb⟩
      · obtain ⟨c, hc⟩ := (iha s w r).2 ⟨h, ha⟩
        exact ⟨c, Or.inl hc⟩
      · obtain ⟨c, hc⟩ := (ihb s w r).2 ⟨h, hb⟩
        exact ⟨c, Or.inr hc⟩
  | group name a iha =>
    simp only [RE.run, List.mem_map, Prod.mk.injEq, RE.Matches]
    constructor
    · rintro ⟨_, ⟨c, u, r1⟩, hx, _, rfl, rfl⟩
      exact (iha s u r1).1 ⟨c, hx⟩
    · intro h
      obtain ⟨c, hc⟩ := (iha s w r).2 h
      exact ⟨(name, w) :: c, (c, w, r), hc, rfl, rfl, rfl⟩

theorem RE.fullMatch_isSome_iff (re : RE) (s : String) :
    (re.fullMatch s).isSome = true ↔ re.Matches s.data := by
  unfold RE.fullMatch
  rw [Option.isSome_map', List.find?_isSome]
  constructor
  · rintro ⟨⟨c, w, r⟩, hx, hr⟩
    simp only [List.isEmpty_iff] at hr
    subst hr
    obtain ⟨h1, h2⟩ := (RE.run_iff re s.data w []).1 ⟨c, hx⟩
    simpa [h1] using h2
  · intro h
    obtain ⟨c, hc⟩ := (RE.run_iff re s.data s.data []).2 ⟨by simp, h⟩
    exact ⟨(c, s.data, []), hc, by simp⟩

theorem RE.MatchString_iff (re : RE) (s : String) :
    re.MatchString s = true ↔ re.Matches s.data := RE.fullMatch_isSome_iff re s

theorem isLetter_iff (c : Char) :
    isLetter c = true ↔ ('a' ≤ c ∧ c ≤ 'z') ∨ ('A' ≤ c ∧ c ≤ 'Z') := by
  simp [isLetter]

theorem isDigit_iff (c : Char) : isDigit c = true ↔ '0' ≤ c ∧ c ≤ '9' := by
  simp [isDigit]

theorem clsPlus_isLetter_iff (w : List Char) : (RE.clsPlus isLetter).Matches w ↔ IsLetters w := by
  simp only [RE.Matches, IsLetters, isLetter_iff]

theorem clsPlus_isDigit_iff (w : List Char) : (RE.clsPlus isDigit).Matches w ↔ IsDigits w := by
  simp only [RE.Matches, IsDigits, isDigit_iff]

/-! ## Validation of the table keys -/

theorem any_eq_iff_mem (key : String) (seen : List String) :
    (seen.any fun u => decide (key = u)) = true ↔ key ∈ seen := by
  simp [List.any_eq_true]

theorem any_eq_false_of_not_mem (key : String) (seen : List String) (h : key ∉ seen) :
    (seen.any fun u => decide (key = u)) = false := by
  rw [Bool.eq_false_iff, Ne, any_eq_iff_mem]
  exact h

theorem validateTableKeysLoop_eq_none_iff (re : RE) (keys seen : List String) :
    validateTableKeysLoop re keys seen = none ↔
      (∀ k ∈ keys, re.MatchString k = true) ∧ keys.Pairwise (fun a b => a ≠ b) ∧
        ∀ k ∈ keys, k ∉ seen := by
  induction keys generalizing seen with
  | nil => simp [validateTableKeysLoop]
  | cons key rest ih =>
    unfold validateTableKeysLoop
    by_cases hm : re.MatchString key = true
    · by_cases hd : key ∈ seen
      · have : (seen.any fun u => decide (key = u)) = true := (any_eq_iff_mem key seen).2 hd
        simp [hm, this, hd]
      · have : (seen.any fun u => decide (key = u)) = false :=
          any_eq_false_of_not_mem key seen hd
        simp only [hm, this, Bool.not_true, Bool.false_eq_true, if_false, ih, List.mem_append,
          List.mem_singleton, not_or, List.forall_mem_cons, List.pairwise_cons, true_and]
        constructor
        · rintro ⟨h1, h2, h3⟩
          exact ⟨h1, ⟨fun a ha hk => (h3 a ha).2 hk.symm, h2⟩, hd, fun k hk => (h3 k hk).1⟩
        · rintro ⟨h1, ⟨h2, h3⟩, _, h5⟩
          exact ⟨h1, h3, fun k hk => ⟨h5 k hk, fun hkk => h2 k hk hkk.symm⟩⟩
    · simp [hm]

/-- C7: `validateTableKeys` returns no error exactly when every name has the shape of the
pattern (columns: one or more ASCII letters; rows: one or more ASCII digits) and the names
are pairwise distinct. -/
theorem validateTableKeys_eq_none_iff (keys : List String) :
    (validateTableKeys keys columnNameRegExCompiled = none ↔
      (∀ k ∈ keys, IsLetters k.data) ∧ keys.Pairwise (fun a b => a ≠ b)) ∧
    (validateTableKeys keys rowNameRegExCompiled = none ↔
      (∀ k ∈ keys, IsDigits k.data) ∧ keys.Pairwise (fun a b => a ≠ b)) := by
  unfold validateTableKeys columnNameRegExCompiled rowNameRegExCompiled
  constructor
  · rw [validateTableKeysLoop_eq_none_iff]
    simp only [RE.MatchString_iff, clsPlus_isLetter_iff, List.not_mem_nil, not_false_eq_true,
      implies_true, and_true]
  · rw [validateTableKeysLoop_eq_none_iff]
    simp only [RE.MatchString_iff, clsPlus_isDigit_iff, List.not_mem_nil, not_false_eq_true,
      implies_true, and_true]

theorem validateTableKeysLoop_violation (re : RE) (keys seen : List String)
    (h : ∃ k ∈ keys, re.MatchString k = false) :
    validateTableKeysLoop re keys seen =
      if (keys.takeWhile (fun k => re.MatchString k)).Nodup ∧
          ∀ k ∈ keys.takeWhile (fun k => re.MatchString k), k ∉ seen
      then some errKeyShape else some errKeyDuplicate := by
  induction keys generalizing seen with
  | nil => simp at h
  | cons key rest ih =>
    unfold validateTableKeysLoop
    by_cases hm : re.MatchString key = true
    · have hrest : ∃ k ∈ rest, re.MatchString k = false := by
        obtain ⟨k, hk, hkm⟩ := h
        rcases List.mem_cons.1 hk with rfl | hk
        · rw [hm] at hkm; cases hkm
        · exact ⟨k, hk, hkm⟩
      by_cases hd : key ∈ seen
      · have : (seen.any fun u => decide (key = u)) = true := (any_eq_iff_mem key seen).2 hd
        simp [hm, this, hd, List.takeWhile_cons]
      · have : (seen.any fun u => decide (key = u)) = false :=
          any_eq_false_of_not_mem key seen hd
        simp only [hm, this, Bool.not_true, Bool.false_eq_true, if_false, ih _ hrest,
          List.takeWhile_cons, if_true, List.nodup_cons, List.mem_append, List.mem_singleton,
          not_or, List.forall_mem_cons]
        congr 1
        apply propext
        constructor
        · rintro ⟨h1, h2⟩
          exact ⟨⟨fun hk => (h2 key hk).2 rfl, h1⟩, hd, fun k hk => (h2 k hk).1⟩
        · rintro ⟨⟨h1, h2⟩, _, h4⟩
          exact ⟨h2, fun k hk => ⟨h4 k hk, fun hkk => h1 (hkk ▸ hk)⟩⟩
    · simp [hm, List.takeWhile_cons]

/-- C8 as stated fails: in `A, A, A1` the name `A1` has not the shape of a column name,
yet the error is the duplicate-key error, because `A` is repeated before `A1` is reached. -/
theorem validateTableKeys_duplicate_before_shape :
    columnNameRegExCompiled.MatchString "A1" = false ∧
    validateTableKeys ["A", "A", "A1"] columnNameRegExCompiled = some errKeyDuplicate ∧
    errKeyDuplicate ≠ errKeyShape := by
  decide

/-- C8 amended: when some name violates the shape, `validateTableKeys` fails; the error is
the invalid-key-shape error when the names before the first violating name are pairwise
distinct, and the duplicate-key error when one of them is repeated. -/
theorem validateTableKeys_shape_violation (re : RE) (keys : List String)
    (h : ∃ k ∈ keys, re.MatchString k = false) :
    validateTableKeys keys re =
      if (keys.takeWhile (fun k => re.MatchString k)).Nodup then some errKeyShape
      else some errKeyDuplicate := by
  unfold validateTableKeys
  rw [validateTableKeysLoop_violation re keys [] h]
  simp

/-- Witness of C8 amended: `A, B, A1, A` fails with the invalid-key-shape error. -/
theorem validateTableKeys_shape_violation_witness :
    (∃ k ∈ ["A", "B", "A1", "A"], columnNameRegExCompiled.MatchString k = false) ∧
    validateTableKeys ["A", "B", "A1", "A"] columnNameRegExCompiled = some errKeyShape :=
  ⟨⟨"A1", by decide, by decide⟩,
   (validateTableKeys_shape_violation columnNameRegExCompiled ["A", "B", "A1", "A"]
      ⟨"A1", by decide, by decide⟩).trans (by decide)⟩

/-! ## Validation of a cell address -/

theorem operandAddress_error (t : Table) (c r e : String) (a : Option Address)
    (h : operandAddress t c r = (a, some e)) : e = errUnknownCell := by
  unfold operandAddress at h
  split_ifs at h with hne
  · cases hv : validateCellAddress t c r with
    | none => simp [hv] at h
    | some e1 =>
      simp only [hv, Prod.mk.injEq, Option.some.injEq] at h
      unfold validateCellAddress at hv
      split_ifs at hv
      simp only [Option.some.injEq] at hv
      rw [← h.2, ← hv]
  · simp at h

theorem validateCellAddress_iff (t : Table) (columnName rowName : String) :
    validateCellAddress t columnName rowName = none ↔
      columnName ∈ t.ColNamesMap.map Prod.fst ∧ rowName ∈ t.RowNamesMap.map Prod.fst := by
  unfold validateCellAddress
  have key : (t.ColNamesMap.any (fun c =>
      decide (columnName = c.1) && t.RowNamesMap.any (fun r => decide (rowName = r.1)))) = true ↔
      columnName ∈ t.ColNamesMap.map Prod.fst ∧ rowName ∈ t.RowNamesMap.map Prod.fst := by
    simp only [List.any_eq_true, Bool.and_eq_true, decide_eq_true_eq, List.mem_map]
    constructor
    · rintro ⟨c, hc, h1, r, hr, h2⟩
      exact ⟨⟨c, hc, h1.symm⟩, ⟨r, hr, h2.symm⟩⟩
    · rintro ⟨⟨c, hc, h1⟩, ⟨r, hr, h2⟩⟩
      exact ⟨c, hc, h1.symm, r, hr, h2.symm⟩
  rw [← key]
  split_ifs with h <;> simp [h]

/-- C9: `validateCellAddress` returns no error exactly when the column name is a key of
`ColNamesMap` and the row name is a key of `RowNamesMap`; otherwise it returns the
unknown-cell error, whose message differs from that of the malformed-formula error; and
`parseRecord` on `=Z99+1` returns the unknown-cell error in a table that lacks column `Z`
or row `99`. -/
theorem validateCellAddress_eq_none_iff (t : Table) (columnName rowName : String) :
    (validateCellAddress t columnName rowName = none ↔
      columnName ∈ t.ColNamesMap.map Prod.fst ∧ rowName ∈ t.RowNamesMap.map Prod.fst) ∧
    (validateCellAddress t columnName rowName ≠ none →
      validateCellAddress t columnName rowName = some errUnknownCell) ∧
    errUnknownCell ≠ errMalformedFormula ∧
    (¬ ("Z" ∈ t.ColNamesMap.map Prod.fst ∧ "99" ∈ t.RowNamesMap.map Prod.fst) →
      ∀ address, parseRecord t "=Z99+1" address = (t, some errUnknownCell)) := by
  refine ⟨validateCellAddress_iff t columnName rowName, ?_, by decide, ?_⟩
  · intro h
    unfold validateCellAddress at h ⊢
    split_ifs at h ⊢ with hc
    · exact absurd rfl h
    · rfl
  · intro hz address
    have h1 : HasPrefix "=Z99+1" "=" = true := by decide
    have h2 : formulaRegExCompiled.fullMatch "=Z99+1" =
        some [("", ['Z', '9', '9']), ("arg1ColName", ['Z']), ("arg1RowName", ['9', '9']),
          ("operator", ['+']), ("", ['1']), ("arg2Const", ['1'])] := by decide
    have h3 : validateCellAddress t "Z" "99" = some errUnknownCell := by
      have hn : validateCellAddress t "Z" "99" ≠ none :=
        fun hv => hz ((validateCellAddress_iff t "Z" "99").1 hv)
      unfold validateCellAddress at hn ⊢
      split_ifs at hn ⊢ with hc
      · exact absurd rfl hn
      · rfl
    have h4 : capText [("", ['Z', '9', '9']), ("arg1ColName", ['Z']), ("arg1RowName", ['9', '9']),
          ("operator", ['+']), ("", ['1']), ("arg2Const", ['1'])] "arg1ColName" = "Z" := by
      decide
    have h5 : capText [("", ['Z', '9', '9']), ("arg1ColName", ['Z']), ("arg1RowName", ['9', '9']),
          ("operator", ['+']), ("", ['1']), ("arg2Const", ['1'])] "arg1RowName" = "99" := by
      decide
    have h6 : operandAddress t "Z" "99" = (none, some errUnknownCell) := by
      have hne : ("Z" : String) ≠ "" ∧ ("99" : String) ≠ "" := by decide
      unfold operandAddress
      rw [if_pos hne, h3]
    simp only [parseRecord, h1, h2, if_true, h4, h5, h6]

/-- Witness of C9: the table with columns `A`, `B` and row `1` has no column `Z`, and
`=Z99+1` is refused with the unknown-cell error. -/
theorem validateCellAddress_eq_none_iff_witness :
    ¬ ("Z" ∈ tableZero.ColNamesMap.map Prod.fst ∧ "99" ∈ tableZero.RowNamesMap.map Prod.fst) ∧
    validateCellAddress tableZero "Z" "99" = some errUnknownCell ∧
    parseRecord tableZero "=Z99+1" { ColumnIndex := 0, RowIndex := 0 } =
      (tableZero, some errUnknownCell) :=
  ⟨by decide,
   (validateCellAddress_eq_none_iff tableZero "Z" "99").2.1 (by decide),
   (validateCellAddress_eq_none_iff tableZero "Z" "99").2.2.2 (by decide) _⟩

/-! ## The formula grammar -/

theorem operandRE_matches_iff (col row const : String) (w : List Char) :
    (operandRE col row const).Matches w ↔ IsOperandText w := by
  simp only [operandRE, RE.Matches, IsOperandText, IsLetters, IsDigits, isLetter_iff,
    isDigit_iff]
  constructor
  · rintro (⟨u, v, rfl, hu, hv⟩ | h)
    · exact Or.inl ⟨u, v, hu, hv, rfl⟩
    · exact Or.inr h
  · rintro (⟨u, v, hu, hv, rfl⟩ | h)
    · exact Or.inl ⟨u, v, rfl, hu, hv⟩
    · exact Or.inr h

theorem isOperatorChar_iff (c : Char) : isOperatorChar c = true ↔ IsOperatorRune c := by
  simp only [isOperatorChar, IsOperatorRune, Bool.or_eq_true, decide_eq_true_eq]
  tauto

theorem formulaRegExCompiled_matches_iff (s : String) :
    formulaRegExCompiled.Matches s.data ↔ IsFormulaText s := by
  constructor
  · intro hm
    obtain ⟨u, v, h, ⟨c, rfl, hc⟩, o1, v1, rfl, ho1, u2, o2, rfl, ⟨op, rfl, hop⟩, ho2⟩ := hm
    have hc1 : c = '=' := by simpa using hc
    subst hc1
    exact ⟨o1, op, o2, (operandRE_matches_iff _ _ _ o1).1 ho1, (isOperatorChar_iff op).1 hop,
      (operandRE_matches_iff _ _ _ o2).1 ho2, by simp [h]⟩
  · rintro ⟨o1, op, o2, ho1, hop, ho2, h⟩
    exact ⟨['='], o1 ++ op :: o2, by simp [h], ⟨'=', rfl, by simp⟩, o1, op :: o2, rfl,
      (operandRE_matches_iff _ _ _ o1).2 ho1, [op], o2, rfl,
      ⟨op, rfl, (isOperatorChar_iff op).2 hop⟩, (operandRE_matches_iff _ _ _ o2).2 ho2⟩

/-- C10: on a cell string that begins with `=`, `parseRecord` returns the
malformed-formula error exactly when the string is not `=` operand operator operand
(operand: letters then digits, or digits; operator: one of `+ - * /`); a string with
white space, with a sign on a constant, with a missing operand or with two operators is
refused as malformed. -/
theorem parseRecord_malformed_iff (t : Table) (value : String) (address : Address)
    (h : HasPrefix value "=" = true) :
    ((parseRecord t value address).2 = some errMalformedFormula ↔ ¬ IsFormulaText value) ∧
    parseRecord t "=A1 + 2" address = (t, some errMalformedFormula) ∧
    parseRecord t "=-1+2" address = (t, some errMalformedFormula) ∧
    parseRecord t "=A1+" address = (t, some errMalformedFormula) ∧
    parseRecord t "=1+2+3" address = (t, some errMalformedFormula) := by
  have hne : errUnknownCell ≠ errMalformedFormula := by decide
  refine ⟨?_, ?_, ?_, ?_, ?_⟩
  · rw [← formulaRegExCompiled_matches_iff, ← RE.fullMatch_isSome_iff]
    cases hm : formulaRegExCompiled.fullMatch value with
    | none => simp [parseRecord, h, hm]
    | some m =>
      simp only [parseRecord, h, hm, if_true, Option.isSome_some, not_true_eq_false, iff_false]
      cases h1 : operandAddress t (capText m "arg1ColName") (capText m "arg1RowName") with
      | mk a1 e1 =>
        cases e1 with
        | some e =>
          simp only [Option.some.injEq]
          rw [operandAddress_error t _ _ e a1 h1]
          exact hne
        | none =>
          simp only
          cases h2 : operandAddress t (capText m "arg2ColName") (capText m "arg2RowName") with
          | mk a2 e2 =>
            cases e2 with
            | some e =>
              simp only [Option.some.injEq]
              rw [operandAddress_error t _ _ e a2 h2]
              exact hne
            | none => simp
  · have h1 : HasPrefix "=A1 + 2" "=" = true := by decide
    have h2 : formulaRegExCompiled.fullMatch "=A1 + 2" = none := by decide
    simp only [parseRecord, h1, h2, if_true]
  · have h1 : HasPrefix "=-1+2" "=" = true := by decide
    have h2 : formulaRegExCompiled.fullMatch "=-1+2" = none := by decide
    simp only [parseRecord, h1, h2, if_true]
  · have h1 : HasPrefix "=A1+" "=" = true := by decide
    have h2 : formulaRegExCompiled.fullMatch "=A1+" = none := by decide
    simp only [parseRecord, h1, h2, if_true]
  · have h1 : HasPrefix "=1+2+3" "=" = true := by decide
    have h2 : formulaRegExCompiled.fullMatch "=1+2+3" = none := by decide
    simp only [parseRecord, h1, h2, if_true]

/-- Witness of C10: `=A1+` begins with `=`, is no formula of the grammar, and is refused
with the malformed-formula error. -/
theorem parseRecord_malformed_iff_witness :
    HasPrefix "=A1+" "=" = true ∧
    (parseRecord tableZero "=A1+" { ColumnIndex := 0, RowIndex := 0 }).2 =
      some errMalformedFormula ∧
    ¬ IsFormulaText "=A1+" :=
  ⟨by decide, by decide,
   ((parseRecord_malformed_iff tableZero "=A1+" { ColumnIndex := 0, RowIndex := 0 }
      (by decide)).1).1 (by decide)⟩

/-! ## The captured groups of the formula pattern -/

theorem mem_run_cls (p : Char → Bool) (s : List Char) (x : Caps × List Char × List Char) :
    x ∈ (RE.cls p).run s ↔ ∃ c r, s = c :: r ∧ p c = true ∧ x = ([], [c], r) := by
  cases s with
  | nil => simp [RE.run]
  | cons d ds =>
    cases hp : p d with
    | true =>
      simp only [RE.run, hp, if_true, List.mem_singleton, List.cons.injEq]
      constructor
      · rintro rfl
        exact ⟨d, ds, ⟨rfl, rfl⟩, hp, rfl⟩
      · rintro ⟨c, r, ⟨rfl, rfl⟩, _, rfl⟩
        rfl
    | false =>
      simp only [RE.run, hp, Bool.false_eq_true, if_false, List.not_mem_nil, List.cons.injEq,
        false_iff, not_exists, not_and]
      rintro c r ⟨rfl, rfl⟩ hc
      rw [hp] at hc
      cases hc

theorem mem_run_clsPlus (p : Char → Bool) (s : List Char) (x : Caps × List Char × List Char) :
    x ∈ (RE.clsPlus p).run s ↔
      ∃ w r, w ≠ [] ∧ (∀ c ∈ w, p c = true) ∧ s = w ++ r ∧ x = ([], w, r) := by
  simp only [RE.run, List.mem_map, mem_plusRuns]
  constructor
  · rintro ⟨⟨w, r⟩, ⟨h1, h2, h3⟩, rfl⟩
    exact ⟨w, r, h1, h2, h3, rfl⟩
  · rintro ⟨w, r, h1, h2, h3, rfl⟩
    exact ⟨(w, r), ⟨h1, h2, h3⟩, rfl⟩

theorem mem_run_seq (a b : RE) (s : List Char) (x : Caps × List Char × List Char) :
    x ∈ (RE.seq a b).run s ↔
      ∃ c1 w1 r1 c2 w2 r2, (c1, w1, r1) ∈ a.run s ∧ (c2, w2, r2) ∈ b.run r1 ∧
        x = (c1 ++ c2, w1 ++ w2, r2) := by
  simp only [RE.run, List.mem_flatMap, List.mem_map]
  constructor
  · rintro ⟨⟨c1, w1, r1⟩, h1, ⟨c2, w2, r2⟩, h2, rfl⟩
    exact ⟨c1, w1, r1, c2, w2, r2, h1, h2, rfl⟩
  · rintro ⟨c1, w1, r1, c2, w2, r2, h1, h2, rfl⟩
    exact ⟨(c1, w1, r1), h1, (c2, w2, r2), h2, rfl⟩

theorem mem_run_alt (a b : RE) (s : List Char) (x : Caps × List Char × List Char) :
    x ∈ (RE.alt a b).run s ↔ x ∈ a.run s ∨ x ∈ b.run s := by
  simp only [RE.run, List.mem_append]

theorem mem_run_group (name : String) (a : RE) (s : List Char)
    (x : Caps × List Char × List Char) :
    x ∈ (RE.group name a).run s ↔
      ∃ c w r, (c, w, r) ∈ a.run s ∧ x = ((name, w) :: c, w, r) := by
  simp only [RE.run, List.mem_map]
  constructor
  · rintro ⟨⟨c, w, r⟩, h, rfl⟩
    exact ⟨c, w, r, h, rfl⟩
  · rintro ⟨c, w, r, h, rfl⟩
    exact ⟨(c, w, r), h, rfl⟩

theorem operandRE_run_mem (col row const : String) (s : List Char)
    (x : Caps × List Char × List Char) (hx : x ∈ (operandRE col row const).run s) :
    s = x.2.1 ++ x.2.2 ∧
      ((∃ ls ds, IsLetters ls ∧ IsDigits ds ∧ x.2.1 = ls ++ ds ∧
          x.1 = [("", ls ++ ds), (col, ls), (row, ds)]) ∨
        (IsDigits x.2.1 ∧ x.1 = [("", x.2.1), (const, x.2.1)])) := by
  unfold operandRE at hx
  obtain ⟨c, w, r, hc, rfl⟩ := (mem_run_group _ _ _ _).1 hx
  rcases (mem_run_alt _ _ _ _).1 hc with h | h
  · obtain ⟨c1, w1, r1, c2, w2, r2, h1, h2, he⟩ := (mem_run_seq _ _ _ _).1 h
    obtain ⟨c3, w3, r3, h3, he3⟩ := (mem_run_group _ _ _ _).1 h1
    obtain ⟨c4, w4, r4, h4, he4⟩ := (mem_run_group _ _ _ _).1 h2
    obtain ⟨w5, r5, hn5, hp5, hs5, he5⟩ := (mem_run_clsPlus _ _ _).1 h3
    obtain ⟨w6, r6, hn6, hp6, hs6, he6⟩ := (mem_run_clsPlus _ _ _).1 h4
    simp only [Prod.mk.injEq] at he he3 he4 he5 he6
    obtain ⟨rfl, rfl, rfl⟩ := he
    obtain ⟨rfl, rfl, rfl⟩ := he3
    obtain ⟨rfl, rfl, rfl⟩ := he4
    obtain ⟨rfl, rfl, rfl⟩ := he5
    obtain ⟨rfl, rfl, rfl⟩ := he6
    refine ⟨by simp [hs5, hs6], Or.inl ⟨_, _, ⟨hn5, fun c hc => (isLetter_iff c).1 (hp5 c hc)⟩,
      ⟨hn6, fun c hc => (isDigit_iff c).1 (hp6 c hc)⟩, rfl, rfl⟩⟩
  · obtain ⟨c3, w3, r3, h3, he3⟩ := (mem_run_group _ _ _ _).1 h
    obtain ⟨w5, r5, hn5, hp5, hs5, he5⟩ := (mem_run_clsPlus _ _ _).1 h3
    simp only [Prod.mk.injEq] at he3 he5
    obtain ⟨rfl, rfl, rfl⟩ := he3
    obtain ⟨rfl, rfl, rfl⟩ := he5
    exact ⟨hs5, Or.inr ⟨⟨hn5, fun c hc => (isDigit_iff c).1 (hp5 c hc)⟩, rfl⟩⟩

theorem formulaRegExCompiled_fullMatch (s : String) (m : Caps)
    (h : formulaRegExCompiled.fullMatch s = some m) :
    ∃ c1 o1 op c2 o2, s.data = '=' :: (o1 ++ op :: o2) ∧ isOperatorChar op = true ∧
      OperandCaps "arg1ColName" "arg1RowName" "arg1Const" c1 o1 ∧
      OperandCaps "arg2ColName" "arg2RowName" "arg2Const" c2 o2 ∧
      m = c1 ++ ("operator", [op]) :: c2 := by
  unfold RE.fullMatch at h
  obtain ⟨x, hx, rfl⟩ := Option.map_eq_some'.1 h
  have hmem := List.mem_of_find?_eq_some hx
  have hrest := List.find?_some hx
  simp only [List.isEmpty_iff] at hrest
  unfold formulaRegExCompiled at hmem
  obtain ⟨c1, w1, r1, c2, w2, r2, h1, h2, he⟩ := (mem_run_seq _ _ _ _).1 hmem
  obtain ⟨c3, w3, r3, c4, w4, r4, h3, h4, he4⟩ := (mem_run_seq _ _ _ _).1 h2
  obtain ⟨c5, w5, r5, c6, w6, r6, h5, h6, he6⟩ := (mem_run_seq _ _ _ _).1 h4
  obtain ⟨c7, w7, r7, h7, he7⟩ := (mem_run_group _ _ _ _).1 h5
  obtain ⟨e, re, hs1, hpe, he1⟩ := (mem_run_cls _ _ _).1 h1
  obtain ⟨op, rop, hs7, hpop, he8⟩ := (mem_run_cls _ _ _).1 h7
  obtain ⟨hs3, hc3⟩ := operandRE_run_mem _ _ _ _ _ h3
  obtain ⟨hs6, hc6⟩ := operandRE_run_mem _ _ _ _ _ h6
  simp only [Prod.mk.injEq] at he4 he6 he7 he1 he8
  obtain ⟨rfl, rfl, rfl⟩ := he4
  obtain ⟨rfl, rfl, rfl⟩ := he6
  obtain ⟨rfl, rfl, rfl⟩ := he7
  obtain ⟨rfl, rfl, rfl⟩ := he1
  obtain ⟨rfl, rfl, rfl⟩ := he8
  subst he
  simp only at hrest hs3 hs6 hc3 hc6
  subst hrest
  have he' : e = '=' := by simpa using hpe
  subst he'
  refine ⟨c3, w3, op, c6, w6, ?_, hpop, hc3, hc6, by simp⟩
  rw [hs1, hs3, hs7, hs6]
  simp

theorem capText_operator (c1 c2 : Caps) (o1 : List Char) (op : Char)
    (h : OperandCaps "arg1ColName" "arg1RowName" "arg1Const" c1 o1) :
    capText (c1 ++ ("operator", [op]) :: c2) "operator" = String.mk [op] := by
  have e1 : ("operator" == "") = false := by decide
  have e2 : ("operator" == "arg1ColName") = false := by decide
  have e3 : ("operator" == "arg1RowName") = false := by decide
  have e4 : ("operator" == "arg1Const") = false := by decide
  have e5 : ("operator" == "operator") = true := by decide
  rcases h with ⟨ls, ds, _, _, _, rfl⟩ | ⟨_, rfl⟩
  · simp only [capText, List.cons_append, List.nil_append, List.lookup, e1, e2, e3, e5]
  · simp only [capText, List.cons_append, List.nil_append, List.lookup, e1, e4, e5]

/-- The index expression `matches[i][0]` of `parseRecord` never panics: when the formula
pattern matches, the operator group holds exactly one character of the operator class. -/
theorem fullMatch_operator (s : String) (m : Caps)
    (h : formulaRegExCompiled.fullMatch s = some m) :
    ∃ op, (capText m "operator").data = [op] ∧ IsOperatorRune op := by
  obtain ⟨c1, o1, op, c2, o2, _, hop, h1, _, rfl⟩ := formulaRegExCompiled_fullMatch s m h
  exact ⟨op, by rw [capText_operator c1 c2 o1 op h1], (isOperatorChar_iff op).1 hop⟩

/-! ## Monotonicity in the recursion budget -/

theorem GetCellNumericValueByAddressWith_mono {calcF calcG : Formula → Run (Int × GoError)}
    (h : ∀ f r, calcF f = .ret r → calcG f = .ret r) (t : Table) (b : Address)
    (r : Int × GoError) (hr : GetCellNumericValueByAddressWith calcF t b = .ret r) :
    GetCellNumericValueByAddressWith calcG t b = .ret r := by
  unfold GetCellNumericValueByAddressWith at hr ⊢
  cases hv : GetCellValueByAddress t b with
  | fault => rw [hv] at hr; simp at hr
  | timeout => rw [hv] at hr; simp at hr
  | ret p =>
    obtain ⟨s, e⟩ := p
    rw [hv] at hr
    cases e with
    | some e => exact hr
    | none =>
      simp only at hr ⊢
      cases hp : HasPrefix s "=" with
      | false => simpa [hp] using hr
      | true =>
        simp only [hp, if_true] at hr ⊢
        cases hg : mapGet t.formulas b with
        | none => rw [hg] at hr; simp at hr
        | some g =>
          rw [hg] at hr
          simp only at hr ⊢
          cases hc : calcF g with
          | ret q => rw [h g q hc]; rw [hc] at hr; exact hr
          | fault => rw [hc] at hr; simp at hr
          | timeout => rw [hc] at hr; simp at hr

theorem resolveOperand_mono {calcF calcG : Formula → Run (Int × GoError)}
    (h : ∀ f r, calcF f = .ret r → calcG f = .ret r) (t : Table) (o : Option Address)
    (c v : Int) (hr : resolveOperand calcF t o c = .ret v) :
    resolveOperand calcG t o c = .ret v := by
  cases o with
  | none => exact hr
  | some a =>
    simp only [resolveOperand] at hr ⊢
    obtain ⟨q, hq, hv⟩ := Run.bind_eq_ret hr
    rw [GetCellNumericValueByAddressWith_mono h t a q hq]
    exact hv

theorem calculateFormula_mono_succ (t : Table) (n : Nat) :
    ∀ f r, calculateFormula n t f = .ret r → calculateFormula (n + 1) t f = .ret r := by
  induction n with
  | zero => intro f r h; simp [calculateFormula] at h
  | succ n ih =>
    intro f r h
    rw [calculateFormula_unfold] at h ⊢
    cases hc : f.isCalculated with
    | true => simp only [hc, if_true] at h ⊢; exact h
    | false =>
      simp only [hc, Bool.false_eq_true, if_false] at h ⊢
      obtain ⟨o1, h1, h⟩ := Run.bind_eq_ret h
      obtain ⟨o2, h2, h⟩ := Run.bind_eq_ret h
      rw [resolveOperand_mono ih t _ _ o1 h1, Run.bind_ret,
        resolveOperand_mono ih t _ _ o2 h2, Run.bind_ret]
      exact h

theorem calculateFormula_mono (t : Table) (f : Formula) (r : Int × GoError) (n m : Nat)
    (hnm : n ≤ m) (h : calculateFormula n t f = .ret r) : calculateFormula m t f = .ret r := by
  induction hnm with
  | refl => exact h
  | step _ ih => exact calculateFormula_mono_succ t _ f r ih

theorem calculateFormula_det (t : Table) (f : Formula) (r1 r2 : Int × GoError) (n m : Nat)
    (h1 : calculateFormula n t f = .ret r1) (h2 : calculateFormula m t f = .ret r2) :
    r1 = r2 := by
  have a := calculateFormula_mono t f r1 n (max n m) (le_max_left _ _) h1
  have b := calculateFormula_mono t f r2 m (max n m) (le_max_right _ _) h2
  rw [a] at b
  exact Run.ret.inj b

/-! ## Overwriting a cell -/

theorem setCell_spec (t t1 : Table) (a : Address) (s : String) (h : setCell t a s = .ret t1) :
    0 ≤ a.RowIndex ∧ 0 ≤ a.ColumnIndex ∧
    (∃ old, cellNat t a.RowIndex.toNat a.ColumnIndex.toNat = some old) ∧
    t1.cells.length = t.cells.length ∧
    t1.cells.head?.map List.length = t.cells.head?.map List.length ∧
    (∀ i j, cellNat t1 i j =
      if i = a.RowIndex.toNat ∧ j = a.ColumnIndex.toNat then some s else cellNat t i j) ∧
    t1 = { t with cells := t1.cells } := by
  unfold setCell at h
  split_ifs at h with hneg
  rw [not_or, not_lt, not_lt] at hneg
  cases hrow : t.cells[a.RowIndex.toNat]? with
  | none => rw [hrow] at h; simp at h
  | some row =>
    rw [hrow] at h
    simp only at h
    split_ifs at h with hlt
    simp only [Run.ret.injEq] at h
    subst h
    have hi : a.RowIndex.toNat < t.cells.length := by
      by_contra hc
      rw [List.getElem?_eq_none (not_lt.1 hc)] at hrow
      cases hrow
    refine ⟨hneg.1, hneg.2, ?_, by simp, ?_, ?_, rfl⟩
    · refine ⟨row[a.ColumnIndex.toNat], ?_⟩
      simp [cellNat, hrow, hlt]
    · simp only [List.head?_eq_getElem?, List.getElem?_set]
      by_cases h0 : a.RowIndex.toNat = 0
      · rw [h0] at hi hrow
        simp [h0, hi, hrow]
      · simp [h0]
    · intro i j
      simp only [cellNat, List.getElem?_set]
      by_cases hii : a.RowIndex.toNat = i
      · subst hii
        simp only [true_and, hi, if_true, hrow, List.getElem?_set]
        by_cases hjj : a.ColumnIndex.toNat = j
        · subst hjj
          simp [hlt]
        · simp [hjj, Ne.symm hjj]
      · simp [hii, Ne.symm hii]

theorem setCell_formulas (t t1 : Table) (a : Address) (s : String)
    (h : setCell t a s = .ret t1) : t1.formulas = t.formulas := by
  have := (setCell_spec t t1 a s h).2.2.2.2.2.2
  rw [this]

theorem setCell_ok (t : Table) (a : Address) (s old : String) (h : cellAt t a = some old) :
    ∃ t1, setCell t a s = .ret t1 := by
  unfold cellAt at h
  split_ifs at h with hneg
  unfold cellNat at h
  unfold setCell
  rw [if_neg hneg]
  cases hrow : t.cells[a.RowIndex.toNat]? with
  | none => rw [hrow] at h; cases h
  | some row =>
    rw [hrow] at h
    simp only at h ⊢
    have hlt : a.ColumnIndex.toNat < row.length := by
      by_contra hc
      rw [List.getElem?_eq_none (not_lt.1 hc)] at h
      cases h
    rw [if_pos hlt]
    exact ⟨_, rfl⟩

theorem address_eq_of_toNat (a b : Address) (ha : 0 ≤ a.RowIndex ∧ 0 ≤ a.ColumnIndex)
    (hb : 0 ≤ b.RowIndex ∧ 0 ≤ b.ColumnIndex)
    (h : b.RowIndex.toNat = a.RowIndex.toNat ∧ b.ColumnIndex.toNat = a.ColumnIndex.toNat) :
    b = a := by
  obtain ⟨ac, ar⟩ := a
  obtain ⟨bc, br⟩ := b
  simp only [Address.mk.injEq] at *
  omega

theorem GetCellValueByAddress_setCell_ne (t t1 : Table) (a b : Address) (s : String)
    (h : setCell t a s = .ret t1) (hne : b ≠ a) :
    GetCellValueByAddress t1 b = GetCellValueByAddress t b := by
  obtain ⟨ha1, ha2, _, hlen, hhead, hcell, _⟩ := setCell_spec t t1 a s h
  unfold GetCellValueByAddress
  by_cases hneg : b.ColumnIndex < 0 ∨ b.RowIndex < 0
  · simp only [hneg, if_true]
  · simp only [hneg, if_false]
    have hb : 0 ≤ b.RowIndex ∧ 0 ≤ b.ColumnIndex := by
      rw [not_or, not_lt, not_lt] at hneg; exact ⟨hneg.2, hneg.1⟩
    have hc : cellNat t1 b.RowIndex.toNat b.ColumnIndex.toNat =
        cellNat t b.RowIndex.toNat b.ColumnIndex.toNat := by
      rw [hcell, if_neg]
      intro hh
      exact hne (address_eq_of_toNat a b ⟨ha1, ha2⟩ hb hh)
    rw [hc, hlen]
    cases h1 : t1.cells.head? with
    | none =>
      rw [h1] at hhead
      cases h0 : t.cells.head? with
      | none => rfl
      | some r0 => rw [h0] at hhead; simp at hhead
    | some r1 =>
      rw [h1] at hhead
      cases h0 : t.cells.head? with
      | none => rw [h0] at hhead; simp at hhead
      | some r0 =>
        rw [h0] at hhead
        simp only [Option.map_some', Option.some.injEq] at hhead
        simp only [hhead]

theorem GetCellValueByAddress_setCell_eq (t t1 : Table) (a : Address) (s : String)
    (h : setCell t a s = .ret t1) (old : String) (e : GoError)
    (hv : GetCellValueByAddress t a = .ret (old, e)) :
    (e = none → GetCellValueByAddress t1 a = .ret (s, none)) ∧
    (e ≠ none → GetCellValueByAddress t1 a = .ret (old, e)) := by
  obtain ⟨ha1, ha2, _, hlen, hhead, hcell, _⟩ := setCell_spec t t1 a s h
  unfold GetCellValueByAddress at hv ⊢
  have hneg : ¬ (a.ColumnIndex < 0 ∨ a.RowIndex < 0) := by
    rw [not_or, not_lt, not_lt]; exact ⟨ha2, ha1⟩
  simp only [hneg, if_false] at hv ⊢
  have hc : cellNat t1 a.RowIndex.toNat a.ColumnIndex.toNat = some s := by
    rw [hcell, if_pos ⟨rfl, rfl⟩]
  rw [hc, hlen]
  cases h1 : t1.cells.head? with
  | none =>
    rw [h1] at hhead
    cases h0 : t.cells.head? with
    | none => rw [h0] at hv; simp at hv
    | some r0 => rw [h0] at hhead; simp at hhead
  | some r1 =>
    rw [h1] at hhead
    cases h0 : t.cells.head? with
    | none => rw [h0] at hhead; simp at hhead
    | some r0 =>
      rw [h0] at hhead hv
      simp only [Option.map_some', Option.some.injEq] at hhead
      simp only [hhead] at hv ⊢
      split_ifs at hv ⊢ with hb
      · simp only [Run.ret.injEq, Prod.mk.injEq] at hv
        refine ⟨fun he => ?_, fun _ => ?_⟩
        · rw [he] at hv; simp at hv
        · rw [← hv.1, ← hv.2]
      · refine ⟨fun _ => rfl, fun he => ?_⟩
        cases hcn : cellNat t a.RowIndex.toNat a.ColumnIndex.toNat with
        | none => rw [hcn] at hv; simp at hv
        | some o =>
          rw [hcn] at hv
          simp only [Run.ret.injEq, Prod.mk.injEq] at hv
          exact absurd hv.2.symm he

/-! ## `strconv`: `Atoi` after `Itoa` -/

theorem digitChar_spec (d : Nat) (h : d < 10) :
    isDigit (digitChar d) = true ∧ (digitChar d).toNat - 48 = d ∧ digitChar d ≠ '=' ∧
      digitChar d ≠ '-' ∧ digitChar d ≠ '+' := by
  interval_cases d <;> decide

theorem digitsVal_append (l : List Char) (c : Char) :
    digitsVal (l ++ [c]) = digitsVal l * 10 + (c.toNat - 48) := by
  simp [digitsVal, List.foldl_append]

theorem natDigits_spec (k : Nat) :
    ∀ n, n < 10 ^ (k + 1) →
      (∃ c rest, natDigits (k + 1) n = c :: rest ∧ isDigit c = true ∧ c ≠ '=' ∧ c ≠ '-' ∧
        c ≠ '+') ∧
      (natDigits (k + 1) n).all isDigit = true ∧ digitsVal (natDigits (k + 1) n) = n := by
  induction k with
  | zero =>
    intro n hn
    have hn10 : n < 10 := by simpa using hn
    obtain ⟨h1, h2, h3, h4, h5⟩ := digitChar_spec n hn10
    simp only [natDigits, hn10, if_true]
    refine ⟨⟨_, _, rfl, h1, h3, h4, h5⟩, by simp [h1], ?_⟩
    simp [digitsVal, h2]
  | succ k ih =>
    intro n hn
    by_cases hn10 : n < 10
    · obtain ⟨h1, h2, h3, h4, h5⟩ := digitChar_spec n hn10
      rw [natDigits]
      simp only [hn10, if_true]
      refine ⟨⟨_, _, rfl, h1, h3, h4, h5⟩, by simp [h1], ?_⟩
      simp [digitsVal, h2]
    · rw [natDigits]
      simp only [hn10, if_false]
      have hdiv : n / 10 < 10 ^ (k + 1) := by
        rw [Nat.div_lt_iff_lt_mul (by norm_num)]
        calc n < 10 ^ (k + 1 + 1) := hn
          _ = 10 ^ (k + 1) * 10 := by ring
      obtain ⟨⟨c, rest, hc, hcd, hc1, hc2, hc3⟩, hall, hval⟩ := ih (n / 10) hdiv
      obtain ⟨h1, h2, _⟩ := digitChar_spec (n % 10) (Nat.mod_lt _ (by norm_num))
      refine ⟨⟨c, rest ++ [digitChar (n % 10)], by rw [hc]; rfl, hcd, hc1, hc2, hc3⟩, ?_, ?_⟩
      · rw [List.all_append, hall]
        simp [h1]
      · rw [digitsVal_append, hval, h2]
        omega

theorem natDigits_self (n : Nat) :
    (∃ c rest, natDigits (n + 1) n = c :: rest ∧ isDigit c = true ∧ c ≠ '=' ∧ c ≠ '-' ∧
      c ≠ '+') ∧
    (natDigits (n + 1) n).all isDigit = true ∧ digitsVal (natDigits (n + 1) n) = n :=
  natDigits_spec n n (Nat.lt_of_lt_of_le (Nat.lt_pow_self (by norm_num) n)
    (Nat.pow_le_pow_right (by norm_num) (Nat.le_succ n)))

theorem isPrefixOf_eq_cons (c : Char) (rest : List Char) (h : c ≠ '=') :
    List.isPrefixOf ['='] (c :: rest) = false := by
  simp [List.isPrefixOf, h.symm]

theorem HasPrefix_Itoa (v : Int) : HasPrefix (Itoa v) "=" = false := by
  obtain ⟨⟨c, rest, hc, _, hne, _, _⟩, _, _⟩ := natDigits_self v.natAbs
  unfold HasPrefix Itoa
  split_ifs with hv
  · exact isPrefixOf_eq_cons '-' _ (by decide)
  · show List.isPrefixOf ['='] (natDigits (v.natAbs + 1) v.natAbs) = false
    rw [hc]
    exact isPrefixOf_eq_cons c rest hne

theorem Atoi_Itoa (v : Int) (h : InRange v) : Atoi (Itoa v) = (v, none) := by
  obtain ⟨⟨c, rest, hc, hcd, _, hm, hp⟩, hall, hval⟩ := natDigits_self v.natAbs
  unfold InRange minInt maxInt at h
  unfold Itoa
  split_ifs with hv
  · simp only [Atoi, if_true]
    unfold atoiDigits
    have hne : natDigits (v.natAbs + 1) v.natAbs ≠ [] := by rw [hc]; simp
    simp only [hne, hall, not_true_eq_false, or_self, if_false, hval, if_true]
    have : ¬ ((v.natAbs : Int) > 9223372036854775808) := by omega
    simp only [this, if_false, Prod.mk.injEq, and_true]
    omega
  · simp only [Atoi, hc, hm, hp, if_false]
    rw [← hc]
    unfold atoiDigits
    have hne : natDigits (v.natAbs + 1) v.natAbs ≠ [] := by rw [hc]; simp
    simp only [hne, hall, not_true_eq_false, or_self, if_false, hval, Bool.false_eq_true]
    have : ¬ ((v.natAbs : Int) ≥ 9223372036854775808) := by omega
    simp only [this, if_false, Prod.mk.injEq, and_true]
    omega

/-! ## Evaluation is stable under the overwriting of an evaluated formula cell -/

theorem applyOperator_inRange (op : Char) (o1 o2 : Int) : InRange (applyOperator op o1 o2).1 := by
  unfold applyOperator goAdd goSub goMul goDiv
  split_ifs <;> first | exact inRange_wrapInt _ | decide

theorem calculateFormula_inRange (n : Nat) (t : Table) (f : Formula) (x : Int) (e : GoError)
    (hc : f.isCalculated = false) (h : calculateFormula n t f = .ret (x, e)) : InRange x := by
  cases n with
  | zero => simp [calculateFormula] at h
  | succ n =>
    rw [calculateFormula_succ n t f hc] at h
    obtain ⟨o, _, ho⟩ := Run.bind_eq_ret h
    simp only [Run.ret.injEq] at ho
    have := applyOperator_inRange f.Operator o.1 o.2
    rw [ho] at this
    exact this

theorem GetCellValueByAddress_ok (t : Table) (a : Address) (s : String)
    (h : GetCellValueByAddress t a = .ret (s, none)) :
    0 ≤ a.RowIndex ∧ 0 ≤ a.ColumnIndex ∧
      cellNat t a.RowIndex.toNat a.ColumnIndex.toNat = some s := by
  unfold GetCellValueByAddress at h
  split_ifs at h with hneg
  · simp at h
  · rw [not_or, not_lt, not_lt] at hneg
    cases h0 : t.cells.head? with
    | none => rw [h0] at h; simp at h
    | some r0 =>
      rw [h0] at h
      simp only at h
      split_ifs at h with hb
      · simp at h
      · cases hc : cellNat t a.RowIndex.toNat a.ColumnIndex.toNat with
        | none => rw [hc] at h; simp at h
        | some o =>
          rw [hc] at h
          simp only [Run.ret.injEq, Prod.mk.injEq, and_true] at h
          exact ⟨hneg.2, hneg.1, by rw [h]⟩

theorem GetCellNumericValueByAddressWith_setCell (t t1 : Table) (a : Address) (g : Formula)
    (x : Int) (n0 n : Nat)
    (hset : setCell t a (Itoa x) = .ret t1)
    (hp : ∀ old, cellNat t a.RowIndex.toNat a.ColumnIndex.toNat = some old →
      HasPrefix old "=" = true)
    (hg : mapGet t.formulas a = some g) (hnc : g.isCalculated = false)
    (hx : calculateFormula n0 t g = .ret (x, none))
    (ih : ∀ f r, calculateFormula n t f = .ret r → calculateFormula n t1 f = .ret r)
    (b : Address) (r : Int × GoError)
    (hr : GetCellNumericValueByAddressWith (calculateFormula n t) t b = .ret r) :
    GetCellNumericValueByAddressWith (calculateFormula n t1) t1 b = .ret r := by
  by_cases hba : b = a
  · subst hba
    unfold GetCellNumericValueByAddressWith at hr ⊢
    cases hv : GetCellValueByAddress t b with
    | fault => rw [hv] at hr; simp at hr
    | timeout => rw [hv] at hr; simp at hr
    | ret p =>
      obtain ⟨old, e⟩ := p
      rw [hv] at hr
      obtain ⟨h1, h2⟩ := GetCellValueByAddress_setCell_eq t t1 b (Itoa x) hset old e hv
      cases e with
      | some e =>
        rw [h2 (by simp)]
        exact hr
      | none =>
        rw [h1 rfl]
        simp only [HasPrefix_Itoa, Bool.false_eq_true, if_false]
        rw [Atoi_Itoa x (calculateFormula_inRange n0 t g x none hnc hx)]
        have hold := hp old (GetCellValueByAddress_ok t b old hv).2.2
        simp only [hold, if_true, hg] at hr
        cases hc : calculateFormula n t g with
        | fault => rw [hc] at hr; simp at hr
        | timeout => rw [hc] at hr; simp at hr
        | ret q =>
          have hq := calculateFormula_det t g q (x, none) n n0 hc hx
          subst hq
          rw [hc] at hr
          exact hr
  · have h1 : GetCellNumericValueByAddressWith (calculateFormula n t1) t1 b =
        GetCellNumericValueByAddressWith (calculateFormula n t1) t b := by
      unfold GetCellNumericValueByAddressWith
      rw [GetCellValueByAddress_setCell_ne t t1 a b (Itoa x) hset hba,
        setCell_formulas t t1 a (Itoa x) hset]
    rw [h1]
    exact GetCellNumericValueByAddressWith_mono ih t b r hr

theorem calculateFormula_setCell (t t1 : Table) (a : Address) (g : Formula) (x : Int) (n0 : Nat)
    (hset : setCell t a (Itoa x) = .ret t1)
    (hp : ∀ old, cellNat t a.RowIndex.toNat a.ColumnIndex.toNat = some old →
      HasPrefix old "=" = true)
    (hg : mapGet t.formulas a = some g) (hnc : g.isCalculated = false)
    (hx : calculateFormula n0 t g = .ret (x, none)) (n : Nat) :
    ∀ f r, calculateFormula n t f = .ret r → calculateFormula n t1 f = .ret r := by
  induction n with
  | zero => intro f r h; simp [calculateFormula] at h
  | succ n ih =>
    intro f r h
    rw [calculateFormula_unfold] at h ⊢
    cases hc : f.isCalculated with
    | true => simp only [hc, if_true] at h ⊢; exact h
    | false =>
      simp only [hc, Bool.false_eq_true, if_false] at h ⊢
      obtain ⟨o1, h1, h⟩ := Run.bind_eq_ret h
      obtain ⟨o2, h2, h⟩ := Run.bind_eq_ret h
      have key : ∀ (o : Option Address) (c v : Int),
          resolveOperand (calculateFormula n t) t o c = .ret v →
          resolveOperand (calculateFormula n t1) t1 o c = .ret v := by
        intro o c v hv
        cases o with
        | none => exact hv
        | some b =>
          simp only [resolveOperand] at hv ⊢
          obtain ⟨q, hq, hv⟩ := Run.bind_eq_ret hv
          rw [GetCellNumericValueByAddressWith_setCell t t1 a g x n0 n hset hp hg hnc hx ih b q
            hq]
          exact hv
      rw [key _ _ o1 h1, Run.bind_ret, key _ _ o2 h2, Run.bind_ret]
      exact h

/-! ## The evaluation loop -/

theorem cellAt_eq_cellNat (t : Table) (a : Address) (s : String) (h : cellAt t a = some s) :
    0 ≤ a.RowIndex ∧ 0 ≤ a.ColumnIndex ∧
      cellNat t a.RowIndex.toNat a.ColumnIndex.toNat = some s := by
  unfold cellAt at h
  split_ifs at h with hneg
  rw [not_or, not_lt, not_lt] at hneg
  exact ⟨hneg.1, hneg.2, h⟩

theorem cellAt_of_cellNat (t : Table) (a : Address) (h1 : 0 ≤ a.RowIndex)
    (h2 : 0 ≤ a.ColumnIndex) : cellAt t a = cellNat t a.RowIndex.toNat a.ColumnIndex.toNat := by
  unfold cellAt
  rw [if_neg]
  rw [not_or, not_lt, not_lt]
  exact ⟨h1, h2⟩

theorem pending_step (t : Table) (a : Address) (f : Formula) (rest : List (Address × Formula))
    (x : Int) (n0 : Nat) (hP : Pending t ((a, f) :: rest))
    (hx : calculateFormula n0 t f = .ret (x, none)) :
    ∃ t1, setCell t a (Itoa x) = .ret t1 ∧ Pending t1 rest ∧
      (∀ n g r, calculateFormula n t g = .ret r → calculateFormula n t1 g = .ret r) ∧
      (∀ b g, (b, g) ∈ rest →
        ¬ (b.RowIndex.toNat = a.RowIndex.toNat ∧ b.ColumnIndex.toNat = a.ColumnIndex.toNat)) := by
  obtain ⟨hnd, hall⟩ := hP
  obtain ⟨hg, hnc, s, hs, hpre⟩ := hall a f (List.mem_cons_self _ _)
  obtain ⟨t1, ht1⟩ := setCell_ok t a (Itoa x) s hs
  obtain ⟨ha1, ha2, hsn⟩ := cellAt_eq_cellNat t a s hs
  have hp : ∀ old, cellNat t a.RowIndex.toNat a.ColumnIndex.toNat = some old →
      HasPrefix old "=" = true := by
    intro old ho
    rw [hsn] at ho
    cases ho
    exact hpre
  have hdiff : ∀ b g, (b, g) ∈ rest →
      ¬ (b.RowIndex.toNat = a.RowIndex.toNat ∧
        b.ColumnIndex.toNat = a.ColumnIndex.toNat) := by
    intro b g hb hh
    obtain ⟨_, _, sb, hsb, _⟩ := hall b g (List.mem_cons_of_mem _ hb)
    obtain ⟨hb1, hb2, _⟩ := cellAt_eq_cellNat t b sb hsb
    have hba := address_eq_of_toNat a b ⟨ha1, ha2⟩ ⟨hb1, hb2⟩ hh
    subst hba
    simp only [List.map_cons, List.nodup_cons, List.mem_map] at hnd
    exact hnd.1 ⟨(b, g), hb, rfl⟩
  refine ⟨t1, ht1, ⟨?_, ?_⟩, ?_, hdiff⟩
  · simp only [List.map_cons, List.nodup_cons] at hnd
    exact hnd.2
  · intro b g hb
    obtain ⟨hgb, hncb, sb, hsb, hpb⟩ := hall b g (List.mem_cons_of_mem _ hb)
    obtain ⟨hb1, hb2, hsbn⟩ := cellAt_eq_cellNat t b sb hsb
    refine ⟨by rw [setCell_formulas t t1 a _ ht1]; exact hgb, hncb, sb, ?_, hpb⟩
    rw [cellAt_of_cellNat t1 b hb1 hb2, (setCell_spec t t1 a _ ht1).2.2.2.2.2.1,
      if_neg (hdiff b g hb)]
    exact hsbn
  · intro n
    exact calculateFormula_setCell t t1 a f x n0 ht1 hp hg hnc hx n

theorem evalFormulas_success (fuel : Nat) :
    ∀ (entries : List (Address × Formula)) (t t1 : Table), Pending t entries →
      evalFormulas fuel t entries = .ret (t1, none) →
      (∀ n g r, calculateFormula n t g = .ret r → calculateFormula n t1 g = .ret r) ∧
      t1 = { t with cells := t1.cells } ∧ t1.cells.length = t.cells.length ∧
      t1.cells.head?.map List.length = t.cells.head?.map List.length ∧
      (∀ a f, (a, f) ∈ entries →
        ∃ x, calculateFormula fuel t1 f = .ret (x, none) ∧ InRange x ∧
          cellAt t1 a = some (Itoa x)) ∧
      (∀ i j, (∀ a f, (a, f) ∈ entries →
          ¬ (a.RowIndex.toNat = i ∧ a.ColumnIndex.toNat = j)) →
        cellNat t1 i j = cellNat t i j) := by
  intro entries
  induction entries with
  | nil =>
    intro t t1 _ h
    simp only [evalFormulas, Run.ret.injEq, Prod.mk.injEq, and_true] at h
    subst h
    exact ⟨fun _ _ _ h => h, rfl, rfl, rfl, by simp, fun _ _ _ => rfl⟩
  | cons e rest ih =>
    obtain ⟨a, f⟩ := e
    intro t t2 hP h
    unfold evalFormulas at h
    cases hc : calculateFormula fuel t f with
    | fault => rw [hc] at h; simp at h
    | timeout => rw [hc] at h; simp at h
    | ret q =>
      obtain ⟨x, e⟩ := q
      rw [hc] at h
      cases e with
      | some e => simp at h
      | none =>
        simp only at h
        obtain ⟨t1, ht1, hP1, hst, hdiff⟩ := pending_step t a f rest x fuel hP hc
        rw [ht1] at h
        simp only at h
        obtain ⟨hst2, heq2, hlen2, hhead2, hent2, hfr2⟩ := ih t1 t2 hP1 h
        obtain ⟨ha1, ha2, _, hlen1, hhead1, hcell1, heq1⟩ := setCell_spec t t1 a _ ht1
        refine ⟨fun n g r hr => hst2 n g r (hst n g r hr), ?_, by rw [hlen2, hlen1],
          by rw [hhead2, hhead1], ?_, ?_⟩
        · rw [heq2, heq1]
        · intro b g hb
          rcases List.mem_cons.1 hb with hb | hb
          · simp only [Prod.mk.injEq] at hb
            obtain ⟨rfl, rfl⟩ := hb
            refine ⟨x, hst2 fuel _ _ (hst fuel _ _ hc),
              calculateFormula_inRange fuel t g x none (hP.2 b g (List.mem_cons_self _ _)).2.1 hc,
              ?_⟩
            rw [cellAt_of_cellNat t2 b ha1 ha2, hfr2 _ _ (fun b1 g1 hb1 => hdiff b1 g1 hb1),
              hcell1, if_pos ⟨rfl, rfl⟩]
          · exact hent2 b g hb
        · intro i j hij
          rw [hfr2 i j (fun b g hb => hij b g (List.mem_cons_of_mem _ hb)), hcell1, if_neg]
          intro hh
          exact hij a f (List.mem_cons_self _ _) ⟨hh.1.symm, hh.2.symm⟩

theorem evalFormulas_total (F fuel : Nat) (hF : F ≤ fuel) :
    ∀ (entries : List (Address × Formula)) (t : Table), Pending t entries →
      (∀ a f, (a, f) ∈ entries → ∃ r, calculateFormula F t f = .ret r) →
      ∃ t1 e, evalFormulas fuel t entries = .ret (t1, e) ∧
        (e = none ↔
          ∀ a f r, (a, f) ∈ entries → calculateFormula F t f = .ret r → r.2 = none) := by
  intro entries
  induction entries with
  | nil =>
    intro t _ _
    exact ⟨t, none, rfl, by simp⟩
  | cons e rest ih =>
    obtain ⟨a, f⟩ := e
    intro t hP hret
    obtain ⟨q, hq⟩ := hret a f (List.mem_cons_self _ _)
    have hc := calculateFormula_mono t f q F fuel hF hq
    obtain ⟨x, e⟩ := q
    unfold evalFormulas
    rw [hc]
    cases e with
    | some e =>
      refine ⟨t, some e, rfl, ?_⟩
      simp only [false_iff, not_forall, reduceCtorEq]
      exact ⟨a, f, (x, some e), List.mem_cons_self _ _, hq, by simp⟩
    | none =>
      simp only
      obtain ⟨t1, ht1, hP1, hst, _⟩ := pending_step t a f rest x F hP hq
      rw [ht1]
      simp only
      have hret1 : ∀ b g, (b, g) ∈ rest → ∃ r, calculateFormula F t1 g = .ret r := by
        intro b g hb
        obtain ⟨r, hr⟩ := hret b g (List.mem_cons_of_mem _ hb)
        exact ⟨r, hst F g r hr⟩
      obtain ⟨t2, e2, h2, hiff⟩ := ih t1 hP1 hret1
      refine ⟨t2, e2, h2, ?_⟩
      rw [hiff]
      constructor
      · intro h b g r hb hr
        rcases List.mem_cons.1 hb with hb | hb
        · simp only [Prod.mk.injEq] at hb
          obtain ⟨rfl, rfl⟩ := hb
          rw [hq] at hr
          simp only [Run.ret.injEq] at hr
          rw [← hr]
        · exact h b g r hb (hst F g r hr)
      · intro h b g r hb hr
        obtain ⟨r0, hr0⟩ := hret b g (List.mem_cons_of_mem _ hb)
        have := calculateFormula_det t1 g r r0 F F hr (hst F g r0 hr0)
        rw [this]
        exact h b g r0 (List.mem_cons_of_mem _ hb) hr0

/-! ## Termination on an acyclic dependency graph -/

theorem mem_of_mapGet {κ ν : Type} [DecidableEq κ] (l : List (κ × ν)) (k : κ) (v : ν)
    (h : mapGet l k = some v) : (k, v) ∈ l := by
  unfold mapGet at h
  cases hf : l.find? (fun e => decide (e.1 = k)) with
  | none => rw [hf] at h; simp at h
  | some e =>
    rw [hf] at h
    simp only [Option.map_some', Option.some.injEq] at h
    have h1 := List.find?_some hf
    have h2 := List.mem_of_find?_eq_some hf
    simp only [decide_eq_true_eq] at h1
    rw [← h1, ← h]
    exact h2

theorem dependsOn_wf (t : Table) (hac : Acyclic t) :
    WellFounded (fun b a => DependsOn t a b) := by
  let r : Address → Address → Prop := Relation.TransGen (Function.swap (DependsOn t))
  haveI : IsStrictOrder Address r :=
    { irrefl := fun a h => hac a (Relation.transGen_swap.1 h)
      trans := fun _ _ _ h1 h2 => Relation.TransGen.trans h1 h2 }
  let s : Set Address := {a | (mapGet t.formulas a).isSome = true}
  have hs : s.Finite := by
    apply Set.Finite.subset (List.finite_toSet (t.formulas.map Prod.fst))
    intro a ha
    obtain ⟨f, hf⟩ := Option.isSome_iff_exists.1 ha
    exact List.mem_map.2 ⟨(a, f), mem_of_mapGet _ _ _ hf, rfl⟩
  have hwf := Set.wellFoundedOn_iff.1 (hs.wellFoundedOn (r := r))
  refine Subrelation.wf ?_ hwf
  intro b a hab
  obtain ⟨f, hf, ho, hb⟩ := hab
  exact ⟨Relation.TransGen.single ⟨f, hf, ho, hb⟩, hb, by simp [s, hf]⟩

theorem resolveOperand_returns (t : Table) (o : Option Address) (c : Int)
    (h : ∀ b, o = some b → ∃ s, GetCellValueByAddress t b = .ret (s, none) ∧
      (HasPrefix s "=" = true →
        ∃ g, mapGet t.formulas b = some g ∧ ∃ n r, calculateFormula n t g = .ret r)) :
    ∃ n v, ∀ m, n ≤ m → resolveOperand (calculateFormula m t) t o c = .ret v := by
  cases o with
  | none => exact ⟨0, c, fun _ _ => rfl⟩
  | some b =>
    obtain ⟨s, hs, hpre⟩ := h b rfl
    cases hp : HasPrefix s "=" with
    | false =>
      refine ⟨0, (Atoi s).1, fun m _ => ?_⟩
      simp [resolveOperand, GetCellNumericValueByAddressWith, hs, hp]
    | true =>
      obtain ⟨g, hg, n, r, hr⟩ := hpre hp
      obtain ⟨x, e⟩ := r
      cases e with
      | none =>
        refine ⟨n, x, fun m hm => ?_⟩
        simp [resolveOperand, GetCellNumericValueByAddressWith, hs, hp, hg,
          calculateFormula_mono t g _ n m hm hr]
      | some e =>
        refine ⟨n, 0, fun m hm => ?_⟩
        simp [resolveOperand, GetCellNumericValueByAddressWith, hs, hp, hg,
          calculateFormula_mono t g _ n m hm hr]

theorem calculateFormula_terminates (t : Table) (hP : Parsed t) (hac : Acyclic t)
    (a : Address) :
    ∀ f, mapGet t.formulas a = some f → ∃ n r, calculateFormula n t f = .ret r := by
  induction a using (dependsOn_wf t hac).induction with
  | _ a ih =>
    intro f hf
    have hmem := mem_of_mapGet _ _ _ hf
    have hnc := (hP.pending.2 a f hmem).2.1
    have hop : ∀ (o : Option Address) (c : Int),
        (o = f.Operand1Addr ∨ o = f.Operand2Addr) →
        ∃ n v, ∀ m, n ≤ m → resolveOperand (calculateFormula m t) t o c = .ret v := by
      intro o c ho
      apply resolveOperand_returns
      intro b hb
      have hfb : f.Operand1Addr = some b ∨ f.Operand2Addr = some b := by
        rcases ho with ho | ho
        · left; rw [← ho, hb]
        · right; rw [← ho, hb]
      obtain ⟨s, hs⟩ := hP.operand a f b hmem hfb
      refine ⟨s, hs, fun hp => ?_⟩
      obtain ⟨g, hg⟩ := hP.registered b s hs hp
      have hgb := (hP.pending.2 b g hg).1
      exact ⟨g, hgb, ih b ⟨f, hf, hfb, by simp [hgb]⟩ g hgb⟩
    obtain ⟨n1, v1, h1⟩ := hop f.Operand1Addr f.Arg1Const (Or.inl rfl)
    obtain ⟨n2, v2, h2⟩ := hop f.Operand2Addr f.Arg2Const (Or.inr rfl)
    refine ⟨max n1 n2 + 1, applyOperator f.Operator v1 v2, ?_⟩
    rw [calculateFormula_unfold]
    simp only [hnc, Bool.false_eq_true, if_false, h1 _ (le_max_left _ _),
      h2 _ (le_max_right _ _), Run.bind_ret]

theorem calculateFormula_uniform (t : Table) (hP : Parsed t) (hac : Acyclic t) :
    ∀ entries : List (Address × Formula), (∀ a f, (a, f) ∈ entries → (a, f) ∈ t.formulas) →
      ∃ F, ∀ a f, (a, f) ∈ entries → ∃ r, calculateFormula F t f = .ret r := by
  intro entries
  induction entries with
  | nil => intro _; exact ⟨0, by simp⟩
  | cons e rest ih =>
    obtain ⟨a, f⟩ := e
    intro hsub
    obtain ⟨F, hF⟩ := ih (fun b g hb => hsub b g (List.mem_cons_of_mem _ hb))
    obtain ⟨n, r, hr⟩ := calculateFormula_terminates t hP hac a f
      (hP.pending.2 a f (hsub a f (List.mem_cons_self _ _))).1
    refine ⟨max F n, fun b g hb => ?_⟩
    rcases List.mem_cons.1 hb with hb | hb
    · simp only [Prod.mk.injEq] at hb
      obtain ⟨rfl, rfl⟩ := hb
      exact ⟨r, calculateFormula_mono t g r n _ (le_max_right _ _) hr⟩
    · obtain ⟨r1, hr1⟩ := hF b g hb
      exact ⟨r1, calculateFormula_mono t g r1 F _ (le_max_left _ _) hr1⟩

/-! ## The cell-parsing phase -/

theorem mem_mapSet {κ ν : Type} [DecidableEq κ] (m : List (κ × ν)) (k : κ) (v : ν)
    (e : κ × ν) : e ∈ mapSet m k v ↔ (e ∈ m ∧ e.1 ≠ k) ∨ e = (k, v) := by
  simp [mapSet, List.mem_filter]

theorem nodup_keys_mapSet {κ ν : Type} [DecidableEq κ] (m : List (κ × ν)) (k : κ) (v : ν)
    (h : (m.map Prod.fst).Nodup) : ((mapSet m k v).map Prod.fst).Nodup := by
  unfold mapSet
  rw [List.map_append, List.nodup_append]
  refine ⟨h.sublist ((List.filter_sublist m).map Prod.fst), by simp, ?_⟩
  intro a ha hk
  simp only [List.map_cons, List.map_nil, List.mem_singleton] at hk
  obtain ⟨e, he, rfl⟩ := List.mem_map.1 ha
  have := (List.mem_filter.1 he).2
  simp only [decide_eq_true_eq] at this
  exact this hk

theorem mapGet_of_mem_nodup {κ ν : Type} [DecidableEq κ] (m : List (κ × ν)) (k : κ) (v : ν)
    (hnd : (m.map Prod.fst).Nodup) (h : (k, v) ∈ m) : mapGet m k = some v := by
  induction m with
  | nil => simp at h
  | cons e rest ih =>
    simp only [List.map_cons, List.nodup_cons] at hnd
    unfold mapGet
    rcases List.mem_cons.1 h with h | h
    · subst h
      simp [List.find?_cons]
    · have hne : e.1 ≠ k := by
        intro hek
        exact hnd.1 (hek ▸ List.mem_map.2 ⟨(k, v), h, rfl⟩)
      simp only [List.find?_cons, hne, decide_False]
      exact ih hnd.2 h

theorem mapGet_isSome_of_key {κ ν : Type} [DecidableEq κ] (m : List (κ × ν)) (k : κ)
    (h : k ∈ m.map Prod.fst) : ∃ v, mapGet m k = some v ∧ (k, v) ∈ m := by
  obtain ⟨e, he, hk⟩ := List.mem_map.1 h
  cases hf : mapGet m k with
  | none =>
    unfold mapGet at hf
    simp only [Option.map_eq_none', List.find?_eq_none, decide_eq_true_eq] at hf
    exact absurd hk (hf e he)
  | some v => exact ⟨v, rfl, mem_of_mapGet m k v hf⟩

theorem parseRecord_spec (t t1 : Table) (value : String) (i j : Nat)
    (h : parseRecord t value { ColumnIndex := (j : Int), RowIndex := (i : Int) } = (t1, none)) :
    ParseStep t t1 (fun i1 j1 => if i1 = i ∧ j1 = j then some value else none) := by
  unfold parseRecord at h
  cases hp : HasPrefix value "=" with
  | false =>
    simp only [hp, Bool.false_eq_true, if_false] at h
    cases ha : (Atoi value).2 with
    | some e => rw [ha] at h; simp at h
    | none =>
      rw [ha] at h
      simp only [Prod.mk.injEq, and_true] at h
      subst h
      refine ⟨rfl, id, fun a g hg => ⟨g, hg⟩, fun a g hg => Or.inl hg, ?_⟩
      intro i1 j1 s hs
      beta_reduce at hs
      split_ifs at hs with hij
      simp only [Option.some.injEq] at hs
      subst hs
      exact ⟨fun hh => (by rw [hp] at hh; cases hh), fun _ => ha⟩
  | true =>
    simp only [hp, if_true] at h
    cases hm : formulaRegExCompiled.fullMatch value with
    | none => rw [hm] at h; simp at h
    | some m =>
      rw [hm] at h
      simp only at h
      cases h1 : operandAddress t (capText m "arg1ColName") (capText m "arg1RowName") with
      | mk a1 e1 =>
        rw [h1] at h
        cases e1 with
        | some e => simp at h
        | none =>
          simp only at h
          cases h2 : operandAddress t (capText m "arg2ColName") (capText m "arg2RowName") with
          | mk a2 e2 =>
            rw [h2] at h
            cases e2 with
            | some e => simp at h
            | none =>
              simp only [Prod.mk.injEq, and_true] at h
              have hop : ∀ (c r : String) (a : Option Address) (b : Address),
                  operandAddress t c r = (a, none) → a = some b →
                  ∃ c r, c ∈ t.ColNamesMap.map Prod.fst ∧ r ∈ t.RowNamesMap.map Prod.fst ∧
                    b = { ColumnIndex := (mapGet t.ColNamesMap c).getD 0,
                          RowIndex := (mapGet t.RowNamesMap r).getD 0 } := by
                intro c r a b hoa hab
                unfold operandAddress at hoa
                split_ifs at hoa with hne
                · cases hv : validateCellAddress t c r with
                  | some e => rw [hv] at hoa; simp at hoa
                  | none =>
                    rw [hv] at hoa
                    simp only [Prod.mk.injEq, and_true] at hoa
                    obtain ⟨hc, hr⟩ := (validateCellAddress_iff t c r).1 hv
                    refine ⟨c, r, hc, hr, ?_⟩
                    rw [hab] at hoa
                    simp only [Option.some.injEq] at hoa
                    exact hoa.symm
                · simp only [Prod.mk.injEq, and_true] at hoa
                  rw [hab] at hoa
                  cases hoa
              subst h
              refine ⟨rfl, fun hnd => nodup_keys_mapSet _ _ _ hnd, ?_, ?_, ?_⟩
              · intro a g hg
                by_cases hak : a = { ColumnIndex := (j : Int), RowIndex := (i : Int) }
                · exact ⟨_, (mem_mapSet _ _ _ _).2 (Or.inr (by rw [hak]))⟩
                · exact ⟨g, (mem_mapSet _ _ _ _).2 (Or.inl ⟨hg, hak⟩)⟩
              · intro a g hg
                rcases (mem_mapSet _ _ _ _).1 hg with hg | hg
                · exact Or.inl hg.1
                · simp only [Prod.mk.injEq] at hg
                  obtain ⟨rfl, rfl⟩ := hg
                  obtain ⟨op, hopd, hopr⟩ := fullMatch_operator value m hm
                  refine Or.inr ⟨⟨rfl, ?_, ?_⟩, i, j, value, by simp, hp, rfl⟩
                  · show IsOperatorRune ((capText m "operator").data.headD (Char.ofNat 0))
                    rw [hopd]
                    exact hopr
                  intro b hb
                  rcases hb with hb | hb
                  · exact hop _ _ a1 b h1 hb
                  · exact hop _ _ a2 b h2 hb
              · intro i1 j1 s hs
                beta_reduce at hs
                split_ifs at hs with hij
                simp only [Option.some.injEq] at hs
                subst hs
                obtain ⟨rfl, rfl⟩ := hij
                exact ⟨fun _ => ⟨_, (mem_mapSet _ _ _ _).2 (Or.inr rfl)⟩,
                  fun hh => (by rw [hp] at hh; cases hh)⟩

theorem ParseStep.refl (t : Table) : ParseStep t t (fun _ _ => none) :=
  ⟨rfl, id, fun _ g hg => ⟨g, hg⟩, fun _ _ hg => Or.inl hg, fun _ _ _ h => by cases h⟩

theorem GoodParse_congr (t t1 : Table) (g : Formula) (h : t1 = { t with formulas := t1.formulas })
    (hg : GoodParse t1 g) : GoodParse t g := by
  have h1 : t1.ColNamesMap = t.ColNamesMap := by rw [h]
  have h2 : t1.RowNamesMap = t.RowNamesMap := by rw [h]
  unfold GoodParse at hg ⊢
  rw [h1, h2] at hg
  exact hg

theorem ParseStep.trans (t t1 t2 : Table) (r1 r2 r : Nat → Nat → Option String)
    (h1 : ParseStep t t1 r1) (h2 : ParseStep t1 t2 r2)
    (hr : ∀ i j s, r i j = some s ↔ (r1 i j = some s ∨ r2 i j = some s)) :
    ParseStep t t2 r := by
  obtain ⟨e1, n1, k1, m1, c1⟩ := h1
  obtain ⟨e2, n2, k2, m2, c2⟩ := h2
  refine ⟨?_, fun h => n2 (n1 h), ?_, ?_, ?_⟩
  · rw [e2, e1]
  · intro a g hg
    obtain ⟨g1, hg1⟩ := k1 a g hg
    exact k2 a g1 hg1
  · intro a g hg
    rcases m2 a g hg with hg1 | ⟨hgood, i, j, s, hs, hp, ha⟩
    · rcases m1 a g hg1 with hg0 | ⟨hgood, i, j, s, hs, hp, ha⟩
      · exact Or.inl hg0
      · exact Or.inr ⟨hgood, i, j, s, (hr i j s).2 (Or.inl hs), hp, ha⟩
    · exact Or.inr ⟨GoodParse_congr t t1 g e1 hgood, i, j, s, (hr i j s).2 (Or.inr hs), hp, ha⟩
  · intro i j s hs
    rcases (hr i j s).1 hs with hs | hs
    · refine ⟨fun hp => ?_, (c1 i j s hs).2⟩
      obtain ⟨g, hg⟩ := (c1 i j s hs).1 hp
      exact k2 _ g hg
    · exact c2 i j s hs

theorem ParseStep.congr (t t1 : Table) (r1 r2 : Nat → Nat → Option String)
    (h : ∀ i j, r1 i j = r2 i j) (h1 : ParseStep t t1 r1) : ParseStep t t1 r2 := by
  have : r1 = r2 := funext fun i => funext fun j => h i j
  rw [← this]
  exact h1

theorem parseRowCells_spec (rowIndex : Nat) :
    ∀ (cells : List String) (t : Table) (colIndex : Nat) (t1 : Table),
      parseRowCells rowIndex t cells colIndex = (t1, none) →
      ParseStep t t1
        (fun i j => if i = rowIndex ∧ colIndex ≤ j then cells[j - colIndex]? else none) := by
  intro cells
  induction cells with
  | nil =>
    intro t colIndex t1 h
    simp only [parseRowCells, Prod.mk.injEq, and_true] at h
    subst h
    exact ParseStep.congr _ _ _ _ (fun i j => by simp) (ParseStep.refl t)
  | cons value rest ih =>
    intro t colIndex t1 h
    unfold parseRowCells at h
    cases hr : parseRecord t value { ColumnIndex := (colIndex : Int), RowIndex := (rowIndex : Int) } with
    | mk t2 e =>
      rw [hr] at h
      cases e with
      | some e => simp at h
      | none =>
        simp only at h
        refine ParseStep.trans t t2 t1 _ _ _ (parseRecord_spec t t2 value rowIndex colIndex hr)
          (ih t2 (colIndex + 1) t1 h) ?_
        intro i j s
        by_cases hi : i = rowIndex
        · by_cases hj : j = colIndex
          · subst hi hj
            simp
          · by_cases hlt : colIndex ≤ j
            · have hlt2 : colIndex + 1 ≤ j := by omega
              have hsub : j - colIndex = (j - (colIndex + 1)) + 1 := by omega
              simp only [hi, hj, hlt, hlt2, and_self, and_false, if_true, if_false, false_or,
                true_and]
              rw [hsub, List.getElem?_cons_succ]
              simp
            · have hlt2 : ¬ colIndex + 1 ≤ j := by omega
              simp [hi, hj, hlt, hlt2]
        · simp [hi]

theorem parseRows_spec :
    ∀ (rows : List (List String)) (t : Table) (rowIndex : Nat) (t1 : Table),
      parseRows t rows rowIndex = (t1, none) →
      ParseStep t t1
        (fun i j => if rowIndex ≤ i then
          (match rows[i - rowIndex]? with
            | none => none
            | some row => row[j]?)
          else none) := by
  intro rows
  induction rows with
  | nil =>
    intro t rowIndex t1 h
    simp only [parseRows, Prod.mk.injEq, and_true] at h
    subst h
    exact ParseStep.congr _ _ _ _ (fun i j => by simp) (ParseStep.refl t)
  | cons row rest ih =>
    intro t rowIndex t1 h
    unfold parseRows at h
    cases hr : parseRowCells rowIndex t row 0 with
    | mk t2 e =>
      rw [hr] at h
      cases e with
      | some e => simp at h
      | none =>
        simp only at h
        refine ParseStep.trans t t2 t1 _ _ _ (parseRowCells_spec rowIndex row t 0 t2 hr)
          (ih t2 (rowIndex + 1) t1 h) ?_
        intro i j s
        by_cases hi : i = rowIndex
        · subst hi
          simp
        · by_cases hlt : rowIndex ≤ i
          · have hlt2 : rowIndex + 1 ≤ i := by omega
            have hsub : i - rowIndex = (i - (rowIndex + 1)) + 1 := by omega
            simp only [hi, hlt, hlt2, false_and, if_true, if_false, false_or]
            rw [hsub, List.getElem?_cons_succ]
            simp
          · have hlt2 : ¬ rowIndex + 1 ≤ i := by omega
            simp [hi, hlt, hlt2]

theorem parseCells_spec (t t1 : Table) (h : parseCells t = (t1, none)) :
    ParseStep t t1 (cellNat t) := by
  unfold parseCells at h
  refine ParseStep.congr _ _ _ _ (fun i j => ?_) (parseRows_spec t.cells t 0 t1 h)
  simp [cellNat]

theorem buildNamesMap_bound :
    ∀ (names : List String) (start : Nat) (m : List (String × Int)),
      (∀ e ∈ m, 0 ≤ e.2 ∧ e.2 < (start : Int)) →
      ∀ e ∈ buildNamesMap names start m, 0 ≤ e.2 ∧ e.2 < ((start + names.length : Nat) : Int) := by
  intro names
  induction names with
  | nil =>
    intro start m hm e he
    simpa [buildNamesMap] using hm e he
  | cons name rest ih =>
    intro start m hm e he
    unfold buildNamesMap at he
    have := ih (start + 1) (mapSet m name (start : Int)) (by
      intro e1 he1
      rcases (mem_mapSet _ _ _ _).1 he1 with h1 | h1
      · have := hm e1 h1.1
        push_cast
        omega
      · subst h1
        push_cast
        simp) e he
    simp only [List.length_cons]
    have h2 : start + 1 + rest.length = start + (rest.length + 1) := by omega
    rw [h2] at this
    exact this

theorem loadGrid_spec (records : List (List String)) (comma : String) (t : Table)
    (hrect : Rectangular records)
    (h : loadGrid records comma = .ret t) :
    t.formulas = [] ∧ (∀ row ∈ t.cells, row.length = t.ColNames.length) ∧
    (∀ e ∈ t.ColNamesMap, 0 ≤ e.2 ∧ e.2 < (t.ColNames.length : Int)) ∧
    (∀ e ∈ t.RowNamesMap, 0 ≤ e.2 ∧ e.2 < (t.cells.length : Int)) := by
  unfold loadGrid at h
  cases records with
  | nil => simp at h
  | cons header rows =>
    simp only at h
    split_ifs at h with hbad
    simp only [Run.ret.injEq] at h
    subst h
    refine ⟨rfl, ?_, ?_, ?_⟩
    · intro row hrow
      simp only [List.mem_map] at hrow
      obtain ⟨r, hr, rfl⟩ := hrow
      have := hrect r (List.mem_cons_of_mem _ hr)
      simp only [List.headD_cons] at this
      simp [List.length_tail, this]
    · intro e he
      have := buildNamesMap_bound header.tail 0 [] (by simp) e he
      simpa using this
    · intro e he
      have := buildNamesMap_bound (rows.map (fun r => r.headD "")) 0 [] (by simp) e he
      simpa using this

theorem GetCellValueByAddress_inBounds (t : Table) (n : Nat)
    (hrect : ∀ row ∈ t.cells, row.length = n) (b : Address)
    (hc : 0 ≤ b.ColumnIndex ∧ b.ColumnIndex < (n : Int))
    (hr : 0 ≤ b.RowIndex ∧ b.RowIndex < (t.cells.length : Int)) :
    ∃ s, GetCellValueByAddress t b = .ret (s, none) := by
  have hri : b.RowIndex.toNat < t.cells.length := by omega
  have hrow : t.cells[b.RowIndex.toNat]? = some (t.cells[b.RowIndex.toNat]) :=
    List.getElem?_eq_getElem hri
  have hlen : (t.cells[b.RowIndex.toNat]).length = n :=
    hrect _ (List.getElem_mem hri)
  have hci : b.ColumnIndex.toNat < (t.cells[b.RowIndex.toNat]).length := by omega
  have hcell : cellNat t b.RowIndex.toNat b.ColumnIndex.toNat =
      some ((t.cells[b.RowIndex.toNat])[b.ColumnIndex.toNat]) := by
    unfold cellNat
    rw [hrow]
    exact List.getElem?_eq_getElem hci
  unfold GetCellValueByAddress
  have hneg : ¬ (b.ColumnIndex < 0 ∨ b.RowIndex < 0) := by omega
  rw [if_neg hneg]
  cases h0 : t.cells.head? with
  | none =>
    rw [List.head?_eq_none_iff] at h0
    rw [h0] at hri
    simp at hri
  | some row0 =>
    have hlen0 : row0.length = n := hrect _ (List.mem_of_mem_head? h0)
    simp only
    have hb : ¬ (b.ColumnIndex ≥ (row0.length : Int) ∨ b.RowIndex ≥ (t.cells.length : Int)) := by
      rw [hlen0]; omega
    rw [if_neg hb, hcell]
    exact ⟨_, rfl⟩

theorem loadAndParse_parsed (records : List (List String)) (comma : String) (t : Table)
    (hrect : Rectangular records)
    (h : loadAndParse records comma = .ret (t, none)) : Parsed t := by
  unfold loadAndParse at h
  obtain ⟨t0, h0, h⟩ := Run.bind_eq_ret h
  cases hv1 : validateTableKeys t0.ColNames columnNameRegExCompiled with
  | some e => rw [hv1] at h; simp at h
  | none =>
    rw [hv1] at h
    cases hv2 : validateTableKeys t0.RowNames rowNameRegExCompiled with
    | some e => rw [hv2] at h; simp at h
    | none =>
      rw [hv2] at h
      simp only [Run.ret.injEq] at h
      obtain ⟨hf0, hrect0, hcol0, hrow0⟩ := loadGrid_spec records comma t0 hrect h0
      obtain ⟨heq, hnd, _, hmem, hcov⟩ := parseCells_spec t0 t h
      have hcells : t.cells = t0.cells := by rw [heq]
      have hcmap : t.ColNamesMap = t0.ColNamesMap := by rw [heq]
      have hrmap : t.RowNamesMap = t0.RowNamesMap := by rw [heq]
      have hcn : ∀ i j, cellNat t i j = cellNat t0 i j := by
        intro i j
        unfold cellNat
        rw [hcells]
      have hnodup : (t.formulas.map Prod.fst).Nodup := hnd (by rw [hf0]; simp)
      have hnew : ∀ a g, (a, g) ∈ t.formulas →
          GoodParse t0 g ∧ ∃ i j s, cellNat t0 i j = some s ∧ HasPrefix s "=" = true ∧
            a = { ColumnIndex := (j : Int), RowIndex := (i : Int) } := by
        intro a g hg
        rcases hmem a g hg with h1 | h1
        · rw [hf0] at h1; simp at h1
        · exact h1
      refine ⟨⟨hnodup, ?_⟩, ?_, ?_, ?_, fun a f haf => (hnew a f haf).1.2.1⟩
      · intro a f haf
        obtain ⟨hgood, i, j, s, hs, hp, rfl⟩ := hnew a f haf
        refine ⟨mapGet_of_mem_nodup _ _ _ hnodup haf, hgood.1, s, ?_, hp⟩
        rw [cellAt_of_cellNat t _ (by simp) (by simp)]
        simp only [Int.toNat_ofNat]
        rw [hcn, hs]
      · intro a f b haf hb
        obtain ⟨hgood, _⟩ := hnew a f haf
        obtain ⟨c, r, hc, hr, rfl⟩ := hgood.2.2 b hb
        obtain ⟨ci, hci, hcm⟩ := mapGet_isSome_of_key _ c hc
        obtain ⟨ri, hri, hrm⟩ := mapGet_isSome_of_key _ r hr
        apply GetCellValueByAddress_inBounds t t0.ColNames.length
        · rw [hcells]; exact hrect0
        · simp only [hci, Option.getD_some]
          exact hcol0 _ hcm
        · simp only [hri, Option.getD_some]
          rw [hcells]
          exact hrow0 _ hrm
      · intro b s hb hp
        obtain ⟨hb1, hb2, hs⟩ := GetCellValueByAddress_ok t b s hb
        rw [hcn] at hs
        obtain ⟨g, hg⟩ := (hcov _ _ s hs).1 hp
        refine ⟨g, ?_⟩
        have : ({ ColumnIndex := (b.ColumnIndex.toNat : Int),
                  RowIndex := (b.RowIndex.toNat : Int) } : Address) = b := by
          obtain ⟨bc, br⟩ := b
          simp only [Address.mk.injEq] at hb1 hb2 ⊢
          constructor <;> omega
        rw [this] at hg
        exact hg
      · intro i j s hs hp
        rw [hcn] at hs
        exact (hcov i j s hs).2 hp

/-! ## The only error of evaluating a parsed formula -/

theorem applyOperator_error (op : Char) (o1 o2 v : Int) (e : String) (hop : IsOperatorRune op)
    (h : applyOperator op o1 o2 = (v, some e)) : e = errDivisionByZero := by
  unfold applyOperator Addition Subtraction Multiplication Division at h
  unfold IsOperatorRune at hop
  split_ifs at h with h1 h2 h3 h4 h5
  · simp at h
  · simp at h
  · simp at h
  · simp only [Prod.mk.injEq, Option.some.injEq] at h
    exact h.2.symm
  · simp at h
  · rcases hop with rfl | rfl | rfl | rfl
    · exact absurd rfl h1
    · exact absurd rfl h2
    · exact absurd rfl h3
    · exact absurd rfl h4

theorem calculateFormula_error (n : Nat) (t : Table) (f : Formula) (v : Int) (e : String)
    (hc : f.isCalculated = false) (hop : IsOperatorRune f.Operator)
    (h : calculateFormula n t f = .ret (v, some e)) : e = errDivisionByZero := by
  cases n with
  | zero => simp [calculateFormula] at h
  | succ n =>
    rw [calculateFormula_succ n t f hc] at h
    obtain ⟨o, _, ho⟩ := Run.bind_eq_ret h
    simp only [Run.ret.injEq] at ho
    exact applyOperator_error f.Operator o.1 o.2 v e hop ho

theorem evalFormulas_error (fuel : Nat) :
    ∀ (entries : List (Address × Formula)) (t t1 : Table) (e : String),
      (∀ a f, (a, f) ∈ entries → f.isCalculated = false ∧ IsOperatorRune f.Operator) →
      evalFormulas fuel t entries = .ret (t1, some e) → e = errDivisionByZero := by
  intro entries
  induction entries with
  | nil =>
    intro t t1 e _ h
    simp [evalFormulas] at h
  | cons x rest ih =>
    obtain ⟨a, f⟩ := x
    intro t t1 e hall h
    unfold evalFormulas at h
    cases hc : calculateFormula fuel t f with
    | fault => rw [hc] at h; simp at h
    | timeout => rw [hc] at h; simp at h
    | ret q =>
      obtain ⟨v, e0⟩ := q
      rw [hc] at h
      cases e0 with
      | some e0 =>
        simp only [Run.ret.injEq, Prod.mk.injEq, Option.some.injEq] at h
        rw [← h.2]
        exact calculateFormula_error fuel t f v e0 (hall a f (List.mem_cons_self _ _)).1
          (hall a f (List.mem_cons_self _ _)).2 hc
      | none =>
        simp only at h
        cases hs : setCell t a (Itoa v) with
        | fault => rw [hs] at h; simp at h
        | timeout => rw [hs] at h; simp at h
        | ret t2 =>
          rw [hs] at h
          exact ih t2 t1 e (fun b g hb => hall b g (List.mem_cons_of_mem _ hb)) h

/-! ## The outcome of the evaluation loop does not depend on the order -/

theorem Pending.perm (t : Table) (l1 l2 : List (Address × Formula)) (hp : l1.Perm l2)
    (h : Pending t l2) : Pending t l1 :=
  ⟨(hp.map Prod.fst).nodup_iff.2 h.1, fun a f haf => h.2 a f (hp.mem_iff.1 haf)⟩

theorem cells_ext (c1 c2 : List (List String)) (hlen : c1.length = c2.length)
    (h : ∀ (i : Nat) (r1 r2 : List String), c1[i]? = some r1 → c2[i]? = some r2 →
      ∀ j : Nat, r1[j]? = r2[j]?) : c1 = c2 := by
  apply List.ext_getElem?
  intro i
  by_cases hi : i < c1.length
  · have hi2 : i < c2.length := hlen ▸ hi
    rw [List.getElem?_eq_getElem hi, List.getElem?_eq_getElem hi2]
    congr 1
    apply List.ext_getElem?
    exact h i _ _ (List.getElem?_eq_getElem hi) (List.getElem?_eq_getElem hi2)
  · have hi2 : ¬ i < c2.length := hlen ▸ hi
    rw [List.getElem?_eq_none (not_lt.1 hi), List.getElem?_eq_none (not_lt.1 hi2)]

/-- C5: for a table that the cell-parsing phase produced from the records of the CSV
reader and whose formula dependency graph has no cycle, the evaluation loop returns for
every two orders of visiting the formulas map (given enough recursion budget, which
exists), with the same error value, so both runs succeed or both fail, and on success the
two final tables, hence the two final cell grids, are equal. -/
theorem evalFormulas_order_independent (records : List (List String)) (comma : String)
    (t : Table) (order1 order2 : List (Address × Formula))
    (hrect : Rectangular records)
    (hparse : loadAndParse records comma = .ret (t, none))
    (hac : Acyclic t)
    (h1 : order1.Perm t.formulas) (h2 : order2.Perm t.formulas) :
    ∃ F, ∀ fuel, F ≤ fuel →
      ∃ t1 e1 t2 e2, evalFormulas fuel t order1 = .ret (t1, e1) ∧
        evalFormulas fuel t order2 = .ret (t2, e2) ∧
        e1 = e2 ∧ (e1 = none → t1 = t2) := by
  have hP := loadAndParse_parsed records comma t hrect hparse
  obtain ⟨F, hF⟩ := calculateFormula_uniform t hP hac t.formulas (fun _ _ h => h)
  refine ⟨F, fun fuel hfuel => ?_⟩
  have hP1 := Pending.perm t order1 t.formulas h1 hP.pending
  have hP2 := Pending.perm t order2 t.formulas h2 hP.pending
  have hF1 : ∀ a f, (a, f) ∈ order1 → ∃ r, calculateFormula F t f = .ret r :=
    fun a f haf => hF a f (h1.mem_iff.1 haf)
  have hF2 : ∀ a f, (a, f) ∈ order2 → ∃ r, calculateFormula F t f = .ret r :=
    fun a f haf => hF a f (h2.mem_iff.1 haf)
  obtain ⟨t1, e1, hr1, hi1⟩ := evalFormulas_total F fuel hfuel order1 t hP1 hF1
  obtain ⟨t2, e2, hr2, hi2⟩ := evalFormulas_total F fuel hfuel order2 t hP2 hF2
  have h12 : ∀ a f, (a, f) ∈ order1 ↔ (a, f) ∈ order2 :=
    fun a f => (h1.trans h2.symm).mem_iff
  have hiff : e1 = none ↔ e2 = none := by
    rw [hi1, hi2]
    constructor
    · intro h a f r haf
      exact h a f r ((h12 a f).2 haf)
    · intro h a f r haf
      exact h a f r ((h12 a f).1 haf)
  have hg1 : ∀ a f, (a, f) ∈ order1 → f.isCalculated = false ∧ IsOperatorRune f.Operator :=
    fun a f haf => ⟨(hP1.2 a f haf).2.1, hP.operator a f (h1.mem_iff.1 haf)⟩
  have hg2 : ∀ a f, (a, f) ∈ order2 → f.isCalculated = false ∧ IsOperatorRune f.Operator :=
    fun a f haf => ⟨(hP2.2 a f haf).2.1, hP.operator a f (h2.mem_iff.1 haf)⟩
  refine ⟨t1, e1, t2, e2, hr1, hr2, ?_, ?_⟩
  · cases e1 with
    | none => exact (hiff.1 rfl).symm
    | some m1 =>
      cases e2 with
      | none => exact absurd (hiff.2 rfl) (by simp)
      | some m2 =>
        rw [evalFormulas_error fuel order1 t t1 m1 hg1 hr1,
          evalFormulas_error fuel order2 t t2 m2 hg2 hr2]
  · intro he1
    have he2 : e2 = none := hiff.1 he1
    subst he1 he2
    obtain ⟨hs1, heq1, hlen1, _, hent1, hfr1⟩ := evalFormulas_success fuel order1 t t1 hP1 hr1
    obtain ⟨hs2, heq2, hlen2, _, hent2, hfr2⟩ := evalFormulas_success fuel order2 t t2 hP2 hr2
    have hcell : ∀ i j, cellNat t1 i j = cellNat t2 i j := by
      intro i j
      by_cases hex : ∃ a f, (a, f) ∈ order1 ∧ a.RowIndex.toNat = i ∧ a.ColumnIndex.toNat = j
      · obtain ⟨a, f, haf, rfl, rfl⟩ := hex
        obtain ⟨x1, hx1, _, hc1⟩ := hent1 a f haf
        obtain ⟨x2, hx2, _, hc2⟩ := hent2 a f ((h12 a f).1 haf)
        obtain ⟨r, hr⟩ := hF1 a f haf
        have e1 := calculateFormula_det t1 f _ _ fuel F hx1 (hs1 F f r hr)
        have e2 := calculateFormula_det t2 f _ _ fuel F hx2 (hs2 F f r hr)
        have hx : x1 = x2 := by
          have := e1.trans e2.symm
          simp only [Prod.mk.injEq, and_true] at this
          exact this
        obtain ⟨_, _, hn1⟩ := cellAt_eq_cellNat t1 a _ hc1
        obtain ⟨_, _, hn2⟩ := cellAt_eq_cellNat t2 a _ hc2
        rw [hn1, hn2, hx]
      · have hno1 : ∀ a f, (a, f) ∈ order1 →
            ¬ (a.RowIndex.toNat = i ∧ a.ColumnIndex.toNat = j) :=
          fun a f haf hh => hex ⟨a, f, haf, hh⟩
        have hno2 : ∀ a f, (a, f) ∈ order2 →
            ¬ (a.RowIndex.toNat = i ∧ a.ColumnIndex.toNat = j) :=
          fun a f haf hh => hex ⟨a, f, (h12 a f).2 haf, hh⟩
        rw [hfr1 i j hno1, hfr2 i j hno2]
    have hcells : t1.cells = t2.cells := by
      apply cells_ext _ _ (by rw [hlen1, hlen2])
      intro i r1 r2 hr1 hr2 j
      have := hcell i j
      unfold cellNat at this
      rw [hr1, hr2] at this
      exact this
    rw [heq1, heq2, hcells]

theorem exampleTable_acyclic : Acyclic exampleTable := by
  have key : ∀ a b, DependsOn exampleTable a b →
      a = { ColumnIndex := 0, RowIndex := 1 } ∧ b = { ColumnIndex := 1, RowIndex := 0 } := by
    intro a b hab
    obtain ⟨f, hf, ho, hb⟩ := hab
    have hmem := mem_of_mapGet _ _ _ hf
    simp only [exampleTable, List.mem_cons, Prod.mk.injEq, List.mem_singleton,
      List.not_mem_nil, or_false] at hmem
    rcases hmem with ⟨rfl, rfl⟩ | ⟨rfl, rfl⟩
    · simp only [Option.some.injEq, reduceCtorEq, or_false] at ho
      subst ho
      revert hb
      decide
    · simp only [Option.some.injEq] at ho
      rcases ho with ho | ho
      · subst ho
        revert hb
        decide
      · exact ⟨rfl, ho.symm⟩
  intro a h
  rcases Relation.TransGen.head'_iff.1 h with ⟨c, hac, hca⟩
  obtain ⟨rfl, rfl⟩ := key a c hac
  rcases Relation.ReflTransGen.cases_head hca with hh | ⟨d, hd, _⟩
  · revert hh
    decide
  · have := (key _ d hd).1
    revert this
    decide

/-- Witness of C5: the grid of the specification, evaluated in the order of the map and
in the reverse order, gives `5, 8 / 40, 2` both times. -/
theorem evalFormulas_order_independent_witness :
    loadAndParse exampleRecords "," = .ret (exampleTable, none) ∧
    (∃ F, ∀ fuel, F ≤ fuel →
      ∃ t1 e1 t2 e2, evalFormulas fuel exampleTable exampleTable.formulas = .ret (t1, e1) ∧
        evalFormulas fuel exampleTable exampleTable.formulas.reverse = .ret (t2, e2) ∧
        e1 = e2 ∧ (e1 = none → t1 = t2)) ∧
    (evalFormulas 3 exampleTable exampleTable.formulas).bind (fun r => .ret (r.1.cells, r.2)) =
      .ret ([["5", "8"], ["40", "2"]], none) ∧
    (evalFormulas 3 exampleTable exampleTable.formulas.reverse).bind
        (fun r => .ret (r.1.cells, r.2)) =
      .ret ([["5", "8"], ["40", "2"]], none) :=
  ⟨by decide,
   evalFormulas_order_independent exampleRecords "," exampleTable exampleTable.formulas
     exampleTable.formulas.reverse (by decide) (by decide) exampleTable_acyclic
     (List.Perm.refl _) (List.reverse_perm _),
   by decide, by decide⟩

/-! ## The final grid solves the formulas -/

theorem GetCellValueByAddress_congr (t t1 : Table) (b : Address) (s s1 : String)
    (hlen : t1.cells.length = t.cells.length)
    (hhead : t1.cells.head?.map List.length = t.cells.head?.map List.length)
    (hb : GetCellValueByAddress t b = .ret (s, none))
    (hc : cellNat t1 b.RowIndex.toNat b.ColumnIndex.toNat = some s1) :
    GetCellValueByAddress t1 b = .ret (s1, none) := by
  unfold GetCellValueByAddress at hb ⊢
  split_ifs at hb with hneg
  · simp at hb
  · rw [if_neg hneg, hc, hlen]
    cases h0 : t.cells.head? with
    | none => rw [h0] at hb; simp at hb
    | some r0 =>
      rw [h0] at hb hhead
      cases h1 : t1.cells.head? with
      | none => rw [h1] at hhead; simp at hhead
      | some r1 =>
        rw [h1] at hhead
        simp only [Option.map_some', Option.some.injEq] at hhead
        simp only [hhead] at hb ⊢
        split_ifs at hb ⊢ with hbd
        · simp at hb
        · rfl

theorem cellInt_of_cellNat (t : Table) (b : Address) (s : String) (v : Int)
    (h1 : 0 ≤ b.RowIndex) (h2 : 0 ≤ b.ColumnIndex)
    (hc : cellNat t b.RowIndex.toNat b.ColumnIndex.toNat = some s) (ha : Atoi s = (v, none)) :
    cellInt t b = some v := by
  unfold cellInt
  rw [cellAt_of_cellNat t b h1 h2, hc]
  simp only [ha]

theorem operand_final (fuel : Nat) (t t1 : Table) (entries : List (Address × Formula))
    (hP : Parsed t) (hperm : entries.Perm t.formulas)
    (hrun : evalFormulas fuel t entries = .ret (t1, none)) (a : Address) (f : Formula)
    (haf : (a, f) ∈ t.formulas) (o : Option Address) (c : Int)
    (ho : o = f.Operand1Addr ∨ o = f.Operand2Addr) :
    ∃ v, operandFinal t1 o c = some v ∧
      ∀ calcF, resolveOperand calcF t1 o c = .ret v := by
  cases o with
  | none => exact ⟨c, rfl, fun _ => rfl⟩
  | some b =>
    have hfb : f.Operand1Addr = some b ∨ f.Operand2Addr = some b := by
      rcases ho with ho | ho
      · exact Or.inl ho.symm
      · exact Or.inr ho.symm
    obtain ⟨s, hs⟩ := hP.operand a f b haf hfb
    obtain ⟨hb1, hb2, hsn⟩ := GetCellValueByAddress_ok t b s hs
    have hPe := Pending.perm t entries t.formulas hperm hP.pending
    obtain ⟨_, _, hlen, hhead, hent, hfr⟩ := evalFormulas_success fuel entries t t1 hPe hrun
    by_cases hkey : ∃ g, (b, g) ∈ t.formulas
    · obtain ⟨g, hg⟩ := hkey
      obtain ⟨x, _, hxr, hxc⟩ := hent b g (hperm.mem_iff.2 hg)
      obtain ⟨_, _, hxn⟩ := cellAt_eq_cellNat t1 b _ hxc
      refine ⟨x, cellInt_of_cellNat t1 b _ x hb1 hb2 hxn (Atoi_Itoa x hxr), fun calcF => ?_⟩
      have := GetCellValueByAddress_congr t t1 b s _ hlen hhead hs hxn
      simp [resolveOperand, GetCellNumericValueByAddressWith, this, HasPrefix_Itoa,
        Atoi_Itoa x hxr]
    · have hnp : HasPrefix s "=" = false := by
        cases hp : HasPrefix s "=" with
        | false => rfl
        | true => exact absurd (hP.registered b s hs hp) hkey
      have hno : ∀ a1 f1, (a1, f1) ∈ entries →
          ¬ (a1.RowIndex.toNat = b.RowIndex.toNat ∧
            a1.ColumnIndex.toNat = b.ColumnIndex.toNat) := by
        intro a1 f1 h1 hh
        obtain ⟨_, _, s1, hs1, _⟩ := hPe.2 a1 f1 h1
        obtain ⟨ha1, ha2, _⟩ := cellAt_eq_cellNat t a1 s1 hs1
        have := address_eq_of_toNat b a1 ⟨hb1, hb2⟩ ⟨ha1, ha2⟩ hh
        subst this
        exact hkey ⟨f1, hperm.mem_iff.1 h1⟩
      have hc1 : cellNat t1 b.RowIndex.toNat b.ColumnIndex.toNat = some s := by
        rw [hfr _ _ hno, hsn]
      have hlit := hP.literal _ _ s hsn hnp
      have hat : Atoi s = ((Atoi s).1, none) := by
        rw [← hlit]
      refine ⟨(Atoi s).1, cellInt_of_cellNat t1 b s _ hb1 hb2 hc1 hat, fun calcF => ?_⟩
      have := GetCellValueByAddress_congr t t1 b s s hlen hhead hs hc1
      simp [resolveOperand, GetCellNumericValueByAddressWith, this, hnp]

/-- C6: when `ParseTable` succeeds on a rectangular grid, then, with `t` the table after
the cell-parsing phase, every cell that began with `=` has its formula registered in `t`,
and for every registered formula the integer held by its cell in the final grid is the
operator applied, without error, to the values of its operands, where a constant counts
for itself and an address for the integer held by the final cell it points at. -/
theorem ParseTable_consistent (fuel : Nat)
    (order : List (Address × Formula) → List (Address × Formula))
    (records : List (List String)) (comma : String) (t1 : Table)
    (hrect : Rectangular records)
    (hperm : ∀ l, (order l).Perm l)
    (hrun : ParseTable fuel order records comma = .ret (t1, none)) :
    ∃ t, loadAndParse records comma = .ret (t, none) ∧
      (∀ a s, cellAt t a = some s → HasPrefix s "=" = true →
        ∃ f, mapGet t.formulas a = some f) ∧
      ∀ a f, mapGet t.formulas a = some f →
        ∃ v1 v2 v, operandFinal t1 f.Operand1Addr f.Arg1Const = some v1 ∧
          operandFinal t1 f.Operand2Addr f.Arg2Const = some v2 ∧
          cellInt t1 a = some v ∧ applyOperator f.Operator v1 v2 = (v, none) := by
  unfold ParseTable at hrun
  obtain ⟨r, hr, hrun⟩ := Run.bind_eq_ret hrun
  obtain ⟨t, e⟩ := r
  cases e with
  | some e => simp at hrun
  | none =>
    simp only at hrun
    have hP := loadAndParse_parsed records comma t hrect hr
    have hperm1 := hperm t.formulas
    have hPe := Pending.perm t _ t.formulas hperm1 hP.pending
    obtain ⟨_, heq, hlen, hhead, hent, hfr⟩ :=
      evalFormulas_success fuel _ t t1 hPe hrun
    refine ⟨t, hr, ?_, ?_⟩
    · intro a s hs hp
      obtain ⟨ha1, ha2, hsn⟩ := cellAt_eq_cellNat t a s hs
      -- the cell can be read through `GetCellValueByAddress`, as any cell of the grid
      have hcells : ∃ s1, GetCellValueByAddress t a = .ret (s1, none) := by
        unfold loadAndParse at hr
        obtain ⟨t0, h0, hr⟩ := Run.bind_eq_ret hr
        cases hv1 : validateTableKeys t0.ColNames columnNameRegExCompiled with
        | some e => rw [hv1] at hr; simp at hr
        | none =>
          rw [hv1] at hr
          cases hv2 : validateTableKeys t0.RowNames rowNameRegExCompiled with
          | some e => rw [hv2] at hr; simp at hr
          | none =>
            rw [hv2] at hr
            simp only [Run.ret.injEq] at hr
            obtain ⟨_, hrect0, _, _⟩ := loadGrid_spec records comma t0 hrect h0
            have heq0 := (parseCells_spec t0 t hr).1
            have hc0 : t.cells = t0.cells := by rw [heq0]
            have hrect1 : ∀ row ∈ t.cells, row.length = t0.ColNames.length := by
              rw [hc0]; exact hrect0
            unfold cellNat at hsn
            cases hrow : t.cells[a.RowIndex.toNat]? with
            | none => rw [hrow] at hsn; cases hsn
            | some row =>
              rw [hrow] at hsn
              simp only at hsn
              have hi : a.RowIndex.toNat < t.cells.length := by
                by_contra hc
                rw [List.getElem?_eq_none (not_lt.1 hc)] at hrow
                cases hrow
              have hj : a.ColumnIndex.toNat < row.length := by
                by_contra hc
                rw [List.getElem?_eq_none (not_lt.1 hc)] at hsn
                cases hsn
              have hrl : row.length = t0.ColNames.length :=
                hrect1 row (List.mem_iff_getElem?.2 ⟨_, hrow⟩)
              exact GetCellValueByAddress_inBounds t _ hrect1 a ⟨ha2, by omega⟩
                ⟨ha1, by omega⟩
      obtain ⟨s1, hs1⟩ := hcells
      have hs1n := (GetCellValueByAddress_ok t a s1 hs1).2.2
      rw [hsn] at hs1n
      cases hs1n
      obtain ⟨g, hg⟩ := hP.registered a s hs1 hp
      exact ⟨g, (hP.pending.2 a g hg).1⟩
    · intro a f hf
      have haf := mem_of_mapGet _ _ _ hf
      obtain ⟨x, hx, hxr, hxc⟩ := hent a f (hperm1.mem_iff.2 haf)
      have hnc := (hP.pending.2 a f haf).2.1
      obtain ⟨v1, hv1, hr1⟩ := operand_final fuel t t1 _ hP hperm1 hrun a f haf
        f.Operand1Addr f.Arg1Const (Or.inl rfl)
      obtain ⟨v2, hv2, hr2⟩ := operand_final fuel t t1 _ hP hperm1 hrun a f haf
        f.Operand2Addr f.Arg2Const (Or.inr rfl)
      obtain ⟨ha1, ha2, hxn⟩ := cellAt_eq_cellNat t1 a _ hxc
      refine ⟨v1, v2, x, hv1, hv2, cellInt_of_cellNat t1 a _ x ha1 ha2 hxn (Atoi_Itoa x hxr), ?_⟩
      cases fuel with
      | zero => simp [calculateFormula] at hx
      | succ n =>
        rw [calculateFormula_unfold] at hx
        simp only [hnc, Bool.false_eq_true, if_false, hr1, hr2, Run.bind_ret,
          Run.ret.injEq] at hx
        exact hx

/-- Witness of C6: the grid of the specification loads, and in its final grid the cell of
`=A1*B1` holds 40, the product of the final cells 5 and 8. -/
theorem ParseTable_consistent_witness :
    ParseTable 3 id exampleRecords "," = .ret (exampleFinal, none) ∧
    ∃ t, loadAndParse exampleRecords "," = .ret (t, none) ∧
      (∀ a s, cellAt t a = some s → HasPrefix s "=" = true →
        ∃ f, mapGet t.formulas a = some f) ∧
      ∀ a f, mapGet t.formulas a = some f →
        ∃ v1 v2 v, operandFinal exampleFinal f.Operand1Addr f.Arg1Const = some v1 ∧
          operandFinal exampleFinal f.Operand2Addr f.Arg2Const = some v2 ∧
          cellInt exampleFinal a = some v ∧ applyOperator f.Operator v1 v2 = (v, none) :=
  ⟨by decide,
   ParseTable_consistent 3 id exampleRecords "," exampleFinal (by decide)
     (fun l => List.Perm.refl l) (by decide)⟩

/-! ## Cells that hold no formula -/

theorem all_isDigit_iff (ds : List Char) :
    (ds ≠ [] ∧ ds.all isDigit = true) ↔ IsDigits ds := by
  simp only [IsDigits, List.all_eq_true, isDigit_iff]

theorem digit_not_sign (c : Char) (h : '0' ≤ c ∧ c ≤ '9') : c ≠ '-' ∧ c ≠ '+' := by
  constructor
  · rintro rfl
    revert h
    decide
  · rintro rfl
    revert h
    decide

theorem atoiDigits_ok_iff (neg : Bool) (ds : List Char) :
    (atoiDigits neg ds).2 = none ↔
      IsDigits ds ∧ (if neg = true then minInt ≤ -(digitsVal ds : Int)
        else (digitsVal ds : Int) ≤ maxInt) := by
  unfold atoiDigits
  by_cases hd : IsDigits ds
  · have h1 := (all_isDigit_iff ds).2 hd
    have h2 : ¬ (ds = [] ∨ ¬ ds.all isDigit = true) := by
      rintro (h | h)
      · exact h1.1 h
      · exact h h1.2
    simp only [h2, if_false, hd, true_and]
    cases neg with
    | true =>
      simp only [if_true, minInt]
      split_ifs with h
      · simp only [reduceCtorEq, false_iff]
        omega
      · simp only [true_iff]
        omega
    | false =>
      simp only [Bool.false_eq_true, if_false, maxInt]
      split_ifs with h
      · simp only [reduceCtorEq, false_iff]
        omega
      · simp only [true_iff]
        omega
  · have h2 : ds = [] ∨ ¬ ds.all isDigit = true := by
      by_contra hc
      rw [not_or, not_not] at hc
      exact hd ((all_isDigit_iff ds).1 hc)
    rw [if_pos h2]
    simp [hd]

theorem Atoi_ok_iff (s : String) : (Atoi s).2 = none ↔ IsIntLiteral s := by
  unfold Atoi IsIntLiteral
  cases hs : s.data with
  | nil =>
    simp only [reduceCtorEq, false_iff, not_exists, not_and]
    rintro ds hd (⟨h, _⟩ | ⟨h, _⟩ | ⟨h, _⟩)
    · exact hd.1 h.symm
    · cases h
    · cases h
  | cons c rest =>
    simp only
    by_cases hm : c = '-'
    · subst hm
      simp only [if_true, atoiDigits_ok_iff]
      constructor
      · rintro ⟨hd, hr⟩
        exact ⟨rest, hd, Or.inr (Or.inr ⟨rfl, hr⟩)⟩
      · rintro ⟨ds, hd, (⟨h, _⟩ | ⟨h, _⟩ | ⟨h, hr⟩)⟩
        · subst h
          exact absurd rfl (digit_not_sign '-' (hd.2 _ (List.mem_cons_self _ _))).1
        · simp at h
        · simp only [List.cons.injEq, true_and] at h
          subst h
          exact ⟨hd, hr⟩
    · by_cases hp : c = '+'
      · subst hp
        simp only [hm, if_false, if_true, atoiDigits_ok_iff, Bool.false_eq_true]
        constructor
        · rintro ⟨hd, hr⟩
          exact ⟨rest, hd, Or.inr (Or.inl ⟨rfl, hr⟩)⟩
        · rintro ⟨ds, hd, (⟨h, _⟩ | ⟨h, hr⟩ | ⟨h, _⟩)⟩
          · subst h
            exact absurd rfl (digit_not_sign '+' (hd.2 _ (List.mem_cons_self _ _))).2
          · simp only [List.cons.injEq, true_and] at h
            subst h
            exact ⟨hd, hr⟩
          · simp at h
      · simp only [hm, hp, if_false, atoiDigits_ok_iff, Bool.false_eq_true]
        constructor
        · rintro ⟨hd, hr⟩
          exact ⟨c :: rest, hd, Or.inl ⟨rfl, hr⟩⟩
        · rintro ⟨ds, hd, (⟨h, hr⟩ | ⟨h, _⟩ | ⟨h, _⟩)⟩
          · subst h
            exact ⟨hd, hr⟩
          · simp only [List.cons.injEq] at h
            exact absurd h.1 hp
          · simp only [List.cons.injEq] at h
            exact absurd h.1 hm

/-- C11: on a cell string that does not begin with `=`, `parseRecord` returns no error
exactly when the string is a base-10 integer literal as `strconv.Atoi` accepts it, and
otherwise returns the malformed-number error; in both cases it returns the table as it
was, so the formulas map is unchanged and no formula is registered. -/
theorem parseRecord_literal_iff (t : Table) (value : String) (address : Address)
    (h : HasPrefix value "=" = false) :
    ((parseRecord t value address).2 = none ↔ IsIntLiteral value) ∧
    ((parseRecord t value address).2 ≠ none →
      (parseRecord t value address).2 = some errMalformedNumber) ∧
    (parseRecord t value address).1 = t ∧
    (parseRecord t value address).1.formulas = t.formulas := by
  rw [← Atoi_ok_iff]
  unfold parseRecord
  simp only [h, Bool.false_eq_true, if_false]
  cases ha : (Atoi value).2 with
  | none => simp
  | some e => simp

/-- Witness of C11: `-12` is accepted and `12a` is refused with the malformed-number
error, the table left as it was. -/
theorem parseRecord_literal_iff_witness :
    HasPrefix "-12" "=" = false ∧ IsIntLiteral "-12" ∧
    parseRecord tableZero "-12" { ColumnIndex := 0, RowIndex := 0 } = (tableZero, none) ∧
    HasPrefix "12a" "=" = false ∧
    parseRecord tableZero "12a" { ColumnIndex := 0, RowIndex := 0 } =
      (tableZero, some errMalformedNumber) :=
  ⟨by decide,
   (parseRecord_literal_iff tableZero "-12" { ColumnIndex := 0, RowIndex := 0 }
      (by decide)).1.1 (by decide),
   by decide, by decide, by decide⟩

/-! ## Reading a cell of a table without rows -/

/-- On a table with at least one row whose rows all have `n` cells, `GetCellValueByAddress`
returns the out-of-bounds error exactly for the addresses outside the grid and otherwise
the stored cell string. -/
theorem GetCellValueByAddress_rect (t : Table) (n : Nat) (hne : t.cells ≠ [])
    (hrect : ∀ row ∈ t.cells, row.length = n) (a : Address) :
    ((0 ≤ a.ColumnIndex ∧ a.ColumnIndex < (n : Int)) ∧
        (0 ≤ a.RowIndex ∧ a.RowIndex < (t.cells.length : Int)) →
      ∃ s, cellNat t a.RowIndex.toNat a.ColumnIndex.toNat = some s ∧
        GetCellValueByAddress t a = .ret (s, none)) ∧
    (¬ ((0 ≤ a.ColumnIndex ∧ a.ColumnIndex < (n : Int)) ∧
        (0 ≤ a.RowIndex ∧ a.RowIndex < (t.cells.length : Int))) →
      GetCellValueByAddress t a = .ret ("", some errOutOfBounds)) := by
  constructor
  · rintro ⟨hc, hr⟩
    obtain ⟨s, hs⟩ := GetCellValueByAddress_inBounds t n hrect a hc hr
    exact ⟨s, (GetCellValueByAddress_ok t a s hs).2.2, hs⟩
  · intro hout
    unfold GetCellValueByAddress
    by_cases hneg : a.ColumnIndex < 0 ∨ a.RowIndex < 0
    · rw [if_pos hneg]
    · rw [if_neg hneg]
      cases h0 : t.cells.head? with
      | none => exact absurd (List.head?_eq_none_iff.1 h0) hne
      | some row0 =>
        have hlen0 : row0.length = n := hrect _ (List.mem_of_mem_head? h0)
        simp only
        rw [if_pos]
        rw [hlen0]
        omega

/-- C20 at the failing input: a CSV file with a header line only loads into a table
without rows, and on it `GetCellValueByAddress` at column 0, row 0 panics, because the
bounds test indexes `t.cells[0]`, instead of returning the out-of-bounds error. -/
theorem GetCellValueByAddress_zero_rows_faults :
    ParseTable 0 id [["", "A"]] "," = .ret (emptyTable, none) ∧
    GetCellValueByAddress emptyTable { ColumnIndex := 0, RowIndex := 0 } = .fault ∧
    GetCellValueByAddress emptyTable { ColumnIndex := -1, RowIndex := 0 } =
      .ret ("", some errOutOfBounds) := by
  decide

/-! ## Formulas that reference their own cell -/

theorem selfRef_timeout (fuel : Nat) :
    calculateFormula fuel selfRefTable selfRefFormula = .timeout := by
  induction fuel with
  | zero => rfl
  | succ n ih =>
    have h1 : GetCellValueByAddress selfRefTable { ColumnIndex := 0, RowIndex := 0 } =
        .ret ("=A1+1", none) := by decide
    have h2 : HasPrefix "=A1+1" "=" = true := by decide
    have h3 : mapGet selfRefTable.formulas { ColumnIndex := 0, RowIndex := 0 } =
        some selfRefFormula := by decide
    have h4 : selfRefFormula.Operand1Addr = some { ColumnIndex := 0, RowIndex := 0 } := rfl
    have h5 : selfRefFormula.isCalculated = false := rfl
    rw [calculateFormula_unfold]
    simp only [h5, Bool.false_eq_true, if_false, h4, resolveOperand,
      GetCellNumericValueByAddressWith, h1, h2, if_true, h3, ih, Run.bind_timeout]

/-- C16 as stated fails: the grid whose cell `A1` holds `=A1+1` passes the cell-parsing
phase, and then neither `calculateFormula` on that formula nor `ParseTable` returns,
whatever the recursion budget: no error, circular-reference or other, is ever produced. -/
theorem selfReference_never_returns :
    loadAndParse selfRefRecords "," = .ret (selfRefTable, none) ∧
    (∀ fuel, calculateFormula fuel selfRefTable selfRefFormula = .timeout) ∧
    (∀ fuel, ParseTable fuel id selfRefRecords "," = .timeout) := by
  have hl : loadAndParse selfRefRecords "," = .ret (selfRefTable, none) := by decide
  refine ⟨hl, selfRef_timeout, fun fuel => ?_⟩
  unfold ParseTable
  rw [hl]
  simp only [Run.bind_ret, id]
  show evalFormulas fuel selfRefTable
    [({ ColumnIndex := 0, RowIndex := 0 }, selfRefFormula)] = .timeout
  unfold evalFormulas
  rw [selfRef_timeout]

theorem calculateFormula_operand_returns (t : Table) (hP : Parsed t) (a b : Address)
    (f g : Formula) (hf : mapGet t.formulas a = some f) (hg : mapGet t.formulas b = some g)
    (hab : f.Operand1Addr = some b ∨ f.Operand2Addr = some b) (n : Nat) (r : Int × GoError)
    (hr : calculateFormula (n + 1) t f = .ret r) :
    ∃ r1, calculateFormula n t g = .ret r1 := by
  have hfm := mem_of_mapGet _ _ _ hf
  have hgm := mem_of_mapGet _ _ _ hg
  have hnc := (hP.pending.2 a f hfm).2.1
  obtain ⟨_, _, s1, hs1, hp1⟩ := hP.pending.2 b g hgm
  obtain ⟨s, hs⟩ := hP.operand a f b hfm hab
  have hss : s = s1 := by
    have h1 := (GetCellValueByAddress_ok t b s hs).2.2
    have h2 := (cellAt_eq_cellNat t b s1 hs1).2.2
    rw [h1] at h2
    exact Option.some.inj h2
  subst hss
  rw [calculateFormula_unfold] at hr
  simp only [hnc, Bool.false_eq_true, if_false] at hr
  obtain ⟨o1, h1, hr⟩ := Run.bind_eq_ret hr
  obtain ⟨o2, h2, _⟩ := Run.bind_eq_ret hr
  have key : ∀ (c v : Int),
      resolveOperand (calculateFormula n t) t (some b) c = .ret v →
      ∃ r1, calculateFormula n t g = .ret r1 := by
    intro c v hv
    simp only [resolveOperand, GetCellNumericValueByAddressWith, hs, hp1, if_true, hg] at hv
    cases hc : calculateFormula n t g with
    | ret q => exact ⟨q, rfl⟩
    | fault => rw [hc] at hv; simp at hv
    | timeout => rw [hc] at hv; simp at hv
  rcases hab with hab | hab
  · rw [hab] at h1
    exact key _ _ h1
  · rw [hab] at h2
    exact key _ _ h2

theorem calculateFormula_reach_returns (t : Table) (hP : Parsed t) (a b : Address)
    (hab : Relation.TransGen (DependsOn t) a b) :
    ∀ (f : Formula) (n : Nat) (r : Int × GoError), mapGet t.formulas a = some f →
      calculateFormula n t f = .ret r →
      ∃ g m r1, mapGet t.formulas b = some g ∧ m < n ∧ calculateFormula m t g = .ret r1 := by
  induction hab with
  | single h =>
    intro f n r hf hr
    obtain ⟨f1, hf1, ho, hb⟩ := h
    rw [hf] at hf1
    cases hf1
    obtain ⟨g, hg⟩ := Option.isSome_iff_exists.1 hb
    cases n with
    | zero => simp [calculateFormula] at hr
    | succ n =>
      obtain ⟨r1, hr1⟩ := calculateFormula_operand_returns t hP a _ f g hf hg ho n r hr
      exact ⟨g, n, r1, hg, Nat.lt_succ_self n, hr1⟩
  | tail _ h ih =>
    intro f n r hf hr
    obtain ⟨g, m, r1, hg, hm, hr1⟩ := ih f n r hf hr
    obtain ⟨g1, hg1, ho, hb⟩ := h
    rw [hg] at hg1
    cases hg1
    obtain ⟨g2, hg2⟩ := Option.isSome_iff_exists.1 hb
    cases m with
    | zero => simp [calculateFormula] at hr1
    | succ m =>
      obtain ⟨r2, hr2⟩ := calculateFormula_operand_returns t hP _ _ g g2 hg hg2 ho m r1 hr1
      exact ⟨g2, m, r2, hg2, by omega, hr2⟩

/-- C16 amended: in a table that the cell-parsing phase produced, `calculateFormula` on a
formula whose cell transitively references itself never returns, neither a value nor an
error, whatever the recursion budget: the recursion is without bound. -/
theorem calculateFormula_cycle_never_returns (records : List (List String)) (comma : String)
    (t : Table) (a : Address) (f : Formula)
    (hrect : Rectangular records)
    (hparse : loadAndParse records comma = .ret (t, none))
    (hcyc : Relation.TransGen (DependsOn t) a a)
    (hf : mapGet t.formulas a = some f) :
    ∀ fuel r, calculateFormula fuel t f ≠ .ret r := by
  have hP := loadAndParse_parsed records comma t hrect hparse
  intro fuel
  induction fuel using Nat.strong_induction_on with
  | _ n ih =>
    intro r hr
    obtain ⟨g, m, r1, hg, hm, hr1⟩ := calculateFormula_reach_returns t hP a a hcyc f n r hf hr
    rw [hf] at hg
    cases hg
    exact ih m hm r1 hr1

/-- Witness of C16 amended: the cell `A1` of `selfRefRecords` depends on itself, and
`calculateFormula` never returns on its formula. -/
theorem calculateFormula_cycle_never_returns_witness :
    Relation.TransGen (DependsOn selfRefTable) { ColumnIndex := 0, RowIndex := 0 }
      { ColumnIndex := 0, RowIndex := 0 } ∧
    ∀ fuel r, calculateFormula fuel selfRefTable selfRefFormula ≠ .ret r :=
  ⟨Relation.TransGen.single ⟨selfRefFormula, by decide, Or.inl rfl, by decide⟩,
   calculateFormula_cycle_never_returns selfRefRecords "," selfRefTable
     { ColumnIndex := 0, RowIndex := 0 } selfRefFormula (by decide) (by decide)
     (Relation.TransGen.single ⟨selfRefFormula, by decide, Or.inl rfl, by decide⟩)
     (by decide)⟩

/-! ## Termination of `calculateFormula` on an acyclic table -/

/-- C17: in a table that the cell-parsing phase produced and whose formula dependency
graph has no cycle, the dependency relation is well-founded and `calculateFormula`
returns on every registered formula, for every recursion budget from some bound on. -/
theorem calculateFormula_terminates_acyclic (records : List (List String)) (comma : String)
    (t : Table) (hrect : Rectangular records)
    (hparse : loadAndParse records comma = .ret (t, none)) (hac : Acyclic t) :
    WellFounded (fun b a => DependsOn t a b) ∧
    ∀ a f, mapGet t.formulas a = some f →
      ∃ F r, ∀ fuel, F ≤ fuel → calculateFormula fuel t f = .ret r := by
  have hP := loadAndParse_parsed records comma t hrect hparse
  refine ⟨dependsOn_wf t hac, fun a f hf => ?_⟩
  obtain ⟨n, r, hr⟩ := calculateFormula_terminates t hP hac a f hf
  exact ⟨n, r, fun fuel hfuel => calculateFormula_mono t f r n fuel hfuel hr⟩

/-- Witness of C17: both formulas of the example grid return, `=A1*B1` with 40. -/
theorem calculateFormula_terminates_acyclic_witness :
    Acyclic exampleTable ∧
    (WellFounded (fun b a => DependsOn exampleTable a b) ∧
      ∀ a f, mapGet exampleTable.formulas a = some f →
        ∃ F r, ∀ fuel, F ≤ fuel → calculateFormula fuel exampleTable f = .ret r) ∧
    (∀ f, mapGet exampleTable.formulas { ColumnIndex := 0, RowIndex := 1 } = some f →
      calculateFormula 2 exampleTable f = .ret (40, none)) :=
  ⟨exampleTable_acyclic,
   calculateFormula_terminates_acyclic exampleRecords "," exampleTable (by decide) (by decide)
     exampleTable_acyclic,
   by decide⟩

/-! ## Rendering -/

theorem writeFields_eq (d : String) (fields : List String) :
    ∀ b, writeFields d b fields = b ++ delimited d fields := by
  induction fields with
  | nil => intro b; simp [writeFields, delimited]
  | cons f rest ih =>
    intro b
    rw [writeFields, ih, delimited]
    simp only [String.append_assoc]

theorem countTableStringLength_nonneg (t : Table) : 0 ≤ countTableStringLength t := by
  unfold countTableStringLength newlineCharLength
  have h1 : ∀ (l : List String) (k : Int), 0 ≤ k →
      0 ≤ (l.map (fun s => (s.utf8ByteSize : Int) + k)).sum := by
    intro l k hk
    apply List.sum_nonneg
    intro x hx
    obtain ⟨s, _, rfl⟩ := List.mem_map.1 hx
    omega
  have hk : (0 : Int) ≤ (t.Comma.utf8ByteSize : Int) := Int.ofNat_nonneg _
  have h2 := h1 t.ColNames _ hk
  have h3 : 0 ≤ (t.RowNames.map (fun rowName => (rowName.utf8ByteSize : Int))).sum := by
    have := h1 t.RowNames 0 (le_refl _)
    simpa using this
  have h4 : 0 ≤ (t.cells.map (fun row =>
      (row.map (fun cell => (cell.utf8ByteSize : Int) + (t.Comma.utf8ByteSize : Int))).sum
        + 1)).sum := by
    apply List.sum_nonneg
    intro x hx
    obtain ⟨row, _, rfl⟩ := List.mem_map.1 hx
    have := h1 row _ hk
    omega
  simp only
  omega

theorem intercalate_go_eq (names : List String) (d : String) :
    ∀ (rows : List (List String)) (b : String) (t : Table) (k : Nat), t.Comma = d →
      t.cells.drop k = rows → names.length ≤ rows.length →
      writeRows t b names k =
        .ret (String.intercalate.go b "\n"
          (List.zipWith (fun rowName row => rowName ++ delimited d row) names rows)) := by
  induction names with
  | nil =>
    intro rows b t k _ _ _
    simp [writeRows, String.intercalate.go]
  | cons name rest ih =>
    intro rows b t k hd hdrop hlen
    cases rows with
    | nil => simp at hlen
    | cons row rows1 =>
      have hk : k < t.cells.length := by
        by_contra hc
        rw [List.drop_eq_nil_of_le (not_lt.1 hc)] at hdrop
        cases hdrop
      have hrow : t.cells[k]? = some row := by
        have := List.head?_drop t.cells k
        rw [hdrop] at this
        simpa using this.symm
      have hdrop1 : t.cells.drop (k + 1) = rows1 := by
        have := congrArg List.tail hdrop
        simpa [List.tail_drop] using this
      rw [writeRows, hrow]
      simp only
      rw [ih rows1 _ t (k + 1) hd hdrop1 (by simpa using hlen)]
      simp only [List.zipWith_cons_cons, String.intercalate.go, writeFields_eq, hd,
        String.append_assoc]

/-- C15: on a table with one row of cells per row name (and `RowCount` that number),
`String` returns the `RowCount + 1` lines of the table joined by single newlines, with no
newline after the last one: the header line is each column name preceded by the
delimiter, and the line after it for row `i` is the row name followed by each cell of the
row preceded by the delimiter; the call leaves the table as it was. -/
theorem String_lines (t : Table) (hrows : t.cells.length = t.RowNames.length)
    (hcount : t.RowCount = (t.RowNames.length : Int)) :
    StringWithTable t = .ret (String.intercalate "\n" (renderedLines t), t) ∧
    ((renderedLines t).length : Int) = t.RowCount + 1 ∧
    (renderedLines t)[0]? = some (delimited t.Comma t.ColNames) ∧
    ∀ i rowName row, t.RowNames[i]? = some rowName → t.cells[i]? = some row →
      (renderedLines t)[i + 1]? = some (rowName ++ delimited t.Comma row) := by
  refine ⟨?_, ?_, by simp [renderedLines], ?_⟩
  · unfold StringWithTable Table.String
    rw [if_neg (not_lt.2 (countTableStringLength_nonneg t))]
    rw [intercalate_go_eq t.RowNames t.Comma t.cells _ t 0 rfl (by simp) (by omega)]
    simp only [Run.bind_ret, renderedLines, String.intercalate, writeFields_eq,
      String.empty_append]
  · simp only [renderedLines, List.length_cons, List.length_zipWith, hrows, min_self, hcount]
    push_cast
    ring
  · intro i rowName row h1 h2
    simp only [renderedLines, List.getElem?_cons_succ, List.getElem?_zipWith, h1, h2]

/-- Witness of C15: the evaluated example grid renders as three lines. -/
theorem String_lines_witness :
    StringWithTable exampleFinal = .ret (",A,B\n1,5,8\n2,40,2", exampleFinal) ∧
    renderedLines exampleFinal = [",A,B", "1,5,8", "2,40,2"] ∧
    (StringWithTable exampleFinal =
        .ret (String.intercalate "\n" (renderedLines exampleFinal), exampleFinal) ∧
      ((renderedLines exampleFinal).length : Int) = exampleFinal.RowCount + 1 ∧
      (renderedLines exampleFinal)[0]? =
        some (delimited exampleFinal.Comma exampleFinal.ColNames) ∧
      ∀ i rowName row, exampleFinal.RowNames[i]? = some rowName →
        exampleFinal.cells[i]? = some row →
        (renderedLines exampleFinal)[i + 1]? =
          some (rowName ++ delimited exampleFinal.Comma row)) :=
  ⟨by decide, by decide, String_lines exampleFinal (by decide) (by decide)⟩

/-! ## The groups of a matched formula text -/

theorem fullMatch_groups (s : String) (m : Caps)
    (h : formulaRegExCompiled.fullMatch s = some m) :
    ∃ o1 op o2, s.data = '=' :: (o1 ++ op :: o2) ∧ IsOperatorRune op ∧
      (capText m "operator").data = [op] ∧
      OperandGroups m "arg1ColName" "arg1RowName" "arg1Const" o1 ∧
      OperandGroups m "arg2ColName" "arg2RowName" "arg2Const" o2 := by
  obtain ⟨c1, o1, op, c2, o2, hs, hop, h1, h2, rfl⟩ := formulaRegExCompiled_fullMatch s m h
  refine ⟨o1, op, o2, hs, (isOperatorChar_iff op).1 hop, ?_, ?_, ?_⟩
  · rw [capText_operator c1 c2 o1 op h1]
  · rcases h2 with ⟨ls2, ds2, _, _, _, rfl⟩ | ⟨_, rfl⟩
    · rcases h1 with ⟨ls, ds, hl, hd, ho, rfl⟩ | ⟨hd, rfl⟩
      · exact Or.inl ⟨ls, ds, hl, hd, ho, rfl, rfl, rfl⟩
      · exact Or.inr ⟨hd, rfl, rfl, rfl⟩
    · rcases h1 with ⟨ls, ds, hl, hd, ho, rfl⟩ | ⟨hd, rfl⟩
      · exact Or.inl ⟨ls, ds, hl, hd, ho, rfl, rfl, rfl⟩
      · exact Or.inr ⟨hd, rfl, rfl, rfl⟩
  · rcases h1 with ⟨ls1, ds1, _, _, _, rfl⟩ | ⟨_, rfl⟩
    · rcases h2 with ⟨ls, ds, hl, hd, ho, rfl⟩ | ⟨hd, rfl⟩
      · exact Or.inl ⟨ls, ds, hl, hd, ho, rfl, rfl, rfl⟩
      · exact Or.inr ⟨hd, rfl, rfl, rfl⟩
    · rcases h2 with ⟨ls, ds, hl, hd, ho, rfl⟩ | ⟨hd, rfl⟩
      · exact Or.inl ⟨ls, ds, hl, hd, ho, rfl, rfl, rfl⟩
      · exact Or.inr ⟨hd, rfl, rfl, rfl⟩

theorem append_unique {α : Type} (p : α → Prop) :
    ∀ (a a1 b b1 : List α), (∀ x ∈ a, p x) → (∀ x ∈ a1, p x) →
      (∀ x, b.head? = some x → ¬ p x) → (∀ x, b1.head? = some x → ¬ p x) →
      b ≠ [] → b1 ≠ [] → a ++ b = a1 ++ b1 → a = a1 ∧ b = b1 := by
  intro a
  induction a with
  | nil =>
    intro a1 b b1 _ ha1 hb _ hbne _ h
    cases a1 with
    | nil => exact ⟨rfl, by simpa using h⟩
    | cons y a2 =>
      simp only [List.nil_append, List.cons_append] at h
      exact absurd (ha1 y (List.mem_cons_self _ _)) (hb y (by rw [h]; rfl))
  | cons x a2 ih =>
    intro a1 b b1 ha ha1 hb hb1 hbne hb1ne h
    cases a1 with
    | nil =>
      simp only [List.nil_append, List.cons_append] at h
      exact absurd (ha x (List.mem_cons_self _ _)) (hb1 x (by rw [← h]; rfl))
    | cons y a3 =>
      simp only [List.cons_append, List.cons.injEq] at h
      obtain ⟨h1, h2⟩ := ih a3 b b1 (fun z hz => ha z (List.mem_cons_of_mem _ hz))
        (fun z hz => ha1 z (List.mem_cons_of_mem _ hz)) hb hb1 hbne hb1ne h.2
      exact ⟨by rw [h.1, h1], h2⟩

theorem letter_not_digit (c : Char) (h : ('a' ≤ c ∧ c ≤ 'z') ∨ ('A' ≤ c ∧ c ≤ 'Z')) :
    ¬ ('0' ≤ c ∧ c ≤ '9') := by
  rintro ⟨_, h9⟩
  rcases h with ⟨ha, _⟩ | ⟨ha, _⟩
  · exact absurd (le_trans ha h9) (by decide)
  · exact absurd (le_trans ha h9) (by decide)

/-! ## A formula cell with a dangling reference -/

theorem digit_not_operator (c : Char) (h : '0' ≤ c) : ¬ IsOperatorRune c := by
  rintro (rfl | rfl | rfl | rfl) <;> exact absurd h (by decide)

theorem operandText_no_operator (o : List Char) (h : IsOperandText o) :
    ∀ c ∈ o, ¬ IsOperatorRune c := by
  have hl : ∀ c : Char, (('a' ≤ c ∧ c ≤ 'z') ∨ ('A' ≤ c ∧ c ≤ 'Z')) → '0' ≤ c := by
    rintro c (⟨h1, _⟩ | ⟨h1, _⟩)
    · exact le_trans (by decide) h1
    · exact le_trans (by decide) h1
  intro c hc
  apply digit_not_operator
  rcases h with ⟨ls, ds, h1, h2, rfl⟩ | h2
  · rcases List.mem_append.1 hc with hc | hc
    · exact hl c (h1.2 c hc)
    · exact (h2.2 c hc).1
  · exact (h2.2 c hc).1

theorem formulaText_unique (o1 o2 p1 p2 : List Char) (op oq : Char)
    (h1 : IsOperandText o1) (h2 : IsOperandText p1) (hop : IsOperatorRune op)
    (hoq : IsOperatorRune oq) (h : o1 ++ op :: o2 = p1 ++ oq :: p2) :
    o1 = p1 ∧ op = oq ∧ o2 = p2 := by
  obtain ⟨e1, e2⟩ := append_unique (fun c => ¬ IsOperatorRune c) o1 p1 (op :: o2) (oq :: p2)
    (operandText_no_operator o1 h1) (operandText_no_operator p1 h2)
    (fun x hx => by
      simp only [List.head?_cons, Option.some.injEq] at hx
      subst hx
      exact fun hn => hn hop)
    (fun x hx => by
      simp only [List.head?_cons, Option.some.injEq] at hx
      subst hx
      exact fun hn => hn hoq)
    (by simp) (by simp) h
  simp only [List.cons.injEq] at e2
  exact ⟨e1, e2.1, e2.2⟩

theorem lettersDigits_unique (ls ds ms es : List Char) (h1 : IsLetters ls) (h2 : IsDigits ds)
    (h3 : IsLetters ms) (h4 : IsDigits es) (h : ls ++ ds = ms ++ es) : ls = ms ∧ ds = es := by
  have key : ∀ (d : List Char), IsDigits d → ∀ x, d.head? = some x →
      ¬ (('a' ≤ x ∧ x ≤ 'z') ∨ ('A' ≤ x ∧ x ≤ 'Z')) := by
    intro d hd x hx hl
    exact letter_not_digit x hl (hd.2 x (List.mem_of_mem_head? hx))
  exact append_unique (fun c => ('a' ≤ c ∧ c ≤ 'z') ∨ ('A' ≤ c ∧ c ≤ 'Z')) ls ms ds es
    h1.2 h3.2 (key ds h2) (key es h4) h2.1 h4.1 h

theorem letters_append_not_digits (ls ds : List Char) (h1 : IsLetters ls)
    (h : IsDigits (ls ++ ds)) : False := by
  cases ls with
  | nil => exact h1.1 rfl
  | cons c rest =>
    exact letter_not_digit c (h1.2 c (List.mem_cons_self _ _))
      (h.2 c (by simp))

theorem HasPrefix_eq_of_data (s : String) (rest : List Char) (h : s.data = '=' :: rest) :
    HasPrefix s "=" = true := by
  unfold HasPrefix
  rw [h]
  show List.isPrefixOf ['='] ('=' :: rest) = true
  simp [List.isPrefixOf]

theorem validateCellAddress_unknown (t : Table) (c r : String)
    (h : ¬ (c ∈ t.ColNamesMap.map Prod.fst ∧ r ∈ t.RowNamesMap.map Prod.fst)) :
    validateCellAddress t c r = some errUnknownCell := by
  have hn : validateCellAddress t c r ≠ none := fun hv => h ((validateCellAddress_iff t c r).1 hv)
  unfold validateCellAddress at hn ⊢
  split_ifs at hn ⊢ with hc
  · exact absurd rfl hn
  · rfl

theorem mk_ne_empty (l : List Char) (h : l ≠ []) : String.mk l ≠ "" := by
  intro he
  apply h
  have := congrArg String.data he
  simpa using this

theorem groups_of_symbolic (m : Caps) (col row const : String) (ls ds : List Char)
    (hl : IsLetters ls) (hd : IsDigits ds)
    (hg : OperandGroups m col row const (ls ++ ds)) :
    capText m col = String.mk ls ∧ capText m row = String.mk ds ∧ capText m const = "" := by
  rcases hg with ⟨ms, es, h1, h2, h3, h4, h5, h6⟩ | ⟨h1, _⟩
  · obtain ⟨e1, e2⟩ := lettersDigits_unique ls ds ms es hl hd h1 h2 h3
    subst e1 e2
    exact ⟨h4, h5, h6⟩
  · exact absurd (letters_append_not_digits ls ds hl h1) id

theorem operandAddress_dangling (t : Table) (m : Caps) (col row const : String)
    (o : List Char)
    (hc : ∀ k, k ∈ t.ColNamesMap.map Prod.fst ↔ k ∈ t.ColNames)
    (hr : ∀ k, k ∈ t.RowNamesMap.map Prod.fst ↔ k ∈ t.RowNames)
    (hg : OperandGroups m col row const o) (hd : DanglingOperand t o) :
    operandAddress t (capText m col) (capText m row) = (none, some errUnknownCell) := by
  obtain ⟨ls, ds, hl, hdg, rfl, hmiss⟩ := hd
  obtain ⟨e1, e2, _⟩ := groups_of_symbolic m col row const ls ds hl hdg hg
  rw [e1, e2]
  unfold operandAddress
  rw [if_pos ⟨mk_ne_empty ls hl.1, mk_ne_empty ds hdg.1⟩, validateCellAddress_unknown]
  rw [hc, hr]
  rintro ⟨h1, h2⟩
  rcases hmiss with h | h
  · exact h h1
  · exact h h2

theorem parseRecord_dangling (t : Table) (s : String) (a : Address)
    (hc : ∀ k, k ∈ t.ColNamesMap.map Prod.fst ↔ k ∈ t.ColNames)
    (hr : ∀ k, k ∈ t.RowNamesMap.map Prod.fst ↔ k ∈ t.RowNames)
    (hd : DanglingFormula t s) : parseRecord t s a = (t, some errUnknownCell) := by
  obtain ⟨o1, op, o2, h1, hop, h2, hs, hdang⟩ := hd
  have hp := HasPrefix_eq_of_data s _ hs
  have hsome : (formulaRegExCompiled.fullMatch s).isSome = true :=
    (RE.fullMatch_isSome_iff _ s).2
      ((formulaRegExCompiled_matches_iff s).2 ⟨o1, op, o2, h1, hop, h2, hs⟩)
  obtain ⟨m, hm⟩ := Option.isSome_iff_exists.1 hsome
  obtain ⟨p1, oq, p2, hs2, hoq, _, hg1, hg2⟩ := fullMatch_groups s m hm
  have hp1 : IsOperandText p1 := by
    rcases hg1 with ⟨ls, ds, hl, hdg, rfl, _⟩ | ⟨hdg, _⟩
    · exact Or.inl ⟨ls, ds, hl, hdg, rfl⟩
    · exact Or.inr hdg
  rw [hs] at hs2
  simp only [List.cons.injEq, true_and] at hs2
  obtain ⟨e1, _, e3⟩ := formulaText_unique o1 o2 p1 p2 op oq h1 hp1 hop hoq hs2
  subst e1 e3
  simp only [parseRecord, hp, hm, if_true]
  rcases hdang with hd1 | hd2
  · rw [operandAddress_dangling t m _ _ _ o1 hc hr hg1 hd1]
  · cases h3 : operandAddress t (capText m "arg1ColName") (capText m "arg1RowName") with
    | mk a1 e1 =>
      cases e1 with
      | some e => simp only [operandAddress_error t _ _ e a1 h3]
      | none =>
        simp only
        rw [operandAddress_dangling t m _ _ _ o2 hc hr hg2 hd2]

theorem buildNamesMap_keys :
    ∀ (names : List String) (start : Nat) (m : List (String × Int)) (k : String),
      k ∈ (buildNamesMap names start m).map Prod.fst ↔ k ∈ names ∨ k ∈ m.map Prod.fst := by
  intro names
  induction names with
  | nil => intro start m k; simp [buildNamesMap]
  | cons name rest ih =>
    intro start m k
    unfold buildNamesMap
    rw [ih]
    have hk : k ∈ (mapSet m name (start : Int)).map Prod.fst ↔ k = name ∨ k ∈ m.map Prod.fst := by
      constructor
      · intro h
        obtain ⟨e, he, rfl⟩ := List.mem_map.1 h
        rcases (mem_mapSet m name _ e).1 he with ⟨h1, _⟩ | h1
        · exact Or.inr (List.mem_map.2 ⟨e, h1, rfl⟩)
        · left; rw [h1]
      · rintro (rfl | h)
        · exact List.mem_map.2 ⟨(k, (start : Int)), (mem_mapSet m k _ _).2 (Or.inr rfl), rfl⟩
        · obtain ⟨e, he, rfl⟩ := List.mem_map.1 h
          by_cases hn : e.1 = name
          · exact List.mem_map.2 ⟨(name, (start : Int)),
              (mem_mapSet m name _ _).2 (Or.inr rfl), hn.symm⟩
          · exact List.mem_map.2 ⟨e, (mem_mapSet m name _ e).2 (Or.inl ⟨he, hn⟩), rfl⟩
    rw [hk, List.mem_cons]
    tauto

theorem loadGrid_keys (records : List (List String)) (comma : String) (t : Table)
    (h : loadGrid records comma = .ret t) :
    (∀ k, k ∈ t.ColNamesMap.map Prod.fst ↔ k ∈ t.ColNames) ∧
    (∀ k, k ∈ t.RowNamesMap.map Prod.fst ↔ k ∈ t.RowNames) := by
  unfold loadGrid at h
  cases records with
  | nil => simp at h
  | cons header rows =>
    simp only at h
    split_ifs at h with hbad
    simp only [Run.ret.injEq] at h
    subst h
    constructor
    · intro k
      have := buildNamesMap_keys header.tail 0 [] k
      simpa using this
    · intro k
      have := buildNamesMap_keys (rows.map (fun r => r.headD "")) 0 [] k
      simpa using this

theorem parseRecord_frame (t : Table) (value : String) (a : Address) :
    (parseRecord t value a).1 = { t with formulas := (parseRecord t value a).1.formulas } := by
  cases hp : HasPrefix value "=" with
  | false =>
    simp only [parseRecord, hp, Bool.false_eq_true, if_false]
    cases (Atoi value).2 <;> rfl
  | true =>
    cases hm : formulaRegExCompiled.fullMatch value with
    | none => simp only [parseRecord, hp, hm, if_true]
    | some m =>
      simp only [parseRecord, hp, hm, if_true]
      cases h1 : operandAddress t (capText m "arg1ColName") (capText m "arg1RowName") with
      | mk a1 e1 =>
        cases e1 with
        | some e => rfl
        | none =>
          simp only
          cases h2 : operandAddress t (capText m "arg2ColName") (capText m "arg2RowName") with
          | mk a2 e2 =>
            cases e2 with
            | some e => rfl
            | none => rfl

theorem parseRowCells_frame (rowIndex : Nat) :
    ∀ (row : List String) (t : Table) (colIndex : Nat),
      (parseRowCells rowIndex t row colIndex).1 =
        { t with formulas := (parseRowCells rowIndex t row colIndex).1.formulas } := by
  intro row
  induction row with
  | nil => intro t colIndex; rfl
  | cons value rest ih =>
    intro t colIndex
    unfold parseRowCells
    have hf := parseRecord_frame t value { ColumnIndex := colIndex, RowIndex := rowIndex }
    cases hp : parseRecord t value { ColumnIndex := colIndex, RowIndex := rowIndex } with
    | mk t1 e =>
      rw [hp] at hf
      cases e with
      | some e => simp only; exact hf
      | none =>
        simp only
        have h2 := ih t1 (colIndex + 1)
        simp only at hf
        rw [h2, hf]

theorem parseRows_frame :
    ∀ (rows : List (List String)) (t : Table) (rowIndex : Nat),
      (parseRows t rows rowIndex).1 =
        { t with formulas := (parseRows t rows rowIndex).1.formulas } := by
  intro rows
  induction rows with
  | nil => intro t rowIndex; rfl
  | cons row rest ih =>
    intro t rowIndex
    unfold parseRows
    have hf := parseRowCells_frame rowIndex row t 0
    cases hp : parseRowCells rowIndex t row 0 with
    | mk t1 e =>
      rw [hp] at hf
      cases e with
      | some e => simp only; exact hf
      | none =>
        simp only
        have h2 := ih t1 (rowIndex + 1)
        simp only at hf
        rw [h2, hf]

theorem parseRowCells_dangling (rowIndex : Nat) :
    ∀ (row : List String) (t : Table) (colIndex : Nat),
      (∀ k, k ∈ t.ColNamesMap.map Prod.fst ↔ k ∈ t.ColNames) →
      (∀ k, k ∈ t.RowNamesMap.map Prod.fst ↔ k ∈ t.RowNames) →
      (∃ s ∈ row, DanglingFormula t s) →
      ∃ e, (parseRowCells rowIndex t row colIndex).2 = some e := by
  intro row
  induction row with
  | nil => intro t colIndex _ _ h; simp at h
  | cons value rest ih =>
    intro t colIndex hc hr hd
    unfold parseRowCells
    have hf := parseRecord_frame t value { ColumnIndex := colIndex, RowIndex := rowIndex }
    cases hp : parseRecord t value { ColumnIndex := colIndex, RowIndex := rowIndex } with
    | mk t1 e =>
      rw [hp] at hf
      cases e with
      | some e => exact ⟨_, rfl⟩
      | none =>
        simp only at hf ⊢
        have hex : ∃ fs, t1 = { t with formulas := fs } := ⟨_, hf⟩
        obtain ⟨fs, rfl⟩ := hex
        obtain ⟨s, hs, hds⟩ := hd
        rcases List.mem_cons.1 hs with rfl | hs
        · rw [parseRecord_dangling t s _ hc hr hds] at hp
          simp at hp
        · exact ih _ (colIndex + 1) hc hr ⟨s, hs, hds⟩

theorem parseRows_dangling :
    ∀ (rows : List (List String)) (t : Table) (rowIndex : Nat),
      (∀ k, k ∈ t.ColNamesMap.map Prod.fst ↔ k ∈ t.ColNames) →
      (∀ k, k ∈ t.RowNamesMap.map Prod.fst ↔ k ∈ t.RowNames) →
      (∃ row ∈ rows, ∃ s ∈ row, DanglingFormula t s) →
      ∃ e, (parseRows t rows rowIndex).2 = some e := by
  intro rows
  induction rows with
  | nil => intro t rowIndex _ _ h; simp at h
  | cons row rest ih =>
    intro t rowIndex hc hr hd
    unfold parseRows
    have hf := parseRowCells_frame rowIndex row t 0
    cases hp : parseRowCells rowIndex t row 0 with
    | mk t1 e =>
      rw [hp] at hf
      cases e with
      | some e => exact ⟨_, rfl⟩
      | none =>
        simp only at hf ⊢
        have hex : ∃ fs, t1 = { t with formulas := fs } := ⟨_, hf⟩
        obtain ⟨fs, rfl⟩ := hex
        obtain ⟨r, hr1, hds⟩ := hd
        rcases List.mem_cons.1 hr1 with rfl | hr1
        · obtain ⟨e, he⟩ := parseRowCells_dangling rowIndex r t 0 hc hr hds
          rw [hp] at he
          simp at he
        · exact ih _ (rowIndex + 1) hc hr ⟨r, hr1, hds⟩

theorem mem_of_cellNat (t : Table) (i j : Nat) (s : String) (h : cellNat t i j = some s) :
    ∃ row ∈ t.cells, s ∈ row := by
  unfold cellNat at h
  cases hrow : t.cells[i]? with
  | none => rw [hrow] at h; simp at h
  | some row =>
    rw [hrow] at h
    exact ⟨row, List.mem_iff_getElem?.2 ⟨i, hrow⟩, List.mem_iff_getElem?.2 ⟨j, h⟩⟩

theorem danglingTable_dangling : DanglingFormula danglingTable "=Z99+1" := by
  have hl : IsLetters ['Z'] := by unfold IsLetters; decide
  have hd : IsDigits ['9', '9'] := by unfold IsDigits; decide
  have h1 : IsDigits ['1'] := by unfold IsDigits; decide
  exact ⟨['Z', '9', '9'], '+', ['1'], Or.inl ⟨['Z'], ['9', '9'], hl, hd, rfl⟩,
    Or.inl rfl, Or.inr h1, rfl,
    Or.inl ⟨['Z'], ['9', '9'], hl, hd, rfl, Or.inl (by decide)⟩⟩

/-- C12: on a grid whose keys pass validation and in which some cell holds a formula that
names a column or a row absent from the table, the cell-parsing phase fails: `ParseTable`
returns an error whatever the fuel and the iteration order, so also with no fuel at all,
where any call of `calculateFormula` would have exhausted it; the table returned has the
cells of the loaded grid, none overwritten. -/
theorem ParseTable_dangling_reference (records : List (List String)) (comma : String)
    (t0 : Table) (i j : Nat) (s : String)
    (hload : loadGrid records comma = .ret t0)
    (hcols : validateTableKeys t0.ColNames columnNameRegExCompiled = none)
    (hrows : validateTableKeys t0.RowNames rowNameRegExCompiled = none)
    (hcell : cellNat t0 i j = some s) (hd : DanglingFormula t0 s) :
    ∃ t e, parseCells t0 = (t, some e) ∧
      loadAndParse records comma = .ret (t, some e) ∧
      (∀ fuel order, ParseTable fuel order records comma = .ret (t, some e)) ∧
      t = { t0 with formulas := t.formulas } ∧ t.cells = t0.cells := by
  obtain ⟨hc, hr⟩ := loadGrid_keys records comma t0 hload
  obtain ⟨row, hrow, hs⟩ := mem_of_cellNat t0 i j s hcell
  obtain ⟨e, he⟩ := parseRows_dangling t0.cells t0 0 hc hr ⟨row, hrow, s, hs, hd⟩
  have hf := parseRows_frame t0.cells t0 0
  have hpc : parseCells t0 = ((parseCells t0).1, some e) := by
    unfold parseCells
    rw [← he]
  have hlp : loadAndParse records comma = .ret ((parseCells t0).1, some e) := by
    unfold loadAndParse
    rw [hload]
    simp only [Run.bind, hcols, hrows]
    rw [← hpc]
  refine ⟨(parseCells t0).1, e, hpc, hlp, ?_, hf, ?_⟩
  · intro fuel order
    unfold ParseTable
    rw [hlp]
    rfl
  · show (parseRows t0 t0.cells 0).1.cells = t0.cells
    rw [hf]

theorem ParseTable_dangling_reference_witness :
    ∃ t e, parseCells danglingTable = (t, some e) ∧
      loadAndParse danglingRecords "," = .ret (t, some e) ∧
      (∀ fuel order, ParseTable fuel order danglingRecords "," = .ret (t, some e)) ∧
      t = { danglingTable with formulas := t.formulas } ∧ t.cells = danglingTable.cells :=
  ParseTable_dangling_reference danglingRecords "," danglingTable 0 1 "=Z99+1"
    (by decide) (by decide) (by decide) (by decide) danglingTable_dangling

/-! ## The grid after a successful load -/

theorem loadAndParse_inv (records : List (List String)) (comma : String) (t : Table)
    (h : loadAndParse records comma = .ret (t, none)) :
    ∃ t0, loadGrid records comma = .ret t0 ∧
      validateTableKeys t0.ColNames columnNameRegExCompiled = none ∧
      validateTableKeys t0.RowNames rowNameRegExCompiled = none ∧
      parseCells t0 = (t, none) := by
  unfold loadAndParse at h
  obtain ⟨t0, h0, h⟩ := Run.bind_eq_ret h
  cases hv1 : validateTableKeys t0.ColNames columnNameRegExCompiled with
  | some e => rw [hv1] at h; simp at h
  | none =>
    rw [hv1] at h
    cases hv2 : validateTableKeys t0.RowNames rowNameRegExCompiled with
    | some e => rw [hv2] at h; simp at h
    | none =>
      rw [hv2] at h
      simp only [Run.ret.injEq] at h
      exact ⟨t0, h0, hv1, hv2, h⟩

theorem cellNat_congr (t t1 : Table) (h : t1.cells = t.cells) (i j : Nat) :
    cellNat t1 i j = cellNat t i j := by
  unfold cellNat
  rw [h]

theorem evalFormulas_cell (fuel : Nat) (entries : List (Address × Formula)) (t t1 : Table)
    (hP : Pending t entries) (h : evalFormulas fuel t entries = .ret (t1, none)) (i j : Nat) :
    (cellNat t1 i j = cellNat t i j ∧
      ∀ a f, (a, f) ∈ entries → ¬ (a.RowIndex.toNat = i ∧ a.ColumnIndex.toNat = j)) ∨
    (∃ f x, ({ ColumnIndex := (j : Int), RowIndex := (i : Int) }, f) ∈ entries ∧
      calculateFormula fuel t1 f = .ret (x, none) ∧ InRange x ∧
      cellNat t1 i j = some (Itoa x)) := by
  obtain ⟨_, _, _, _, hent, hfr⟩ := evalFormulas_success fuel entries t t1 hP h
  by_cases hex : ∃ a f, (a, f) ∈ entries ∧ a.RowIndex.toNat = i ∧ a.ColumnIndex.toNat = j
  · right
    obtain ⟨a, f, haf, hi, hj⟩ := hex
    obtain ⟨x, hx, hxr, hxc⟩ := hent a f haf
    obtain ⟨h1, h2, hn⟩ := cellAt_eq_cellNat t1 a _ hxc
    have ha : a = { ColumnIndex := (j : Int), RowIndex := (i : Int) } := by
      obtain ⟨ac, ar⟩ := a
      simp only [Address.mk.injEq] at *
      omega
    rw [hi, hj] at hn
    exact ⟨f, x, ha ▸ haf, hx, hxr, hn⟩
  · left
    have hno : ∀ a f, (a, f) ∈ entries →
        ¬ (a.RowIndex.toNat = i ∧ a.ColumnIndex.toNat = j) :=
      fun a f haf hij => hex ⟨a, f, haf, hij⟩
    exact ⟨hfr i j hno, hno⟩

/-- C13: when `ParseTable` returns without error, every cell string of the final grid is
an integer literal: it does not begin with `=` and `strconv.Atoi` parses it without error;
and every cell that held a formula after the cell-parsing phase now holds `strconv.Itoa` of
the value that `calculateFormula` returns for the formula registered at its address. -/
theorem ParseTable_cells_literal (fuel : Nat)
    (order : List (Address × Formula) → List (Address × Formula))
    (records : List (List String)) (comma : String) (t1 : Table)
    (hrect : Rectangular records)
    (hperm : ∀ l, (order l).Perm l)
    (hrun : ParseTable fuel order records comma = .ret (t1, none)) :
    (∀ i j s, cellNat t1 i j = some s →
      HasPrefix s "=" = false ∧ IsIntLiteral s ∧ (Atoi s).2 = none) ∧
    ∃ t, loadAndParse records comma = .ret (t, none) ∧
      ∀ i j s, cellNat t i j = some s → HasPrefix s "=" = true →
        ∃ f x, mapGet t.formulas { ColumnIndex := (j : Int), RowIndex := (i : Int) } = some f ∧
          calculateFormula fuel t1 f = .ret (x, none) ∧ InRange x ∧
          cellNat t1 i j = some (Itoa x) := by
  unfold ParseTable at hrun
  obtain ⟨r, hr, hrun⟩ := Run.bind_eq_ret hrun
  obtain ⟨t, e⟩ := r
  cases e with
  | some e => simp at hrun
  | none =>
    simp only at hrun
    have hP := loadAndParse_parsed records comma t hrect hr
    have hperm1 := hperm t.formulas
    have hPe := Pending.perm t _ t.formulas hperm1 hP.pending
    obtain ⟨t0, _, _, _, hpc⟩ := loadAndParse_inv records comma t hr
    obtain ⟨heq0, _, _, _, hreg⟩ := parseCells_spec t0 t hpc
    have hc0 : t.cells = t0.cells := by rw [heq0]
    constructor
    · intro i j s hs
      rcases evalFormulas_cell fuel _ t t1 hPe hrun i j with ⟨hsame, hno⟩ | ⟨f, x, _, _, hxr, hx⟩
      · rw [hsame] at hs
        have hs0 : cellNat t0 i j = some s := by rw [← cellNat_congr t0 t hc0]; exact hs
        obtain ⟨h1, h2⟩ := hreg i j s hs0
        cases hp : HasPrefix s "=" with
        | true =>
          obtain ⟨g, hg⟩ := h1 hp
          exact absurd ⟨by simp, by simp⟩ (hno _ g (hperm1.mem_iff.2 hg))
        | false => exact ⟨rfl, (Atoi_ok_iff s).1 (h2 hp), h2 hp⟩
      · rw [hx] at hs
        simp only [Option.some.injEq] at hs
        subst hs
        have ha := Atoi_Itoa x hxr
        have ha2 : (Atoi (Itoa x)).2 = none := by rw [ha]
        exact ⟨HasPrefix_Itoa x, (Atoi_ok_iff _).1 ha2, ha2⟩
    · refine ⟨t, hr, ?_⟩
      intro i j s hs hp
      have hs0 : cellNat t0 i j = some s := by rw [← cellNat_congr t0 t hc0]; exact hs
      obtain ⟨g, hg⟩ := (hreg i j s hs0).1 hp
      have hmg := mapGet_of_mem_nodup _ _ _ hP.pending.1 hg
      rcases evalFormulas_cell fuel _ t t1 hPe hrun i j with ⟨_, hno⟩ | ⟨f, x, hf, hx, hxr, hxc⟩
      · exact absurd ⟨by simp, by simp⟩ (hno _ g (hperm1.mem_iff.2 hg))
      · have hmf := mapGet_of_mem_nodup _ _ _ hP.pending.1 (hperm1.mem_iff.1 hf)
        rw [hmg] at hmf
        simp only [Option.some.injEq] at hmf
        subst hmf
        exact ⟨g, x, hmg, hx, hxr, hxc⟩

theorem ParseTable_cells_literal_witness :
    (∀ i j s, cellNat exampleFinal i j = some s →
      HasPrefix s "=" = false ∧ IsIntLiteral s ∧ (Atoi s).2 = none) ∧
    ∃ t, loadAndParse exampleRecords "," = .ret (t, none) ∧
      ∀ i j s, cellNat t i j = some s → HasPrefix s "=" = true →
        ∃ f x, mapGet t.formulas { ColumnIndex := (j : Int), RowIndex := (i : Int) } = some f ∧
          calculateFormula 3 exampleFinal f = .ret (x, none) ∧ InRange x ∧
          cellNat exampleFinal i j = some (Itoa x) :=
  ParseTable_cells_literal 3 id exampleRecords "," exampleFinal (by decide)
    (fun l => List.Perm.refl l) (by decide)

/-- C14: when `ParseTable` returns without error, every cell of the loaded grid that does
not begin with `=` holds the same string in the final grid, a string that `strconv.Atoi`
parses without error, so the final cell denotes the integer of the input; and a cell of the
final grid that differs from the loaded one stands at a key of the formulas map. -/
theorem ParseTable_literal_unchanged (fuel : Nat)
    (order : List (Address × Formula) → List (Address × Formula))
    (records : List (List String)) (comma : String) (t1 : Table)
    (hrect : Rectangular records)
    (hperm : ∀ l, (order l).Perm l)
    (hrun : ParseTable fuel order records comma = .ret (t1, none)) :
    ∃ t0 t, loadGrid records comma = .ret t0 ∧ loadAndParse records comma = .ret (t, none) ∧
      (∀ i j s, cellNat t0 i j = some s → HasPrefix s "=" = false →
        cellNat t1 i j = some s ∧
          ∃ v, Atoi s = (v, none) ∧
            cellInt t1 { ColumnIndex := (j : Int), RowIndex := (i : Int) } = some v) ∧
      (∀ i j, cellNat t1 i j ≠ cellNat t0 i j →
        ∃ f, mapGet t.formulas { ColumnIndex := (j : Int), RowIndex := (i : Int) } = some f) := by
  unfold ParseTable at hrun
  obtain ⟨r, hr, hrun⟩ := Run.bind_eq_ret hrun
  obtain ⟨t, e⟩ := r
  cases e with
  | some e => simp at hrun
  | none =>
    simp only at hrun
    have hP := loadAndParse_parsed records comma t hrect hr
    have hperm1 := hperm t.formulas
    have hPe := Pending.perm t _ t.formulas hperm1 hP.pending
    obtain ⟨t0, hload, _, _, hpc⟩ := loadAndParse_inv records comma t hr
    obtain ⟨heq0, _, _, _, hreg⟩ := parseCells_spec t0 t hpc
    have hc0 : t.cells = t0.cells := by rw [heq0]
    refine ⟨t0, t, hload, hr, ?_, ?_⟩
    · intro i j s hs hp
      have hst : cellNat t i j = some s := by rw [cellNat_congr t0 t hc0]; exact hs
      have hlit := (hreg i j s hs).2 hp
      have hs1 : cellNat t1 i j = some s := by
        rcases evalFormulas_cell fuel _ t t1 hPe hrun i j with
          ⟨hsame, _⟩ | ⟨f, x, hf, _, _, _⟩
        · rw [hsame]; exact hst
        · obtain ⟨_, _, s1, hs1, hp1⟩ := hP.pending.2 _ f (hperm1.mem_iff.1 hf)
          obtain ⟨_, _, hn⟩ := cellAt_eq_cellNat t _ s1 hs1
          simp only [Int.toNat_ofNat] at hn
          rw [hst] at hn
          simp only [Option.some.injEq] at hn
          subst hn
          rw [hp] at hp1
          cases hp1
      refine ⟨hs1, (Atoi s).1, ?_, ?_⟩
      · exact Prod.ext rfl hlit
      · exact cellInt_of_cellNat t1 _ s _ (by simp) (by simp) (by simpa using hs1)
          (Prod.ext rfl hlit)
    · intro i j hne
      rcases evalFormulas_cell fuel _ t t1 hPe hrun i j with ⟨hsame, _⟩ | ⟨f, x, hf, _, _, _⟩
      · rw [hsame, cellNat_congr t0 t hc0] at hne
        exact absurd rfl hne
      · exact ⟨f, mapGet_of_mem_nodup _ _ _ hP.pending.1 (hperm1.mem_iff.1 hf)⟩

theorem ParseTable_literal_unchanged_witness :
    ∃ t0 t, loadGrid exampleRecords "," = .ret t0 ∧
      loadAndParse exampleRecords "," = .ret (t, none) ∧
      (∀ i j s, cellNat t0 i j = some s → HasPrefix s "=" = false →
        cellNat exampleFinal i j = some s ∧
          ∃ v, Atoi s = (v, none) ∧
            cellInt exampleFinal { ColumnIndex := (j : Int), RowIndex := (i : Int) } = some v) ∧
      (∀ i j, cellNat exampleFinal i j ≠ cellNat t0 i j →
        ∃ f, mapGet t.formulas { ColumnIndex := (j : Int), RowIndex := (i : Int) } = some f) :=
  ParseTable_literal_unchanged 3 id exampleRecords "," exampleFinal (by decide)
    (fun l => List.Perm.refl l) (by decide)

/-! ## Addresses stay within the table -/

theorem loadGrid_counts (records : List (List String)) (comma : String) (t : Table)
    (h : loadGrid records comma = .ret t) :
    t.RowCount = (t.cells.length : Int) ∧ t.ColCount = (t.ColNames.length : Int) ∧
      t.RowNames.length = t.cells.length := by
  unfold loadGrid at h
  cases records with
  | nil => simp at h
  | cons header rows =>
    simp only at h
    split_ifs at h with hbad
    simp only [Run.ret.injEq] at h
    subst h
    rw [not_or] at hbad
    cases header with
    | nil => exact absurd rfl hbad.1
    | cons h0 rest =>
      simp only [List.length_cons, List.length_map, List.tail_cons, Nat.cast_add, Nat.cast_one,
        add_sub_cancel_right, and_self]

theorem cellNat_bounds (t : Table) (i j : Nat) (s : String) (h : cellNat t i j = some s) :
    i < t.cells.length ∧ ∃ row ∈ t.cells, j < row.length := by
  unfold cellNat at h
  cases hrow : t.cells[i]? with
  | none => rw [hrow] at h; simp at h
  | some row =>
    rw [hrow] at h
    simp only at h
    refine ⟨?_, row, List.mem_iff_getElem?.2 ⟨i, hrow⟩, ?_⟩
    · by_contra hc
      rw [List.getElem?_eq_none (not_lt.1 hc)] at hrow
      cases hrow
    · by_contra hc
      rw [List.getElem?_eq_none (not_lt.1 hc)] at h
      cases h

theorem Pending.take (t : Table) (l : List (Address × Formula)) (k : Nat) (h : Pending t l) :
    Pending t (l.take k) :=
  ⟨h.1.sublist ((List.take_sublist k l).map Prod.fst),
    fun a f haf => h.2 a f (List.mem_of_mem_take haf)⟩

/-- C19: after a successful cell-parsing phase on records as the CSV reader returns them,
every key of the formulas map and every address operand of a registered formula lies within
the bounds of the table, and every cell that begins with `=` has a formula registered at
its address; and in the table as any number of iterations of the evaluation loop leave it,
`GetCellValueByAddress` at an address within the bounds returns a cell string with no
error, a string that begins with `=` only where a formula is registered. -/
theorem loadAndParse_in_bounds (records : List (List String)) (comma : String) (t : Table)
    (hrect : Rectangular records)
    (h : loadAndParse records comma = .ret (t, none)) :
    (∀ a f, (a, f) ∈ t.formulas →
      InBounds t a ∧
        ∀ b, (f.Operand1Addr = some b ∨ f.Operand2Addr = some b) → InBounds t b) ∧
    (∀ i j s, cellNat t i j = some s → HasPrefix s "=" = true →
      ∃ g, mapGet t.formulas { ColumnIndex := (j : Int), RowIndex := (i : Int) } = some g) ∧
    (∀ fuel (order : List (Address × Formula) → List (Address × Formula)) k t2,
      (∀ l, (order l).Perm l) →
      evalFormulas fuel t ((order t.formulas).take k) = .ret (t2, none) →
      ∀ b, InBounds t b →
        ∃ s, GetCellValueByAddress t2 b = .ret (s, none) ∧
          (HasPrefix s "=" = true → ∃ g, mapGet t2.formulas b = some g)) := by
  have hP := loadAndParse_parsed records comma t hrect h
  obtain ⟨t0, hload, _, _, hpc⟩ := loadAndParse_inv records comma t h
  obtain ⟨heq0, _, _, hkeys, hreg⟩ := parseCells_spec t0 t hpc
  obtain ⟨hf0, hrect0, hcm, hrm⟩ := loadGrid_spec records comma t0 hrect hload
  obtain ⟨hrc, hcc, _⟩ := loadGrid_counts records comma t0 hload
  have hc0 : t.cells = t0.cells := by rw [heq0]
  have hRC : t.RowCount = (t.cells.length : Int) := by rw [hc0, ← hrc, heq0]
  have hCC : t.ColCount = (t0.ColNames.length : Int) := by rw [← hcc, heq0]
  have hrect1 : ∀ row ∈ t.cells, row.length = t0.ColNames.length := by
    rw [hc0]; exact hrect0
  have hregt : ∀ i j s, cellNat t i j = some s → HasPrefix s "=" = true →
      ∃ g, mapGet t.formulas { ColumnIndex := (j : Int), RowIndex := (i : Int) } = some g := by
    intro i j s hs hp
    have hs0 : cellNat t0 i j = some s := by rw [← cellNat_congr t0 t hc0]; exact hs
    obtain ⟨g, hg⟩ := (hreg i j s hs0).1 hp
    exact ⟨g, mapGet_of_mem_nodup _ _ _ hP.pending.1 hg⟩
  refine ⟨?_, hregt, ?_⟩
  · intro a f haf
    rcases hkeys a f haf with h0 | ⟨hgood, i, j, s, hs, _, ha⟩
    · rw [hf0] at h0
      simp at h0
    · constructor
      · obtain ⟨hi, row, hrow, hj⟩ := cellNat_bounds t0 i j s hs
        have hl := hrect0 row hrow
        subst ha
        unfold InBounds
        rw [hRC, hCC, hc0]
        simp only
        omega
      · intro b hb
        obtain ⟨c, r, hc, hr, hbe⟩ := hgood.2.2 b hb
        obtain ⟨vc, hvc, hmc⟩ := mapGet_isSome_of_key _ c hc
        obtain ⟨vr, hvr, hmr⟩ := mapGet_isSome_of_key _ r hr
        have h1 := hcm _ hmc
        have h2 := hrm _ hmr
        subst hbe
        unfold InBounds
        rw [hRC, hCC, hc0, hvc, hvr]
        simp only [Option.getD_some]
        exact ⟨h1, h2⟩
  · intro fuel order k t2 hperm hrun b hb
    have hPe := Pending.take t _ k (Pending.perm t _ t.formulas (hperm t.formulas) hP.pending)
    obtain ⟨_, heq2, hlen, hhead, _, _⟩ := evalFormulas_success fuel _ t t2 hPe hrun
    unfold InBounds at hb
    rw [hRC, hCC] at hb
    obtain ⟨s, hs⟩ := GetCellValueByAddress_inBounds t _ hrect1 b hb.1 hb.2
    obtain ⟨hb1, hb2, hsn⟩ := GetCellValueByAddress_ok t b s hs
    have hbe : b = { ColumnIndex := (b.ColumnIndex.toNat : Int),
                     RowIndex := (b.RowIndex.toNat : Int) } := by
      obtain ⟨bc, br⟩ := b
      simp only [Address.mk.injEq] at *
      omega
    rcases evalFormulas_cell fuel _ t t2 hPe hrun b.RowIndex.toNat b.ColumnIndex.toNat with
      ⟨hsame, _⟩ | ⟨f, x, _, _, _, hx⟩
    · rw [hsn] at hsame
      refine ⟨s, GetCellValueByAddress_congr t t2 b s s hlen hhead hs hsame, ?_⟩
      intro hp
      obtain ⟨g, hg⟩ := hregt _ _ s hsn hp
      rw [← hbe] at hg
      rw [heq2]
      exact ⟨g, hg⟩
    · refine ⟨Itoa x, GetCellValueByAddress_congr t t2 b s _ hlen hhead hs hx, ?_⟩
      intro hp
      rw [HasPrefix_Itoa] at hp
      cases hp

theorem loadAndParse_in_bounds_witness :
    (∀ a f, (a, f) ∈ exampleTable.formulas →
      InBounds exampleTable a ∧
        ∀ b, (f.Operand1Addr = some b ∨ f.Operand2Addr = some b) → InBounds exampleTable b) ∧
    (∀ i j s, cellNat exampleTable i j = some s → HasPrefix s "=" = true →
      ∃ g, mapGet exampleTable.formulas
        { ColumnIndex := (j : Int), RowIndex := (i : Int) } = some g) ∧
    (∀ fuel (order : List (Address × Formula) → List (Address × Formula)) k t2,
      (∀ l, (order l).Perm l) →
      evalFormulas fuel exampleTable ((order exampleTable.formulas).take k) = .ret (t2, none) →
      ∀ b, InBounds exampleTable b →
        ∃ s, GetCellValueByAddress t2 b = .ret (s, none) ∧
          (HasPrefix s "=" = true → ∃ g, mapGet t2.formulas b = some g)) :=
  loadAndParse_in_bounds exampleRecords "," exampleTable (by decide) (by decide)

/-! ## The operands that `parseRecord` registers -/

theorem buildNamesMap_entry :
    ∀ (names : List String) (start : Nat) (m : List (String × Int)) (e : String × Int),
      e ∈ buildNamesMap names start m →
        e ∈ m ∨ ∃ i : Nat, names[i]? = some e.1 ∧ e.2 = ((start + i : Nat) : Int) := by
  intro names
  induction names with
  | nil => intro start m e he; left; simpa [buildNamesMap] using he
  | cons name rest ih =>
    intro start m e he
    unfold buildNamesMap at he
    rcases ih (start + 1) _ e he with h | ⟨i, hi, hv⟩
    · rcases (mem_mapSet m name _ e).1 h with ⟨h1, _⟩ | h1
      · exact Or.inl h1
      · right
        refine ⟨0, ?_, ?_⟩
        · rw [h1]; simp
        · rw [h1]; simp
    · right
      refine ⟨i + 1, ?_, ?_⟩
      · simpa using hi
      · rw [hv]
        congr 1
        omega

theorem namesMap_lookup (names : List String) (k : String)
    (h : k ∈ (buildNamesMap names 0 []).map Prod.fst) :
    ∃ i : Nat, names[i]? = some k ∧ (mapGet (buildNamesMap names 0 []) k).getD 0 = (i : Int) := by
  obtain ⟨v, hv, hm⟩ := mapGet_isSome_of_key _ k h
  rcases buildNamesMap_entry names 0 [] _ hm with h0 | ⟨i, hi, hvi⟩
  · simp at h0
  · refine ⟨i, hi, ?_⟩
    rw [hv]
    simp only [Option.getD_some]
    simpa using hvi

theorem Atoi_digits (o : List Char) (h : IsDigits o) :
    (Atoi (String.mk o)).1 =
      if (digitsVal o : Int) ≤ maxInt then (digitsVal o : Int) else maxInt := by
  have hall := (all_isDigit_iff o).2 h
  have h2 : ¬ (o = [] ∨ ¬ o.all isDigit = true) := by
    rintro (h3 | h3)
    · exact hall.1 h3
    · exact h3 hall.2
  have hval : (atoiDigits false o).1 =
      if (digitsVal o : Int) ≤ maxInt then (digitsVal o : Int) else maxInt := by
    unfold atoiDigits
    rw [if_neg h2]
    simp only [Bool.false_eq_true, if_false]
    unfold maxInt
    split_ifs with h4 h5 h5
    · omega
    · rfl
    · rfl
    · omega
  unfold Atoi
  cases o with
  | nil => exact absurd rfl h.1
  | cons c rest =>
    obtain ⟨hm, hp⟩ := digit_not_sign c (h.2 c (List.mem_cons_self _ _))
    simp only [hm, hp, if_false]
    exact hval

theorem operand_resolved (t : Table) (m : Caps) (col row const : String) (o : List Char)
    (hcm : t.ColNamesMap = buildNamesMap t.ColNames 0 [])
    (hrm : t.RowNamesMap = buildNamesMap t.RowNames 0 [])
    (hg : OperandGroups m col row const o) (addr : Option Address)
    (h : operandAddress t (capText m col) (capText m row) = (addr, none)) :
    OperandResolved t o addr (Atoi (capText m const)).1 := by
  rcases hg with ⟨ls, ds, hl, hd, ho, e1, e2, e3⟩ | ⟨hd, e1, e2, e3⟩
  · refine Or.inl ?_
    rw [e1, e2] at h
    rw [e3]
    unfold operandAddress at h
    rw [if_pos ⟨mk_ne_empty ls hl.1, mk_ne_empty ds hd.1⟩] at h
    cases hv : validateCellAddress t (String.mk ls) (String.mk ds) with
    | some e => rw [hv] at h; simp at h
    | none =>
      rw [hv] at h
      simp only [Prod.mk.injEq, and_true] at h
      obtain ⟨hc, hr⟩ := (validateCellAddress_iff t _ _).1 hv
      rw [hcm] at hc h
      rw [hrm] at hr h
      obtain ⟨i, hi, hvi⟩ := namesMap_lookup t.ColNames _ hc
      obtain ⟨j, hj, hvj⟩ := namesMap_lookup t.RowNames _ hr
      rw [hvi, hvj] at h
      exact ⟨ls, ds, i, j, hl, hd, ho, hi, hj, h.symm, rfl⟩
  · refine Or.inr ?_
    rw [e1, e2] at h
    rw [e3]
    unfold operandAddress at h
    rw [if_neg (by simp)] at h
    simp only [Prod.mk.injEq, and_true] at h
    exact ⟨hd, h.symm, Atoi_digits o hd⟩

theorem operandGroups_text (m : Caps) (col row const : String) (o : List Char)
    (hg : OperandGroups m col row const o) : IsOperandText o := by
  rcases hg with ⟨ls, ds, hl, hdg, rfl, _⟩ | ⟨hdg, _⟩
  · exact Or.inl ⟨ls, ds, hl, hdg, rfl⟩
  · exact Or.inr hdg

theorem parseRecord_operands (t t1 : Table) (s : String) (a : Address)
    (hcm : t.ColNamesMap = buildNamesMap t.ColNames 0 [])
    (hrm : t.RowNamesMap = buildNamesMap t.RowNames 0 [])
    (hp : HasPrefix s "=" = true) (h : parseRecord t s a = (t1, none)) :
    ∃ o1 op o2 f, s.data = '=' :: (o1 ++ op :: o2) ∧
      IsOperandText o1 ∧ IsOperatorRune op ∧ IsOperandText o2 ∧
      t1 = { t with formulas := mapSet t.formulas a f } ∧ f.Operator = op ∧
      OperandResolved t o1 f.Operand1Addr f.Arg1Const ∧
      OperandResolved t o2 f.Operand2Addr f.Arg2Const := by
  cases hm : formulaRegExCompiled.fullMatch s with
  | none => simp [parseRecord, hp, hm] at h
  | some m =>
    obtain ⟨o1, op, o2, hs, hop, hopc, hg1, hg2⟩ := fullMatch_groups s m hm
    simp only [parseRecord, hp, hm, if_true] at h
    cases h1 : operandAddress t (capText m "arg1ColName") (capText m "arg1RowName") with
    | mk a1 e1 =>
      rw [h1] at h
      cases e1 with
      | some e => simp at h
      | none =>
        simp only at h
        cases h2 : operandAddress t (capText m "arg2ColName") (capText m "arg2RowName") with
        | mk a2 e2 =>
          rw [h2] at h
          cases e2 with
          | some e => simp at h
          | none =>
            simp only [Prod.mk.injEq, and_true] at h
            refine ⟨o1, op, o2, _, hs, operandGroups_text m _ _ _ o1 hg1, hop,
              operandGroups_text m _ _ _ o2 hg2, h.symm, ?_,
              operand_resolved t m _ _ _ o1 hcm hrm hg1 a1 h1,
              operand_resolved t m _ _ _ o2 hcm hrm hg2 a2 h2⟩
            show (capText m "operator").data.headD (Char.ofNat 0) = op
            rw [hopc]
            rfl

/-- C18: the cell `=9223372036854775808+1` is accepted by `parseRecord`, and the constant
registered for its first operand is 9223372036854775807, not the value 9223372036854775808
of its digits: `strconv.Atoi` reports the range error and `parseRecord` discards it. The
grid with this single cell loads without error and its cell ends as
`-9223372036854775808`. -/
theorem parseRecord_constant_clamped :
    parseRecord emptyTable "=9223372036854775808+1" { ColumnIndex := 0, RowIndex := 0 } =
        ({ emptyTable with formulas := [({ ColumnIndex := 0, RowIndex := 0 }, overflowFormula)] },
          none) ∧
      (digitsVal "9223372036854775808".data : Int) = 9223372036854775808 ∧
      overflowFormula.Arg1Const ≠ (digitsVal "9223372036854775808".data : Int) ∧
      Atoi "9223372036854775808" = (9223372036854775807, some NumError.ErrRange) ∧
      (parseRecord emptyTable "9223372036854775808" { ColumnIndex := 0, RowIndex := 0 }).2 =
        some errMalformedNumber ∧
      ParseTable 1 id overflowRecords "," = .ret (overflowFinal, none) := by
  refine ⟨by decide, by decide, by decide, by decide, by decide, by decide⟩

end Yadro
